import Mathlib

/-!
# hyperflow-ui: workflow synthesis and experiment registry

A shallow embedding of `app/controllers/app.go`:

* `F32` models the `float32` arithmetic of the temperature loop (comparison and
  rounded addition), `FormatFloat` the call
  `strconv.FormatFloat(float64(t), 'f', -1, 64)`;
* `tempLoop` / `buildWorkflow` model the graph built by `App.NewWorkflow`;
* `Cache` models the `revel/cache` key-value store with expiring entries, and
  `CreateExperimentsTable` the controller action that records and lists experiments;
* `UpdateExperiment` models the completion probe.
-/

namespace HyperflowUI

/-! ## float32 -/

/-- IEEE-754 binary32 value. A finite value is a sign and a magnitude counted in units of
`2^-149` (the smallest subnormal): every finite binary32 number is a whole number of units. -/
inductive F32 where
  | nan : F32
  | inf (neg : Bool) : F32
  | fin (neg : Bool) (mag : Nat) : F32
  deriving DecidableEq

namespace F32

/-- Largest finite magnitude, `(2^24 - 1) * 2^104`, in units of `2^-149`. -/
def maxMag : Nat := (2 ^ 24 - 1) * 2 ^ 253

/-- Number of low bits that do not fit a 24-bit significand: the least `s` with
`n / 2^s < 2^24` (254 when `n` is beyond every finite binade). -/
def shiftOf (n : Nat) : Nat :=
  ((List.range 254).find? (fun s => decide (n / 2 ^ s < 2 ^ 24))).getD 254

/-- The magnitude `n` rounded to 24 significant bits, to nearest, ties to even. -/
def roundMag (n : Nat) : Nat :=
  let s := shiftOf n
  let q := n / 2 ^ s
  let r := n % 2 ^ s
  let q1 := if 2 ^ s < 2 * r ∨ (2 * r = 2 ^ s ∧ q % 2 = 1) then q + 1 else q
  q1 * 2 ^ s

/-- Round an exact magnitude to binary32, to nearest, ties to even; magnitudes that round
past `maxMag` become an infinity. -/
def round (neg : Bool) (n : Nat) : F32 :=
  if 254 ≤ shiftOf n ∨ maxMag < roundMag n then inf neg else fin neg (roundMag n)

/-- Magnitudes that are binary32 numbers: rounding leaves them unchanged. -/
def Representable (n : Nat) : Prop := round false n = fin false n

instance (n : Nat) : Decidable (Representable n) := by
  unfold Representable; infer_instance

/-- Values a `float32` variable can hold. -/
def WellFormed : F32 → Prop
  | fin _ k => Representable k
  | _ => True

instance (x : F32) : Decidable (WellFormed x) := by
  cases x <;> unfold WellFormed <;> infer_instance

/-- The `+` of two `float32` values (Go `temperature += step_temperature`). -/
def add : F32 → F32 → F32
  | nan, _ => nan
  | inf _, nan => nan
  | inf a, inf b => if a = b then inf a else nan
  | inf a, fin _ _ => inf a
  | fin _ _, nan => nan
  | fin _ _, inf b => inf b
  | fin na a, fin nb b =>
    if na = nb then round na (a + b)
    else if a = b then fin false 0
    else if b < a then round na (a - b)
    else round nb (b - a)

/-- The `<=` of two `float32` values: false when either side is NaN, and the two zeros
compare equal. -/
def le : F32 → F32 → Bool
  | nan, _ => false
  | inf _, nan => false
  | inf true, inf _ => true
  | inf true, fin _ _ => true
  | inf false, inf b => !b
  | inf false, fin _ _ => false
  | fin _ _, nan => false
  | fin _ _, inf b => !b
  | fin false a, fin false b => decide (a ≤ b)
  | fin true a, fin true b => decide (b ≤ a)
  | fin true _, fin false _ => true
  | fin false a, fin true b => decide (a = 0 ∧ b = 0)

/-- The value of a finite number, in units of `2^-149`. -/
def toInt : F32 → Int
  | fin false k => (k : Int)
  | fin true k => -(k : Int)
  | _ => 0

/-- The finite number with a given whole magnitude: `ofNat n` is the float `n.0`. -/
def ofNat (n : Nat) : F32 := fin false (n * 2 ^ 149)

end F32

/-! ## strconv.FormatFloat(float64(t), 'f', -1, 64) -/

/-- Number of decimal digits of `n` (for `n < 10^200`). -/
def decLen (n : Nat) : Nat :=
  ((List.range 200).find? (fun d => decide (n < 10 ^ d))).getD 200

/-- Bit length of a binary32 magnitude. -/
def bitLen (k : Nat) : Nat :=
  if k < 2 ^ 24 then ((List.range 25).find? (fun b => decide (k < 2 ^ b))).getD 24
  else F32.shiftOf k + 24

/-- The candidate with `n` significant digits for the scaled value `X` (digits counted from the
`D`-digit position): the `n`-digit truncation or its successor, whichever lies in the closed
interval `[lo, hi]` of decimals that read back as the same float64, the nearer one when both
do. -/
def shortestAt (X lo hi D n : Nat) : Option Nat :=
  let G := 2 ^ 54 * 10 ^ (D - n)
  let c := X / G
  let down := c * G
  let up := (c + 1) * G
  if lo ≤ down ∧ up ≤ hi then
    if X - down < up - X then some c
    else if up - X < X - down then some (c + 1)
    else some (if c % 2 = 0 then c else c + 1)
  else if lo ≤ down then some c
  else if up ≤ hi then some (c + 1)
  else none

/-- Shortest decimal that reads back as the float64 equal to the binary32 magnitude `k > 0`:
digits `c` and position `p`, the value being `c * 10^(p - 149)`. -/
def shortestDecimal (k : Nat) : Nat × Nat :=
  let b := bitLen k
  let X := k * 5 ^ 149 * 2 ^ 54
  let hi := X + 2 ^ b * 5 ^ 149
  let lo := X - (if k = 2 ^ (b - 1) then 2 ^ (b - 1) * 5 ^ 149 else 2 ^ b * 5 ^ 149)
  let D := decLen (k * 5 ^ 149)
  ((List.range 17).findSome? (fun i =>
      (shortestAt X lo hi D (i + 1)).map (fun c => (c, D - (i + 1))))).getD (k * 5 ^ 149, 0)

/-- Drop trailing zero digits of a decimal fraction: `c` with `f` fractional digits. -/
def stripZeros : Nat → Nat → Nat × Nat
  | c, 0 => (c, 0)
  | c, f + 1 => if c % 10 = 0 then stripZeros (c / 10) f else (c, f + 1)

/-- The `f` decimal digits of `r < 10^f`, leading zeros included. -/
def fracDigits (r f : Nat) : String :=
  String.mk (Nat.toDigits 10 (10 ^ f + r)).tail

/-- Positional (`%f`) rendering of `c * 10^(p - 149)` with no more digits than needed. -/
def fmtFixed (c p : Nat) : String :=
  if 149 ≤ p then Nat.repr (c * 10 ^ (p - 149))
  else
    let cf := stripZeros c (149 - p)
    if cf.2 = 0 then Nat.repr cf.1
    else Nat.repr (cf.1 / 10 ^ cf.2) ++ "." ++ fracDigits (cf.1 % 10 ^ cf.2) cf.2

/-- Model of `strconv.FormatFloat(float64(t), 'f', -1, 64)` for a `float32` value `t`, after
the documentation of the Go standard library: the conversion to float64 is exact, precision `-1`
asks for the fewest digits that identify the float64, and format `'f'` prints them without
exponent. The graph builder takes its formatter as a parameter; this one instantiates it. -/
def FormatFloat : F32 → String
  | F32.nan => "NaN"
  | F32.inf false => "+Inf"
  | F32.inf true => "-Inf"
  | F32.fin neg k =>
    (if neg then "-" else "") ++
      (if k = 0 then "0" else fmtFixed (shortestDecimal k).1 (shortestDecimal k).2)

/-- Model of `strconv.FormatUint(uint64(n), 10)`. -/
def FormatUint (n : Nat) : String := Nat.repr n

/-! ## The workflow graph (`WorkflowObject`) -/

/-- Go `ExecutorType`. -/
structure ExecutorType where
  Executable : String
  Args : List String
  deriving DecidableEq

/-- Go `ConfigType`. -/
structure ConfigType where
  Executor : ExecutorType
  deriving DecidableEq

/-- Go `ProcessesType`; `Typ` is the field `Type`. -/
structure ProcessesType where
  Name : String
  Function : String
  Typ : String
  Config : ConfigType
  Ins : List String
  Outs : List String
  deriving DecidableEq

/-- Go `SignalsType`; an omitted `Data` is the empty list. -/
structure SignalsType where
  Name : String
  Data : List String
  deriving DecidableEq

/-- Go `WorkflowObject`. -/
structure WorkflowObject where
  Processes : List ProcessesType
  Signals : List SignalsType
  Ins : List String
  Outs : List String
  deriving DecidableEq

/-- The form parameters of `App.NewWorkflow`. -/
structure SweepRequest where
  number_of_molecules : Nat
  min_temperature : F32
  max_temperature : F32
  step_temperature : F32
  simulation_end_time : F32
  record_movie : Bool
  deriving DecidableEq

/-- The archive name `"md-simulation-" + now + "-" + strTemp + ".tgz"`. -/
def archiveName (now strTemp : String) : String :=
  "md-simulation-" ++ now ++ "-" ++ strTemp ++ ".tgz"

/-- The video name `"md-simulation-" + now + "-" + strTemp + ".avi"`. -/
def videoName (now strTemp : String) : String :=
  "md-simulation-" ++ now ++ "-" ++ strTemp ++ ".avi"

section Builder

variable (fmt : F32 → String) (now : String) (req : SweepRequest)

/-- The simulation process of one loop iteration (app.go lines 122-140); `fmt` stands for
`strconv.FormatFloat(float64(.), 'f', -1, 64)`. -/
def simulationProcess (temperature : F32) : ProcessesType :=
  let strTemp := fmt temperature
  { Name := "run-simulation-" ++ strTemp
    Function := "amqpCommand"
    Typ := "dataflow"
    Config := { Executor := { Executable := "/MD_v4_MPI/run-cmd.sh"
                              Args := [FormatUint req.number_of_molecules,
                                       fmt req.simulation_end_time,
                                       fmt temperature,
                                       archiveName now strTemp] } }
    Ins := ["start"]
    Outs := [archiveName now strTemp] }

/-- The rendering process of one loop iteration (app.go lines 146-161). -/
def povrayProcess (temperature : F32) : ProcessesType :=
  let strTemp := fmt temperature
  { Name := "run-povray-" ++ strTemp
    Function := "amqpCommand"
    Typ := "dataflow"
    Config := { Executor := { Executable := "/MD_v4_MPI/make-movie.sh"
                              Args := [archiveName now strTemp, videoName now strTemp] } }
    Ins := [archiveName now strTemp]
    Outs := [videoName now strTemp] }

/-- One iteration of the temperature loop (app.go lines 122-166). -/
def loopBody (w : WorkflowObject) (temperature : F32) : WorkflowObject :=
  let strTemp := fmt temperature
  let w1 : WorkflowObject :=
    { w with
      Processes := w.Processes ++ [simulationProcess fmt now req temperature]
      Outs := w.Outs ++ [archiveName now strTemp]
      Signals := w.Signals ++ [{ Name := archiveName now strTemp, Data := [] }] }
  if req.record_movie = true then
    { w1 with
      Processes := w1.Processes ++ [povrayProcess fmt now temperature]
      Outs := w1.Outs ++ [videoName now strTemp]
      Signals := w1.Signals ++ [{ Name := videoName now strTemp, Data := [] }] }
  else w1

/-- The loop `for temperature := min; temperature <= max; temperature += step`, run for at most
`fuel` evaluations of its condition; `none` when the fuel runs out before the condition fails. -/
def tempLoop : Nat → WorkflowObject → F32 → Option WorkflowObject
  | 0, _, _ => none
  | fuel + 1, w, temperature =>
    if F32.le temperature req.max_temperature = true then
      tempLoop fuel (loopBody fmt now req w temperature)
        (F32.add temperature req.step_temperature)
    else some w

/-- The graph before the loop (app.go lines 114-119). -/
def initialWorkflow : WorkflowObject :=
  { Processes := []
    Signals := [{ Name := "start", Data := ["start"] }]
    Ins := ["start"]
    Outs := [] }

/-- The graph `workflowDescription` that `App.NewWorkflow` posts (app.go lines 114-167). -/
def buildWorkflow (fuel : Nat) : Option WorkflowObject :=
  tempLoop fmt now req fuel initialWorkflow req.min_temperature

end Builder

/-- The temperatures for which the loop body runs, within `fuel` evaluations of the
condition. -/
def sweepPoints (req : SweepRequest) : Nat → F32 → Option (List F32)
  | 0, _ => none
  | fuel + 1, temperature =>
    if F32.le temperature req.max_temperature = true then
      (sweepPoints req fuel (F32.add temperature req.step_temperature)).map
        (fun pts => temperature :: pts)
    else some []

/-- A simulation process: its name starts with `run-simulation-`. -/
def IsSimulation (p : ProcessesType) : Prop := "run-simulation-".data <+: p.Name.data

/-- A rendering process: its name starts with `run-povray-`. -/
def IsRendering (p : ProcessesType) : Prop := "run-povray-".data <+: p.Name.data

/-- An archive name: it ends in `.tgz`. -/
def IsArchive (s : String) : Prop := ".tgz".data <:+ s.data

/-- A video name: it ends in `.avi`. -/
def IsVideo (s : String) : Prop := ".avi".data <:+ s.data

instance (p : ProcessesType) : Decidable (IsSimulation p) := by
  unfold IsSimulation; infer_instance

instance (p : ProcessesType) : Decidable (IsRendering p) := by
  unfold IsRendering; infer_instance

instance (s : String) : Decidable (IsArchive s) := by
  unfold IsArchive; infer_instance

instance (s : String) : Decidable (IsVideo s) := by
  unfold IsVideo; infer_instance

section BuilderSpec

variable (fmt : F32 → String) (now : String) (req : SweepRequest)

/-- The processes one temperature point contributes, in emission order. -/
def pointProcesses (t : F32) : List ProcessesType :=
  if req.record_movie = true then
    [simulationProcess fmt now req t, povrayProcess fmt now t]
  else [simulationProcess fmt now req t]

/-- The declared outputs one temperature point contributes, in emission order. -/
def pointOuts (t : F32) : List String :=
  if req.record_movie = true then [archiveName now (fmt t), videoName now (fmt t)]
  else [archiveName now (fmt t)]

end BuilderSpec

/-! ## Sample requests -/

/-- The float `5.5`. -/
def fivePointFive : F32 := F32.fin false (11 * 2 ^ 148)

/-- The sweep `min=85, max=87, step=1, molecules=1000, simTime=5.5`, without movie. -/
def sweep85 : SweepRequest :=
  { number_of_molecules := 1000
    min_temperature := F32.ofNat 85
    max_temperature := F32.ofNat 87
    step_temperature := F32.ofNat 1
    simulation_end_time := fivePointFive
    record_movie := false }

/-- The same sweep with movie rendering. -/
def sweep85Movie : SweepRequest := { sweep85 with record_movie := true }

/-- The graph of `sweep85Movie` for the stamp `1446654321`. -/
def graph85Movie : WorkflowObject :=
  (buildWorkflow FormatFloat "1446654321" sweep85Movie 4).getD initialWorkflow

/-! ## Exact sweep arithmetic -/

namespace F32

/-- Whether the value is a number (neither NaN nor an infinity). -/
def isFinite : F32 → Bool
  | fin _ _ => true
  | _ => false

/-- The finite float with a given value in units of `2^-149` (zero is `+0`). -/
def ofInt (z : Int) : F32 := fin (decide (z < 0)) z.natAbs

end F32

/-- The real-number count `floor((max - min) / step) + 1` of the grid points
`min, min + step, ...` that do not exceed `max`. -/
def expectedCount (req : SweepRequest) : Nat :=
  ((req.max_temperature.toInt - req.min_temperature.toInt) /
    req.step_temperature.toInt).toNat + 1

/-- Number of simulation processes of a graph. -/
def simulationCount (g : WorkflowObject) : Nat :=
  g.Processes.countP (fun p => decide (IsSimulation p))

/-- Number of archive names among the declared outputs of a graph. -/
def archiveCount (g : WorkflowObject) : Nat :=
  g.Outs.countP (fun s => decide (IsArchive s))

/-- The sweep `min=16777216, max=16777240, step=3`: above `2^24` consecutive `float32` values
are 2 apart, so `t + 3` is rounded to `t + 4`. -/
def sweepCoarse : SweepRequest :=
  { number_of_molecules := 1000
    min_temperature := F32.ofNat 16777216
    max_temperature := F32.ofNat 16777240
    step_temperature := F32.ofNat 3
    simulation_end_time := fivePointFive
    record_movie := false }

/-! ## time.Stamp -/

/-- The fields of a `time.Time` that the layout `time.Stamp` prints. -/
structure WallTime where
  month : Fin 12
  day : Nat
  hour : Nat
  minute : Nat
  second : Nat
  deriving DecidableEq

/-- The three-letter month names of Go's `time` package, January being month 0. -/
def monthAbbrev (m : Fin 12) : String :=
  match m.val with
  | 0 => "Jan"
  | 1 => "Feb"
  | 2 => "Mar"
  | 3 => "Apr"
  | 4 => "May"
  | 5 => "Jun"
  | 6 => "Jul"
  | 7 => "Aug"
  | 8 => "Sep"
  | 9 => "Oct"
  | 10 => "Nov"
  | _ => "Dec"

/-- A number in two columns, padded on the left with `c`. -/
def pad2 (c : Char) (n : Nat) : String :=
  if n < 10 then String.singleton c ++ Nat.repr n else Nat.repr n

/-- Model of `t.Format(time.Stamp)`, the layout `"Jan _2 15:04:05"`. -/
def formatStamp (t : WallTime) : String :=
  monthAbbrev t.month ++ " " ++ pad2 ' ' t.day ++ " " ++ pad2 '0' t.hour ++ ":" ++
    pad2 '0' t.minute ++ ":" ++ pad2 '0' t.second

/-! ## Submission (`App.NewWorkflow`, app.go lines 93-210) -/

/-- Go `Filenames`. -/
structure Filenames where
  FilenameOutArchived : String
  FilenameOutVideo : String
  deriving DecidableEq

/-- The entries `App.NewWorkflow` writes into `c.RenderArgs` (app.go lines 199-207). -/
structure RenderArgs where
  filenames : Filenames
  simulation_end_time : F32
  molecules : Nat
  timestamp : String
  min_temperature : F32
  max_temperature : F32
  step_temperature : F32
  statusURL : String
  workflow : WorkflowObject
  deriving DecidableEq

/-- The part of an `http.Response` the action reads: the status code and the result of
`resp.Location()` (`none` when the `Location` header is missing or is not a URL). -/
structure HttpResponse where
  StatusCode : Nat
  Location : Option String
  deriving DecidableEq

/-- Result of `client.Do(req)`: a transport error or a response. -/
inductive PostResult where
  | err : PostResult
  | response (resp : HttpResponse) : PostResult
  deriving DecidableEq

/-- The value a `panic` of `App.NewWorkflow` carries. -/
inductive PanicValue where
  | transportError : PanicValue
  | rejected (resp : HttpResponse) : PanicValue
  | noLocation : PanicValue
  deriving DecidableEq

/-- How a call of `App.NewWorkflow` ends. -/
inductive ActionResult where
  | redirect : ActionResult
  | panicked (v : PanicValue) : ActionResult
  | rendered (args : RenderArgs) : ActionResult
  deriving DecidableEq

/-- Model of `strconv.FormatInt(z, 10)`. -/
def FormatInt (z : Int) : String := toString z

/-- Go `http.StatusCreated`. -/
def StatusCreated : Nat := 201

/-- The action `App.NewWorkflow`. `hasErrors` is `c.Validation.HasErrors()`, `unixNow` the value of
`time.Now().Unix()` at line 107, `timestamp` the `time.Now()` of line 196, `post` the answer of
the execution service to the posted graph. The result is `none` when the temperature loop does
not stop within `fuel` evaluations of its condition. -/
def NewWorkflow (fmt : F32 → String) (hasErrors : Bool) (unixNow : Int) (timestamp : WallTime)
    (post : WorkflowObject → PostResult) (req : SweepRequest) (fuel : Nat) :
    Option ActionResult :=
  if hasErrors = true then some ActionResult.redirect
  else
    let now := FormatInt unixNow
    let timestamp_str := formatStamp timestamp
    let f : Filenames :=
      { FilenameOutArchived := "md-simulation-" ++ now ++ ".tgz"
        FilenameOutVideo := "md-simulation-" ++ now ++ ".avi" }
    match buildWorkflow fmt now req fuel with
    | none => none
    | some workflowDescription =>
      match post workflowDescription with
      | PostResult.err => some (ActionResult.panicked PanicValue.transportError)
      | PostResult.response resp =>
        if resp.StatusCode ≠ StatusCreated then
          some (ActionResult.panicked (PanicValue.rejected resp))
        else
          match resp.Location with
          | none => some (ActionResult.panicked PanicValue.noLocation)
          | some statusURL =>
            some (ActionResult.rendered
              { filenames := f
                simulation_end_time := req.simulation_end_time
                molecules := req.number_of_molecules
                timestamp := timestamp_str
                min_temperature := req.min_temperature
                max_temperature := req.max_temperature
                step_temperature := req.step_temperature
                statusURL := statusURL
                workflow := workflowDescription })

/-- The render arguments an action leaves behind: those of lines 199-207 when it reaches them,
none when it redirects or panics. -/
def renderArgsOf : ActionResult → Option RenderArgs
  | ActionResult.rendered args => some args
  | _ => none

/-! ## Experiment registry (`App.CreateExperimentsTable`, app.go lines 212-266) -/

/-- Go `Experiment`. -/
structure Experiment where
  Stamp : String
  Molecules : String
  MinTemperature : String
  MaxTemperature : String
  StepTemperature : String
  SimulationTime : String
  Status : String
  Artifacts : String
  Tgz : String
  Avi : String
  Workflow : WorkflowObject
  deriving DecidableEq

/-- What the controller stores in the cache: the identifier list under `experiment_ids`, an
`Experiment` under its stamp. -/
inductive CacheValue where
  | ids (l : List String) : CacheValue
  | experiment (e : Experiment) : CacheValue
  deriving DecidableEq

/-- A cache entry: the value and the time after which it is expired. -/
structure CacheItem where
  value : CacheValue
  expiration : Nat
  deriving DecidableEq

/-- The `revel/cache` store: keys with their entries, at most one entry per key in use (the
first). -/
abbrev Cache := List (String × CacheItem)

/-- The duration `cache.DEFAULT`: one hour (app.go line 237), in seconds. -/
def cacheDefault : Nat := 3600

namespace Cache

/-- The entry in use for a key, expired or not. -/
def entry (c : Cache) (key : String) : Option CacheItem := List.lookup key c

/-- The live value of a key at time `clock`: an entry is expired once the clock has passed its
expiration. -/
def find (c : Cache) (clock : Nat) (key : String) : Option CacheValue :=
  match c.entry key with
  | some item => if clock ≤ item.expiration then some item.value else none
  | none => none

/-- Model of `cache.Set(key, value, expires)`: overwrite. -/
def set (c : Cache) (clock : Nat) (key : String) (value : CacheValue) (expires : Nat) : Cache :=
  (key, { value := value, expiration := clock + expires }) :: c.filter (fun kv => kv.1 ≠ key)

/-- Model of `cache.Add(key, value, expires)`: store only if the key has no live value; `none`
is the error `ErrNotStored`. -/
def add (c : Cache) (clock : Nat) (key : String) (value : CacheValue) (expires : Nat) :
    Option Cache :=
  match c.find clock key with
  | some _ => none
  | none => some (c.set clock key value expires)

/-- Model of `cache.Get("experiment_ids", &experimentIds)`: the stored list, `none` for any
error (no live value, or a value that is not a list). -/
def getIds (c : Cache) (clock : Nat) (key : String) : Option (List String) :=
  match c.find clock key with
  | some (CacheValue.ids l) => some l
  | _ => none

/-- Model of `g.Get(key, &oldExperiment)` on the getter of `cache.GetMulti`: the stored
experiment, `none` for any error. -/
def getExperiment (c : Cache) (clock : Nat) (key : String) : Option Experiment :=
  match c.find clock key with
  | some (CacheValue.experiment e) => some e
  | _ => none

end Cache

/-- Go `int64(molecules)` for a 64-bit `uint`. -/
def toInt64 (n : Nat) : Int :=
  if n % 2 ^ 64 < 2 ^ 63 then ((n % 2 ^ 64 : Nat) : Int) else ((n % 2 ^ 64 : Nat) : Int) - 2 ^ 64

/-- The record built from the render arguments (app.go lines 219-235). -/
def newExperimentOf (fmt : F32 → String) (args : RenderArgs) : Experiment :=
  { Stamp := args.timestamp
    Molecules := FormatInt (toInt64 args.molecules)
    MinTemperature := fmt args.min_temperature
    MaxTemperature := fmt args.max_temperature
    StepTemperature := fmt args.step_temperature
    SimulationTime := fmt args.simulation_end_time
    Status := "Running"
    Artifacts := ""
    Tgz := args.filenames.FilenameOutArchived
    Avi := args.filenames.FilenameOutVideo
    Workflow := args.workflow }

/-- Lines 214-217: read the index; any error leaves the empty slice. -/
def readIndex (c : Cache) (clock : Nat) : List String :=
  (c.getIds clock "experiment_ids").getD []

/-- Lines 238-242: insert the record if its stamp has no live value and, only then, push the
stamp to the front of the identifiers read before and rewrite the index. Returns the cache, the
identifier slice, and whether `cache.Add` returned no error. -/
def recordNew (c : Cache) (clock : Nat) (newExperiment : Experiment)
    (experimentIds : List String) : Cache × List String × Bool :=
  match c.add clock newExperiment.Stamp (CacheValue.experiment newExperiment) cacheDefault with
  | some c1 =>
    (c1.set clock "experiment_ids" (CacheValue.ids (newExperiment.Stamp :: experimentIds))
        cacheDefault,
      newExperiment.Stamp :: experimentIds, true)
  | none => (c, experimentIds, false)

/-- Lines 245-254: the records of the identifiers, in order, skipping those whose lookup
fails. -/
def listExperiments (c : Cache) (clock : Nat) (experimentIds : List String) : List Experiment :=
  experimentIds.filterMap (fun value => c.getExperiment clock value)

/-- The action `App.CreateExperimentsTable` at cache time `clock`: `args` are the render
arguments of the request (`none` when `RenderArgs["timestamp"]` is nil). Returns the cache
afterwards and the list `myExperiments` handed to the template. -/
def CreateExperimentsTable (fmt : F32 → String) (c : Cache) (clock : Nat)
    (args : Option RenderArgs) : Cache × List Experiment :=
  let experimentIds := readIndex c clock
  match args with
  | some a =>
    let r := recordNew c clock (newExperimentOf fmt a) experimentIds
    (r.1, listExperiments r.1 clock r.2.1)
  | none => (c, listExperiments c clock experimentIds)

/-! ## Completion probe (`App.UpdateExperiment`, app.go lines 268-285) -/

/-- Go `JsonMessage`; an empty field is omitted from the JSON. -/
structure JsonMessage where
  Status : String
  Error : String
  deriving DecidableEq

/-- Result of `http.Get(s3Resource)`: an error or the status code of the response. -/
inductive GetResult where
  | err : GetResult
  | response (StatusCode : Nat) : GetResult
  deriving DecidableEq

/-- The action `App.UpdateExperiment`; `httpGet` is the network. -/
def UpdateExperiment (httpGet : String → GetResult) (s3Resource : String) : JsonMessage :=
  if s3Resource = "" then { Status := "", Error := "n/a" }
  else
    match httpGet s3Resource with
    | GetResult.response code =>
      if code = 200 then { Status := "Finished", Error := "" }
      else { Status := "Running", Error := "" }
    | GetResult.err => { Status := "Running", Error := "" }

/-- The three answers of the probe, in the words of the specification. -/
inductive ProbeStatus where
  | NotApplicable : ProbeStatus
  | Finished : ProbeStatus
  | Running : ProbeStatus
  deriving DecidableEq

/-- The probe as specified: an empty locator is not applicable, a successful fetch means
finished, anything else running. -/
def Probe (fetchSucceeds : String → Bool) (resourceLocator : String) : ProbeStatus :=
  if resourceLocator = "" then ProbeStatus.NotApplicable
  else if fetchSucceeds resourceLocator = true then ProbeStatus.Finished
  else ProbeStatus.Running

/-- The JSON body for each answer. -/
def ProbeStatus.toJson : ProbeStatus → JsonMessage
  | ProbeStatus.NotApplicable => { Status := "", Error := "n/a" }
  | ProbeStatus.Finished => { Status := "Finished", Error := "" }
  | ProbeStatus.Running => { Status := "Running", Error := "" }

/-- A fetch succeeds when `http.Get` returns no error and the status code is 200. -/
def GetResult.succeeds : GetResult → Bool
  | GetResult.response code => decide (code = 200)
  | GetResult.err => false

/-! ## Sample registry data -/

/-- A record as `App.CreateExperimentsTable` builds it for the sweep 85..87. -/
def experimentA : Experiment :=
  { Stamp := "Nov  4 17:25:21"
    Molecules := "1000"
    MinTemperature := "85"
    MaxTemperature := "87"
    StepTemperature := "1"
    SimulationTime := "5.5"
    Status := "Running"
    Artifacts := ""
    Tgz := "md-simulation-1446654321.tgz"
    Avi := "md-simulation-1446654321.avi"
    Workflow := initialWorkflow }

/-- A second submission carrying the same stamp. -/
def experimentB : Experiment := { experimentA with Molecules := "2000" }

/-- The cache after `experimentA` was recorded at time 100 into an empty cache. -/
def cacheA : Cache := (recordNew [] 100 experimentA []).1

/-- The wall-clock time `Nov  4 17:25:21`. -/
def sampleTime : WallTime := { month := 10, day := 4, hour := 17, minute := 25, second := 21 }

/-- An execution service that answers 201 Created without a `Location` header. -/
def postCreatedNoLocation : WorkflowObject → PostResult :=
  fun _ => PostResult.response { StatusCode := 201, Location := none }

/-- An execution service that answers 200 OK. -/
def postOk : WorkflowObject → PostResult :=
  fun _ => PostResult.response { StatusCode := 200, Location := some "http://localhost/apps/1" }

/-- The list of recent experiments in the words of the specification: an index that is not
present (or expired) is an empty index; each identifier is looked up in index order and those
without a record are skipped. -/
def ListRecent (index : Option (List String)) (record : String → Option Experiment) :
    List Experiment :=
  match index with
  | none => []
  | some ids => collect ids
where
  /-- The records of the identifiers that have one, in order. -/
  collect : List String → List Experiment
    | [] => []
    | id :: rest =>
      match record id with
      | some e => e :: collect rest
      | none => collect rest

/-! ## Further sample requests and counts -/

namespace F32

/-- The `<` of two `float32` values: false when either side is NaN, and the two zeros compare
equal. Go's `a > b` is `lt b a`. -/
def lt : F32 → F32 → Bool
  | nan, _ => false
  | inf _, nan => false
  | inf true, inf b => !b
  | inf true, fin _ _ => true
  | inf false, inf _ => false
  | inf false, fin _ _ => false
  | fin _ _, nan => false
  | fin _ _, inf b => !b
  | fin false a, fin false b => decide (a < b)
  | fin true a, fin true b => decide (b < a)
  | fin true a, fin false b => decide (¬ (a = 0 ∧ b = 0))
  | fin false _, fin true _ => false

end F32

/-- Number of rendering processes of a graph. -/
def renderingCount (g : WorkflowObject) : Nat :=
  g.Processes.countP (fun p => decide (IsRendering p))

/-- The sweep `min=87, max=85, step=1` with movie rendering: an empty range. -/
def sweepReversed : SweepRequest :=
  { number_of_molecules := 1000
    min_temperature := F32.ofNat 87
    max_temperature := F32.ofNat 85
    step_temperature := F32.ofNat 1
    simulation_end_time := fivePointFive
    record_movie := true }

/-- An execution service that answers 201 Created with a status handle. -/
def postCreated : WorkflowObject → PostResult :=
  fun _ => PostResult.response
    { StatusCode := 201, Location := some "http://localhost:51404/apps/1" }

/-- The render arguments `App.NewWorkflow` leaves for the sweep 85..87 submitted at Unix time
`1446654321`, wall-clock time `Nov  4 17:25:21`, and accepted by the execution service. -/
def args85 : RenderArgs :=
  { filenames :=
      { FilenameOutArchived := "md-simulation-1446654321.tgz"
        FilenameOutVideo := "md-simulation-1446654321.avi" }
    simulation_end_time := fivePointFive
    molecules := 1000
    timestamp := "Nov  4 17:25:21"
    min_temperature := F32.ofNat 85
    max_temperature := F32.ofNat 87
    step_temperature := F32.ofNat 1
    statusURL := "http://localhost:51404/apps/1"
    workflow := (buildWorkflow FormatFloat "1446654321" sweep85 4).getD initialWorkflow }

/-- The sweep `min=16777216, max=16777220, step=1`: `16777216 + 1` is half-way between two
`float32` values and rounds back to `16777216`. -/
def sweepStuck : SweepRequest :=
  { number_of_molecules := 1000
    min_temperature := F32.ofNat 16777216
    max_temperature := F32.ofNat 16777220
    step_temperature := F32.ofNat 1
    simulation_end_time := fivePointFive
    record_movie := false }

/-! ## Reading a positional decimal back -/

/-- Value of a list of decimal digit characters, most significant first. -/
def digitsValue (l : List Char) : Nat :=
  l.foldl (fun acc c => acc * 10 + (c.toNat - 48)) 0

/-- Value of a positional decimal string (digits, optionally a point and more digits), in units
of `10^-149`. -/
def decodeFixed (s : String) : Nat :=
  digitsValue (s.data.takeWhile (fun c => c != '.')) * 10 ^ 149 +
    digitsValue (s.data.dropWhile (fun c => c != '.')).tail *
      10 ^ (149 - (s.data.dropWhile (fun c => c != '.')).tail.length)

namespace F32

/-- The `float32` value of an IEEE-754 bit pattern (Go `math.Float32frombits`): sign bit,
eight exponent bits, twenty-three fraction bits. -/
def ofBits (w : Nat) : F32 :=
  let sign := decide (w / 2 ^ 31 % 2 = 1)
  let e := w / 2 ^ 23 % 256
  let f := w % 2 ^ 23
  if e = 255 then (if f = 0 then inf sign else nan)
  else if e = 0 then fin sign f
  else fin sign ((2 ^ 23 + f) * 2 ^ (e - 1))

end F32

/-! # Properties -/

/-! ## Strings -/

theorem str_append_left_cancel (p a b : String) (h : p ++ a = p ++ b) : a = b := by
  have h2 := congrArg String.data h
  simp only [String.data_append] at h2
  exact String.ext (List.append_cancel_left h2)

theorem str_append_right_cancel (a b s : String) (h : a ++ s = b ++ s) : a = b := by
  have h2 := congrArg String.data h
  simp only [String.data_append] at h2
  exact String.ext (List.append_cancel_right h2)

theorem archiveName_inj (now a b : String) (h : archiveName now a = archiveName now b) :
    a = b := by
  unfold archiveName at h
  exact str_append_left_cancel _ _ _ (str_append_right_cancel _ _ _ h)

theorem videoName_inj (now a b : String) (h : videoName now a = videoName now b) : a = b := by
  unfold videoName at h
  exact str_append_left_cancel _ _ _ (str_append_right_cancel _ _ _ h)

theorem archiveName_ne_videoName (now a b : String) : archiveName now a ≠ videoName now b := by
  intro h
  have h2 := congrArg String.data h
  simp only [archiveName, videoName, String.data_append] at h2
  have h3 := (List.append_inj' h2 (by decide)).2
  exact absurd h3 (by decide)

theorem archiveName_ne_start (now a : String) : archiveName now a ≠ "start" := by
  intro h
  have h2 := congrArg String.data h
  simp only [archiveName, String.data_append, List.append_assoc] at h2
  have h3 := congrArg List.head? h2
  exact absurd h3 (by simp [List.head?_append])

theorem videoName_ne_start (now a : String) : videoName now a ≠ "start" := by
  intro h
  have h2 := congrArg String.data h
  simp only [videoName, String.data_append, List.append_assoc] at h2
  have h3 := congrArg List.head? h2
  exact absurd h3 (by simp [List.head?_append])

theorem isArchive_archiveName (now a : String) : IsArchive (archiveName now a) := by
  unfold IsArchive archiveName
  rw [String.data_append]
  exact List.suffix_append _ _

theorem not_isArchive_videoName (now a : String) : ¬ IsArchive (videoName now a) := by
  unfold IsArchive videoName
  rw [String.data_append]
  intro h
  obtain ⟨t, ht⟩ := h
  have h3 := (List.append_inj' ht (by decide)).2
  exact absurd h3 (by decide)

theorem isSimulation_simulationProcess (fmt : F32 → String) (now : String) (req : SweepRequest)
    (t : F32) : IsSimulation (simulationProcess fmt now req t) := by
  unfold IsSimulation simulationProcess
  simp only [String.data_append]
  exact List.prefix_append _ _

theorem not_isSimulation_povrayProcess (fmt : F32 → String) (now : String) (t : F32) :
    ¬ IsSimulation (povrayProcess fmt now t) := by
  unfold IsSimulation povrayProcess
  simp only [String.data_append]
  intro h
  have h2 := List.prefix_of_prefix_length_le (List.prefix_append _ _) h (by decide)
  exact absurd h2 (by decide)

theorem isRendering_povrayProcess (fmt : F32 → String) (now : String) (t : F32) :
    IsRendering (povrayProcess fmt now t) := by
  unfold IsRendering povrayProcess
  simp only [String.data_append]
  exact List.prefix_append _ _

/-! ## The loop as a fold over the visited temperatures -/

theorem tempLoop_eq_foldl (fmt : F32 → String) (now : String) (req : SweepRequest)
    (fuel : Nat) (w : WorkflowObject) (t : F32) :
    tempLoop fmt now req fuel w t =
      (sweepPoints req fuel t).map (fun pts => pts.foldl (loopBody fmt now req) w) := by
  induction fuel generalizing w t with
  | zero => rfl
  | succ n ih =>
    unfold tempLoop sweepPoints
    by_cases hle : F32.le t req.max_temperature = true
    · rw [if_pos hle, if_pos hle, ih]
      cases sweepPoints req n (F32.add t req.step_temperature) <;> rfl
    · rw [if_neg hle, if_neg hle]; rfl

theorem loopBody_Processes (fmt : F32 → String) (now : String) (req : SweepRequest)
    (w : WorkflowObject) (t : F32) :
    (loopBody fmt now req w t).Processes = w.Processes ++ pointProcesses fmt now req t := by
  unfold loopBody pointProcesses
  by_cases hm : req.record_movie = true <;> simp [hm]

theorem loopBody_Outs (fmt : F32 → String) (now : String) (req : SweepRequest)
    (w : WorkflowObject) (t : F32) :
    (loopBody fmt now req w t).Outs = w.Outs ++ pointOuts fmt now req t := by
  unfold loopBody pointOuts
  by_cases hm : req.record_movie = true <;> simp [hm]

theorem loopBody_Signals (fmt : F32 → String) (now : String) (req : SweepRequest)
    (w : WorkflowObject) (t : F32) :
    (loopBody fmt now req w t).Signals =
      w.Signals ++ (pointOuts fmt now req t).map (fun n => { Name := n, Data := [] }) := by
  unfold loopBody pointOuts
  by_cases hm : req.record_movie = true <;> simp [hm]

theorem loopBody_Ins (fmt : F32 → String) (now : String) (req : SweepRequest)
    (w : WorkflowObject) (t : F32) : (loopBody fmt now req w t).Ins = w.Ins := by
  unfold loopBody
  by_cases hm : req.record_movie = true <;> simp [hm]

theorem foldl_loopBody_Processes (fmt : F32 → String) (now : String) (req : SweepRequest)
    (pts : List F32) (w : WorkflowObject) :
    (pts.foldl (loopBody fmt now req) w).Processes =
      w.Processes ++ pts.flatMap (pointProcesses fmt now req) := by
  induction pts generalizing w with
  | nil => simp
  | cons t rest ih =>
    rw [List.foldl_cons, ih, loopBody_Processes, List.flatMap_cons, List.append_assoc]

theorem foldl_loopBody_Outs (fmt : F32 → String) (now : String) (req : SweepRequest)
    (pts : List F32) (w : WorkflowObject) :
    (pts.foldl (loopBody fmt now req) w).Outs =
      w.Outs ++ pts.flatMap (pointOuts fmt now req) := by
  induction pts generalizing w with
  | nil => simp
  | cons t rest ih =>
    rw [List.foldl_cons, ih, loopBody_Outs, List.flatMap_cons, List.append_assoc]

theorem foldl_loopBody_Signals (fmt : F32 → String) (now : String) (req : SweepRequest)
    (pts : List F32) (w : WorkflowObject) :
    (pts.foldl (loopBody fmt now req) w).Signals =
      w.Signals ++
        (pts.flatMap (pointOuts fmt now req)).map (fun n => { Name := n, Data := [] }) := by
  induction pts generalizing w with
  | nil => simp
  | cons t rest ih =>
    rw [List.foldl_cons, ih, loopBody_Signals, List.flatMap_cons, List.map_append,
      List.append_assoc]

theorem foldl_loopBody_Ins (fmt : F32 → String) (now : String) (req : SweepRequest)
    (pts : List F32) (w : WorkflowObject) :
    (pts.foldl (loopBody fmt now req) w).Ins = w.Ins := by
  induction pts generalizing w with
  | nil => rfl
  | cons t rest ih => rw [List.foldl_cons, ih, loopBody_Ins]

/-- The graph is the fold of the loop body over the visited temperatures; its four fields in
closed form. -/
theorem buildWorkflow_eq (fmt : F32 → String) (now : String) (req : SweepRequest) (fuel : Nat)
    (pts : List F32) (hpts : sweepPoints req fuel req.min_temperature = some pts) :
    ∃ g, buildWorkflow fmt now req fuel = some g ∧
      g.Processes = pts.flatMap (pointProcesses fmt now req) ∧
      g.Outs = pts.flatMap (pointOuts fmt now req) ∧
      g.Signals = { Name := "start", Data := ["start"] } ::
        (pts.flatMap (pointOuts fmt now req)).map (fun n => { Name := n, Data := [] }) ∧
      g.Ins = ["start"] := by
  refine ⟨pts.foldl (loopBody fmt now req) initialWorkflow, ?_, ?_, ?_, ?_, ?_⟩
  · unfold buildWorkflow
    rw [tempLoop_eq_foldl, hpts]; rfl
  · rw [foldl_loopBody_Processes]; rfl
  · rw [foldl_loopBody_Outs]; rfl
  · rw [foldl_loopBody_Signals]; rfl
  · rw [foldl_loopBody_Ins]; rfl

theorem sweepPoints_of_buildWorkflow (fmt : F32 → String) (now : String) (req : SweepRequest)
    (fuel : Nat) (g : WorkflowObject) (h : buildWorkflow fmt now req fuel = some g) :
    ∃ pts, sweepPoints req fuel req.min_temperature = some pts := by
  unfold buildWorkflow at h
  rw [tempLoop_eq_foldl] at h
  cases hs : sweepPoints req fuel req.min_temperature with
  | none => rw [hs] at h; simp at h
  | some pts => exact ⟨pts, rfl⟩

/-! ## The visited temperatures -/

theorem sweepPoints_succ (req : SweepRequest) (fuel : Nat) (t : F32) (pts : List F32)
    (h : sweepPoints req fuel t = some pts) : sweepPoints req (fuel + 1) t = some pts := by
  induction fuel generalizing t pts with
  | zero => simp [sweepPoints] at h
  | succ n ih =>
    unfold sweepPoints at h ⊢
    by_cases hle : F32.le t req.max_temperature = true
    · rw [if_pos hle] at h ⊢
      cases hs : sweepPoints req n (F32.add t req.step_temperature) with
      | none => rw [hs] at h; simp at h
      | some rest =>
        rw [hs] at h
        rw [ih _ _ hs]
        exact h
    · rw [if_neg hle] at h ⊢
      exact h

theorem sweepPoints_mono (req : SweepRequest) (fuel extra : Nat) (t : F32) (pts : List F32)
    (h : sweepPoints req fuel t = some pts) : sweepPoints req (fuel + extra) t = some pts := by
  induction extra with
  | zero => exact h
  | succ k ih => exact sweepPoints_succ req (fuel + k) t pts ih

theorem sweepPoints_unique (req : SweepRequest) (f1 f2 : Nat) (t : F32) (a b : List F32)
    (h1 : sweepPoints req f1 t = some a) (h2 : sweepPoints req f2 t = some b) : a = b := by
  have e1 := sweepPoints_mono req f1 f2 t a h1
  have e2 := sweepPoints_mono req f2 f1 t b h2
  rw [Nat.add_comm] at e2
  rw [e1] at e2
  exact Option.some.inj e2

theorem sweepPoints_subrun (req : SweepRequest) (fuel : Nat) (u t : F32) (pts : List F32)
    (h : sweepPoints req fuel u = some pts) (ht : t ∈ pts) :
    ∃ f pts1, sweepPoints req f t = some pts1 ∧ pts1.length ≤ pts.length := by
  induction fuel generalizing u pts with
  | zero => simp [sweepPoints] at h
  | succ n ih =>
    have h0 := h
    unfold sweepPoints at h
    by_cases hle : F32.le u req.max_temperature = true
    · rw [if_pos hle] at h
      cases hs : sweepPoints req n (F32.add u req.step_temperature) with
      | none => rw [hs] at h; simp at h
      | some rest =>
        rw [hs] at h
        have hp : pts = u :: rest := (Option.some.inj h).symm
        subst hp
        rcases List.mem_cons.mp ht with rfl | hmem
        · exact ⟨n + 1, t :: rest, h0, le_refl _⟩
        · obtain ⟨f, pts1, hf, hlen⟩ := ih _ _ hs hmem
          exact ⟨f, pts1, hf, Nat.le_succ_of_le hlen⟩
    · rw [if_neg hle] at h
      have hp : pts = [] := (Option.some.inj h).symm
      subst hp
      simp at ht

/-- A loop that stops never visits the same `float32` value twice. -/
theorem sweepPoints_nodup (req : SweepRequest) (fuel : Nat) (t : F32) (pts : List F32)
    (h : sweepPoints req fuel t = some pts) : pts.Nodup := by
  induction fuel generalizing t pts with
  | zero => simp [sweepPoints] at h
  | succ n ih =>
    have h0 := h
    unfold sweepPoints at h
    by_cases hle : F32.le t req.max_temperature = true
    · rw [if_pos hle] at h
      cases hs : sweepPoints req n (F32.add t req.step_temperature) with
      | none => rw [hs] at h; simp at h
      | some rest =>
        rw [hs] at h
        have hp : pts = t :: rest := (Option.some.inj h).symm
        subst hp
        refine List.nodup_cons.mpr ⟨?_, ih _ _ hs⟩
        intro hmem
        obtain ⟨f, pts1, hf, hlen⟩ := sweepPoints_subrun req n _ t rest hs hmem
        have := sweepPoints_unique req f (n + 1) t pts1 (t :: rest) hf h0
        subst this
        simp at hlen
    · rw [if_neg hle] at h
      have hp : pts = [] := (Option.some.inj h).symm
      subst hp
      exact List.nodup_nil

/-- Every visited temperature passed the loop condition. -/
theorem sweepPoints_le (req : SweepRequest) (fuel : Nat) (t : F32) (pts : List F32)
    (h : sweepPoints req fuel t = some pts) :
    ∀ x ∈ pts, F32.le x req.max_temperature = true := by
  induction fuel generalizing t pts with
  | zero => simp [sweepPoints] at h
  | succ n ih =>
    unfold sweepPoints at h
    by_cases hle : F32.le t req.max_temperature = true
    · rw [if_pos hle] at h
      cases hs : sweepPoints req n (F32.add t req.step_temperature) with
      | none => rw [hs] at h; simp at h
      | some rest =>
        rw [hs] at h
        have hp : pts = t :: rest := (Option.some.inj h).symm
        subst hp
        intro x hx
        rcases List.mem_cons.mp hx with rfl | hmem
        · exact hle
        · exact ih _ _ hs x hmem
    · rw [if_neg hle] at h
      have hp : pts = [] := (Option.some.inj h).symm
      subst hp
      simp

/-! ## Structure of the emitted process list -/

theorem simulation_name_ne_povray_name (a b : String) :
    "run-simulation-" ++ a ≠ "run-povray-" ++ b := by
  intro h
  have h2 := congrArg (fun s => s.data.take 5) h
  simp only [String.data_append] at h2
  rw [List.take_append_of_le_length (by decide), List.take_append_of_le_length (by decide)] at h2
  exact absurd h2 (by decide)

theorem paired_processes (fmt : F32 → String) (now : String) (req : SweepRequest)
    (hmovie : req.record_movie = true) (pts : List F32) (i : Nat) (p : ProcessesType)
    (hp : (pts.flatMap (pointProcesses fmt now req))[i]? = some p) (hsim : IsSimulation p) :
    ∃ t, t ∈ pts ∧ p = simulationProcess fmt now req t ∧
      (pts.flatMap (pointProcesses fmt now req))[i + 1]? = some (povrayProcess fmt now t) := by
  induction pts generalizing i with
  | nil => simp at hp
  | cons t rest ih =>
    have hcons : (t :: rest).flatMap (pointProcesses fmt now req) =
        simulationProcess fmt now req t :: povrayProcess fmt now t ::
          rest.flatMap (pointProcesses fmt now req) := by
      simp [List.flatMap_cons, pointProcesses, hmovie]
    rw [hcons] at hp ⊢
    match i, hp with
    | 0, hp =>
      simp only [List.getElem?_cons_zero, Option.some.injEq] at hp
      exact ⟨t, List.mem_cons_self _ _, hp.symm, by simp⟩
    | 1, hp =>
      simp only [List.getElem?_cons_succ, List.getElem?_cons_zero, Option.some.injEq] at hp
      subst hp
      exact absurd hsim (not_isSimulation_povrayProcess fmt now t)
    | k + 2, hp =>
      simp only [List.getElem?_cons_succ] at hp
      obtain ⟨u, hu, hpu, hnext⟩ := ih k hp
      refine ⟨u, List.mem_cons_of_mem _ hu, hpu, ?_⟩
      simpa only [List.getElem?_cons_succ] using hnext

theorem ins_produced_earlier (fmt : F32 → String) (now : String) (req : SweepRequest)
    (pts : List F32) (i : Nat) (p : ProcessesType)
    (hp : (pts.flatMap (pointProcesses fmt now req))[i]? = some p) (x : String)
    (hx : x ∈ p.Ins) :
    x = "start" ∨ ∃ j q, j < i ∧
      (pts.flatMap (pointProcesses fmt now req))[j]? = some q ∧ x ∈ q.Outs := by
  induction pts generalizing i with
  | nil => simp at hp
  | cons t rest ih =>
    by_cases hmovie : req.record_movie = true
    · have hcons : (t :: rest).flatMap (pointProcesses fmt now req) =
          simulationProcess fmt now req t :: povrayProcess fmt now t ::
            rest.flatMap (pointProcesses fmt now req) := by
        simp [List.flatMap_cons, pointProcesses, hmovie]
      rw [hcons] at hp ⊢
      match i, hp with
      | 0, hp =>
        simp only [List.getElem?_cons_zero, Option.some.injEq] at hp
        subst hp
        left
        simpa [simulationProcess] using hx
      | 1, hp =>
        simp only [List.getElem?_cons_succ, List.getElem?_cons_zero, Option.some.injEq] at hp
        subst hp
        right
        refine ⟨0, simulationProcess fmt now req t, by decide, by simp, ?_⟩
        simpa [simulationProcess, povrayProcess] using hx
      | k + 2, hp =>
        simp only [List.getElem?_cons_succ] at hp
        rcases ih k hp with h | ⟨j, q, hj, hq, hxq⟩
        · exact Or.inl h
        · exact Or.inr ⟨j + 2, q, by omega, by simpa only [List.getElem?_cons_succ] using hq, hxq⟩
    · have hcons : (t :: rest).flatMap (pointProcesses fmt now req) =
          simulationProcess fmt now req t :: rest.flatMap (pointProcesses fmt now req) := by
        simp [List.flatMap_cons, pointProcesses, hmovie]
      rw [hcons] at hp ⊢
      match i, hp with
      | 0, hp =>
        simp only [List.getElem?_cons_zero, Option.some.injEq] at hp
        subst hp
        left
        simpa [simulationProcess] using hx
      | k + 1, hp =>
        simp only [List.getElem?_cons_succ] at hp
        rcases ih k hp with h | ⟨j, q, hj, hq, hxq⟩
        · exact Or.inl h
        · exact Or.inr ⟨j + 1, q, by omega, by simpa only [List.getElem?_cons_succ] using hq, hxq⟩

/-! ## Uniqueness of names -/

theorem pointOuts_nodup (fmt : F32 → String) (now : String) (req : SweepRequest) (t : F32) :
    (pointOuts fmt now req t).Nodup := by
  unfold pointOuts
  by_cases hm : req.record_movie = true
  · rw [if_pos hm]
    simp [archiveName_ne_videoName]
  · rw [if_neg hm]
    simp

theorem fmt_eq_of_mem_pointOuts (fmt : F32 → String) (now : String) (req : SweepRequest)
    (a b : F32) (x : String) (ha : x ∈ pointOuts fmt now req a)
    (hb : x ∈ pointOuts fmt now req b) : fmt a = fmt b := by
  unfold pointOuts at ha hb
  by_cases hm : req.record_movie = true
  · rw [if_pos hm] at ha hb
    simp only [List.mem_cons, List.mem_singleton, List.not_mem_nil, or_false] at ha hb
    rcases ha with ha | ha <;> rcases hb with hb | hb
    · exact archiveName_inj now _ _ (ha.symm.trans hb)
    · exact absurd (ha.symm.trans hb) (archiveName_ne_videoName now _ _)
    · exact absurd (hb.symm.trans ha) (archiveName_ne_videoName now _ _)
    · exact videoName_inj now _ _ (ha.symm.trans hb)
  · rw [if_neg hm] at ha hb
    simp only [List.mem_singleton] at ha hb
    exact archiveName_inj now _ _ (ha.symm.trans hb)

theorem outs_nodup (fmt : F32 → String) (now : String) (req : SweepRequest) (pts : List F32)
    (hd : (pts.map fmt).Nodup) : (pts.flatMap (pointOuts fmt now req)).Nodup := by
  rw [List.nodup_flatMap]
  refine ⟨fun t _ => pointOuts_nodup fmt now req t, ?_⟩
  have hp : List.Pairwise (fun a b => fmt a ≠ fmt b) pts := List.pairwise_map.mp hd
  refine hp.imp ?_
  intro a b hab x ha hb
  exact hab (fmt_eq_of_mem_pointOuts fmt now req a b x ha hb)

theorem start_not_mem_outs (fmt : F32 → String) (now : String) (req : SweepRequest)
    (pts : List F32) : "start" ∉ pts.flatMap (pointOuts fmt now req) := by
  intro h
  obtain ⟨t, _, ht⟩ := List.mem_flatMap.mp h
  unfold pointOuts at ht
  by_cases hm : req.record_movie = true
  · rw [if_pos hm] at ht
    simp only [List.mem_cons, List.mem_singleton, List.not_mem_nil, or_false] at ht
    rcases ht with ht | ht
    · exact archiveName_ne_start now _ ht.symm
    · exact videoName_ne_start now _ ht.symm
  · rw [if_neg hm] at ht
    simp only [List.mem_singleton] at ht
    exact archiveName_ne_start now _ ht.symm

theorem signal_names_eq (fmt : F32 → String) (now : String) (req : SweepRequest)
    (pts : List F32) :
    (({ Name := "start", Data := ["start"] } ::
        (pts.flatMap (pointOuts fmt now req)).map
          (fun n => ({ Name := n, Data := [] } : SignalsType))).map (fun s => s.Name)) =
      "start" :: pts.flatMap (pointOuts fmt now req) := by
  simp [List.map_map, Function.comp_def]

theorem pointProcesses_names_nodup (fmt : F32 → String) (now : String) (req : SweepRequest)
    (t : F32) : ((pointProcesses fmt now req t).map (fun p => p.Name)).Nodup := by
  unfold pointProcesses
  by_cases hm : req.record_movie = true
  · rw [if_pos hm]
    simp [simulationProcess, povrayProcess, simulation_name_ne_povray_name]
  · rw [if_neg hm]
    simp

theorem fmt_eq_of_mem_pointProcesses (fmt : F32 → String) (now : String) (req : SweepRequest)
    (a b : F32) (x : String) (ha : x ∈ (pointProcesses fmt now req a).map (fun p => p.Name))
    (hb : x ∈ (pointProcesses fmt now req b).map (fun p => p.Name)) : fmt a = fmt b := by
  unfold pointProcesses at ha hb
  by_cases hm : req.record_movie = true
  · rw [if_pos hm] at ha hb
    simp only [List.map_cons, List.map_nil, List.mem_cons, List.mem_singleton,
      List.not_mem_nil, or_false, simulationProcess, povrayProcess] at ha hb
    rcases ha with ha | ha <;> rcases hb with hb | hb
    · exact str_append_left_cancel _ _ _ (ha.symm.trans hb)
    · exact absurd (ha.symm.trans hb) (simulation_name_ne_povray_name _ _)
    · exact absurd (hb.symm.trans ha) (simulation_name_ne_povray_name _ _)
    · exact str_append_left_cancel _ _ _ (ha.symm.trans hb)
  · rw [if_neg hm] at ha hb
    simp only [List.map_cons, List.map_nil, List.mem_singleton, simulationProcess] at ha hb
    exact str_append_left_cancel _ _ _ (ha.symm.trans hb)

theorem process_names_nodup (fmt : F32 → String) (now : String) (req : SweepRequest)
    (pts : List F32) (hd : (pts.map fmt).Nodup) :
    ((pts.flatMap (pointProcesses fmt now req)).map (fun p => p.Name)).Nodup := by
  rw [List.map_flatMap, List.nodup_flatMap]
  refine ⟨fun t _ => pointProcesses_names_nodup fmt now req t, ?_⟩
  have hp : List.Pairwise (fun a b => fmt a ≠ fmt b) pts := List.pairwise_map.mp hd
  refine hp.imp ?_
  intro a b hab x ha hb
  exact hab (fmt_eq_of_mem_pointProcesses fmt now req a b x ha hb)

theorem map_fmt_nodup_of_injOn (fmt : F32 → String) (pts : List F32) (hn : pts.Nodup)
    (hinj : ∀ a ∈ pts, ∀ b ∈ pts, fmt a = fmt b → a = b) : (pts.map fmt).Nodup :=
  List.Nodup.map_on (fun a ha b hb h => hinj a ha b hb h) hn

theorem process_outs_subset (fmt : F32 → String) (now : String) (req : SweepRequest)
    (pts : List F32) (p : ProcessesType) (hp : p ∈ pts.flatMap (pointProcesses fmt now req))
    (o : String) (ho : o ∈ p.Outs) : o ∈ pts.flatMap (pointOuts fmt now req) := by
  obtain ⟨t, ht, hpt⟩ := List.mem_flatMap.mp hp
  refine List.mem_flatMap.mpr ⟨t, ht, ?_⟩
  unfold pointProcesses at hpt
  unfold pointOuts
  by_cases hm : req.record_movie = true
  · rw [if_pos hm] at hpt ⊢
    simp only [List.mem_cons, List.mem_singleton, List.not_mem_nil, or_false] at hpt
    rcases hpt with rfl | rfl
    · simp only [simulationProcess, List.mem_singleton] at ho
      simp [ho]
    · simp only [povrayProcess, List.mem_singleton] at ho
      simp [ho]
  · rw [if_neg hm] at hpt ⊢
    simp only [List.mem_singleton] at hpt
    subst hpt
    simpa [simulationProcess] using ho

theorem buildWorkflow_fields (fmt : F32 → String) (now : String) (req : SweepRequest)
    (fuel : Nat) (g : WorkflowObject) (h : buildWorkflow fmt now req fuel = some g) :
    ∃ pts, sweepPoints req fuel req.min_temperature = some pts ∧
      g.Processes = pts.flatMap (pointProcesses fmt now req) ∧
      g.Outs = pts.flatMap (pointOuts fmt now req) ∧
      g.Signals = { Name := "start", Data := ["start"] } ::
        (pts.flatMap (pointOuts fmt now req)).map (fun n => { Name := n, Data := [] }) ∧
      g.Ins = ["start"] := by
  obtain ⟨pts, hpts⟩ := sweepPoints_of_buildWorkflow fmt now req fuel g h
  obtain ⟨g1, hg1, hrest⟩ := buildWorkflow_eq fmt now req fuel pts hpts
  rw [h] at hg1
  have : g = g1 := Option.some.inj hg1
  subst this
  exact ⟨pts, hpts, hrest⟩

/-! ## C2: simulation output and rendering input -/

/-- C2. With movie rendering enabled, every simulation process of the built graph (a process at
position `i` whose name starts with `run-simulation-`) is followed at position `i + 1` by the
rendering process of the same temperature `t`; the simulation process has exactly one output
name, the rendering process exactly one input name, and the two names are equal. -/
theorem simulation_output_is_rendering_input (fmt : F32 → String) (now : String)
    (req : SweepRequest) (fuel : Nat) (g : WorkflowObject) (i : Nat) (p : ProcessesType)
    (hmovie : req.record_movie = true)
    (hbuild : buildWorkflow fmt now req fuel = some g)
    (hp : g.Processes[i]? = some p) (hsim : IsSimulation p) :
    ∃ q x t, g.Processes[i + 1]? = some q ∧ p = simulationProcess fmt now req t ∧
      q = povrayProcess fmt now t ∧ IsRendering q ∧ p.Outs = [x] ∧ q.Ins = [x] := by
  obtain ⟨pts, _, hprocs, _⟩ := buildWorkflow_fields fmt now req fuel g hbuild
  rw [hprocs] at hp ⊢
  obtain ⟨t, _, hpt, hnext⟩ := paired_processes fmt now req hmovie pts i p hp hsim
  refine ⟨povrayProcess fmt now t, archiveName now (fmt t), t, hnext, hpt, rfl,
    isRendering_povrayProcess fmt now t, ?_, rfl⟩
  rw [hpt]
  rfl

/-- C2 at the second simulation process (86 degrees) of the movie sweep 85..87. -/
theorem simulation_output_is_rendering_input_witness :
    ∃ q x t, graph85Movie.Processes[2 + 1]? = some q ∧
      simulationProcess FormatFloat "1446654321" sweep85Movie (F32.ofNat 86) =
        simulationProcess FormatFloat "1446654321" sweep85Movie t ∧
      q = povrayProcess FormatFloat "1446654321" t ∧ IsRendering q ∧
      (simulationProcess FormatFloat "1446654321" sweep85Movie (F32.ofNat 86)).Outs = [x] ∧
      q.Ins = [x] :=
  simulation_output_is_rendering_input FormatFloat "1446654321" sweep85Movie 4 graph85Movie 2
    (simulationProcess FormatFloat "1446654321" sweep85Movie (F32.ofNat 86))
    (by decide) (by decide) (by decide) (by decide)

/-! ## Declared signals and producers, for a formatter that separates the temperatures -/

/-- For any formatter that does not give two visited temperatures the same string: every name
in a process's `Outs` is the name of exactly one entry of `Signals`, and every name in the `Ins`
of the process at position `i` is `"start"` or is in the `Outs` of a process at an earlier
position. -/
theorem signals_declared_of_distinct_formats (fmt : F32 → String) (now : String)
    (req : SweepRequest) (fuel : Nat) (g : WorkflowObject) (pts : List F32)
    (hbuild : buildWorkflow fmt now req fuel = some g)
    (hpts : sweepPoints req fuel req.min_temperature = some pts)
    (hinj : ∀ a ∈ pts, ∀ b ∈ pts, fmt a = fmt b → a = b) :
    (∀ p ∈ g.Processes, ∀ o ∈ p.Outs, (g.Signals.map (fun s => s.Name)).count o = 1) ∧
    (∀ (i : Nat) (p : ProcessesType), g.Processes[i]? = some p → ∀ x ∈ p.Ins,
      x = "start" ∨ ∃ (j : Nat) (q : ProcessesType),
        j < i ∧ g.Processes[j]? = some q ∧ x ∈ q.Outs) := by
  obtain ⟨pts1, hpts1, hprocs, _, hsigs, _⟩ := buildWorkflow_fields fmt now req fuel g hbuild
  rw [hpts] at hpts1
  have hp1 : pts = pts1 := Option.some.inj hpts1
  subst hp1
  have hnodup : pts.Nodup := sweepPoints_nodup req fuel _ pts hpts
  have hd : (pts.map fmt).Nodup := map_fmt_nodup_of_injOn fmt pts hnodup hinj
  constructor
  · intro p hp o ho
    rw [hsigs, signal_names_eq]
    rw [hprocs] at hp
    have hmem := process_outs_subset fmt now req pts p hp o ho
    refine List.count_eq_one_of_mem ?_ (List.mem_cons_of_mem _ hmem)
    exact List.nodup_cons.mpr ⟨start_not_mem_outs fmt now req pts, outs_nodup fmt now req pts hd⟩
  · intro i p hp x hx
    rw [hprocs] at hp ⊢
    exact ins_produced_earlier fmt now req pts i p hp x hx

/-! ## C4: unique names -/

/-- C4. When the temperatures visited by the loop have pairwise distinct formatted strings, the
graph is built with pairwise distinct process names and pairwise distinct signal names
(`"start"`, the `.tgz` names and the `.avi` names together). -/
theorem names_unique (fmt : F32 → String) (now : String) (req : SweepRequest) (fuel : Nat)
    (g : WorkflowObject) (pts : List F32)
    (hbuild : buildWorkflow fmt now req fuel = some g)
    (hpts : sweepPoints req fuel req.min_temperature = some pts)
    (hdistinct : (pts.map fmt).Nodup) :
    (g.Processes.map (fun p => p.Name)).Nodup ∧ (g.Signals.map (fun s => s.Name)).Nodup := by
  obtain ⟨pts1, hpts1, hprocs, _, hsigs, _⟩ := buildWorkflow_fields fmt now req fuel g hbuild
  rw [hpts] at hpts1
  have hp1 : pts = pts1 := Option.some.inj hpts1
  subst hp1
  constructor
  · rw [hprocs]
    exact process_names_nodup fmt now req pts hdistinct
  · rw [hsigs, signal_names_eq]
    exact List.nodup_cons.mpr
      ⟨start_not_mem_outs fmt now req pts, outs_nodup fmt now req pts hdistinct⟩

/-- C4 at the graph of the movie sweep 85..87. -/
theorem names_unique_witness :
    (graph85Movie.Processes.map (fun p => p.Name)).Nodup ∧
      (graph85Movie.Signals.map (fun s => s.Name)).Nodup :=
  names_unique FormatFloat "1446654321" sweep85Movie 4 graph85Movie
    [F32.ofNat 85, F32.ofNat 86, F32.ofNat 87] (by decide) (by decide) (by decide)

/-! ## float32 facts -/

theorem F32.round_of_representable (neg : Bool) (n : Nat) (h : F32.Representable n) :
    F32.round neg n = F32.fin neg n := by
  unfold F32.Representable F32.round at h
  unfold F32.round
  by_cases hc : 254 ≤ F32.shiftOf n ∨ F32.maxMag < F32.roundMag n
  · rw [if_pos hc] at h
    exact absurd h (by simp)
  · rw [if_neg hc] at h ⊢
    rw [(F32.fin.inj h).2]

theorem F32.le_fin_iff (na nb : Bool) (a b : Nat) :
    F32.le (F32.fin na a) (F32.fin nb b) = true ↔
      (F32.fin na a).toInt ≤ (F32.fin nb b).toInt := by
  cases na <;> cases nb
  · simp only [F32.le, F32.toInt, decide_eq_true_eq]; omega
  · simp only [F32.le, F32.toInt, decide_eq_true_eq]; omega
  · simp only [F32.le, F32.toInt]; constructor
    · intro _; omega
    · intro _; trivial
  · simp only [F32.le, F32.toInt, decide_eq_true_eq]; omega

theorem F32.toInt_ofInt (z : Int) : (F32.ofInt z).toInt = z := by
  unfold F32.ofInt
  by_cases hz : z < 0
  · simp only [hz, decide_True, F32.toInt]; omega
  · simp only [hz, decide_False, F32.toInt]; omega

/-- Adding a positive step is exact whenever the exact sum is a binary32 number. -/
theorem F32.add_exact (nx : Bool) (a b : Nat) (hb : 0 < b)
    (hrep : F32.Representable ((F32.fin nx a).toInt + (b : Int)).natAbs) :
    F32.add (F32.fin nx a) (F32.fin false b) = F32.ofInt ((F32.fin nx a).toInt + (b : Int)) := by
  cases nx
  · simp only [F32.toInt] at hrep ⊢
    have e : ((a : Int) + (b : Int)).natAbs = a + b := by omega
    rw [e] at hrep
    simp only [F32.add, F32.ofInt, if_true]
    rw [F32.round_of_representable _ _ hrep, e]
    congr 1
  · simp only [F32.toInt] at hrep ⊢
    simp only [F32.add, F32.ofInt, if_false]
    by_cases hab : a = b
    · subst hab
      rw [if_pos rfl]
      simp
    · rw [if_neg hab]
      by_cases hlt : b < a
      · rw [if_pos hlt]
        have e : (-(a : Int) + (b : Int)).natAbs = a - b := by omega
        rw [e] at hrep ⊢
        rw [F32.round_of_representable _ _ hrep]
        simp; omega
      · rw [if_neg hlt]
        have e : (-(a : Int) + (b : Int)).natAbs = b - a := by omega
        rw [e] at hrep ⊢
        rw [F32.round_of_representable _ _ hrep]
        simp; omega

/-! ## Which magnitudes are binary32 numbers -/

theorem F32.shiftOf_le (n e : Nat) (he : e < 254) (h : n / 2 ^ e < 2 ^ 24) :
    F32.shiftOf n ≤ e := by
  unfold F32.shiftOf
  cases hf : (List.range 254).find? (fun s => decide (n / 2 ^ s < 2 ^ 24)) with
  | none =>
    have := List.find?_range_eq_none.mp hf e he
    simp only [Bool.not_eq_true', decide_eq_false_iff_not] at this
    exact absurd h this
  | some i =>
    have hi := List.find?_range_eq_some.mp hf
    simp only [Option.getD_some]
    by_contra hlt
    have := hi.2.2 e (by omega)
    simp only [Bool.not_eq_true', decide_eq_false_iff_not] at this
    exact absurd h this

theorem F32.shiftOf_spec (n : Nat) (hs : F32.shiftOf n < 254) :
    n / 2 ^ F32.shiftOf n < 2 ^ 24 := by
  unfold F32.shiftOf at hs ⊢
  cases hf : (List.range 254).find? (fun s => decide (n / 2 ^ s < 2 ^ 24)) with
  | none => rw [hf] at hs; simp at hs
  | some i =>
    have hi := List.find?_range_eq_some.mp hf
    simp only [Option.getD_some]
    simpa using hi.1

theorem F32.maxMag_lt : F32.maxMag < 2 ^ 24 * 2 ^ 253 := by
  unfold F32.maxMag
  have : 0 < 2 ^ 253 := Nat.two_pow_pos _
  have h24 : (2 : Nat) ^ 24 - 1 < 2 ^ 24 := by decide
  exact Nat.mul_lt_mul_of_pos_right h24 this

/-- A magnitude is a binary32 number exactly when it is at most `maxMag` and is a significand
below `2^24` times a power of two. -/
theorem F32.representable_iff (n : Nat) :
    F32.Representable n ↔ n ≤ F32.maxMag ∧ ∃ m e, m < 2 ^ 24 ∧ n = m * 2 ^ e := by
  constructor
  · intro h
    unfold F32.Representable F32.round at h
    by_cases hc : 254 ≤ F32.shiftOf n ∨ F32.maxMag < F32.roundMag n
    · rw [if_pos hc] at h
      exact absurd h (by simp)
    · rw [if_neg hc] at h
      have hr : F32.roundMag n = n := (F32.fin.inj h).2
      have hs : F32.shiftOf n < 254 := by omega
      have hmax : n ≤ F32.maxMag := by omega
      refine ⟨hmax, ?_⟩
      have hq := F32.shiftOf_spec n hs
      unfold F32.roundMag at hr
      simp only at hr
      by_cases hup : 2 ^ F32.shiftOf n < 2 * (n % 2 ^ F32.shiftOf n) ∨
          (2 * (n % 2 ^ F32.shiftOf n) = 2 ^ F32.shiftOf n ∧ n / 2 ^ F32.shiftOf n % 2 = 1)
      · rw [if_pos hup] at hr
        by_cases hq1 : n / 2 ^ F32.shiftOf n + 1 < 2 ^ 24
        · exact ⟨_, _, hq1, hr.symm⟩
        · have he : n / 2 ^ F32.shiftOf n + 1 = 2 ^ 24 := by omega
          refine ⟨2 ^ 23, F32.shiftOf n + 1, by decide, ?_⟩
          calc n = (n / 2 ^ F32.shiftOf n + 1) * 2 ^ F32.shiftOf n := hr.symm
            _ = 2 ^ 24 * 2 ^ F32.shiftOf n := by rw [he]
            _ = 2 ^ 23 * 2 ^ (F32.shiftOf n + 1) := by rw [pow_succ]; ring
      · rw [if_neg hup] at hr
        exact ⟨_, _, hq, hr.symm⟩
  · rintro ⟨hmax, m, e, hm, rfl⟩
    have h253 : m * 2 ^ e / 2 ^ 253 < 2 ^ 24 := by
      rw [Nat.div_lt_iff_lt_mul (Nat.two_pow_pos _)]
      exact lt_of_le_of_lt hmax F32.maxMag_lt
    have hs253 : F32.shiftOf (m * 2 ^ e) ≤ 253 := F32.shiftOf_le _ 253 (by decide) h253
    have hse : F32.shiftOf (m * 2 ^ e) ≤ e := by
      by_cases he : e < 254
      · apply F32.shiftOf_le _ e he
        rw [Nat.mul_div_cancel _ (Nat.two_pow_pos _)]
        exact hm
      · omega
    have hdvd : 2 ^ F32.shiftOf (m * 2 ^ e) ∣ m * 2 ^ e :=
      Dvd.dvd.mul_left (pow_dvd_pow 2 hse) m
    have hmod : m * 2 ^ e % 2 ^ F32.shiftOf (m * 2 ^ e) = 0 := Nat.mod_eq_zero_of_dvd hdvd
    have hpos : 0 < 2 ^ F32.shiftOf (m * 2 ^ e) := Nat.two_pow_pos _
    have hround : F32.roundMag (m * 2 ^ e) = m * 2 ^ e := by
      unfold F32.roundMag
      simp only
      rw [hmod]
      have hno : ¬ (2 ^ F32.shiftOf (m * 2 ^ e) < 2 * 0 ∨
          (2 * 0 = 2 ^ F32.shiftOf (m * 2 ^ e) ∧
            m * 2 ^ e / 2 ^ F32.shiftOf (m * 2 ^ e) % 2 = 1)) := by
        omega
      rw [if_neg hno]
      exact Nat.div_mul_cancel hdvd
    unfold F32.Representable F32.round
    rw [hround, if_neg (by omega)]

theorem F32.roundMag_representable (n : Nat) (hs : F32.shiftOf n < 254)
    (hmax : F32.roundMag n ≤ F32.maxMag) : F32.Representable (F32.roundMag n) := by
  rw [F32.representable_iff]
  refine ⟨hmax, ?_⟩
  have hq := F32.shiftOf_spec n hs
  unfold F32.roundMag
  simp only
  by_cases hup : 2 ^ F32.shiftOf n < 2 * (n % 2 ^ F32.shiftOf n) ∨
      (2 * (n % 2 ^ F32.shiftOf n) = 2 ^ F32.shiftOf n ∧ n / 2 ^ F32.shiftOf n % 2 = 1)
  · rw [if_pos hup]
    by_cases hq1 : n / 2 ^ F32.shiftOf n + 1 < 2 ^ 24
    · exact ⟨_, _, hq1, rfl⟩
    · have he : n / 2 ^ F32.shiftOf n + 1 = 2 ^ 24 := by omega
      refine ⟨2 ^ 23, F32.shiftOf n + 1, by decide, ?_⟩
      rw [he, pow_succ]
      ring
  · rw [if_neg hup]
    exact ⟨_, _, hq, rfl⟩

/-- Rounding yields a value a `float32` variable can hold. -/
theorem F32.round_wellFormed (neg : Bool) (n : Nat) : F32.WellFormed (F32.round neg n) := by
  unfold F32.round
  by_cases hc : 254 ≤ F32.shiftOf n ∨ F32.maxMag < F32.roundMag n
  · rw [if_pos hc]
    trivial
  · rw [if_neg hc]
    exact F32.roundMag_representable n (by omega) (by omega)

/-- The sum of two `float32` values is a `float32` value. -/
theorem F32.add_wellFormed (x y : F32) : F32.WellFormed (F32.add x y) := by
  cases x with
  | nan => trivial
  | inf a =>
    cases y with
    | nan => trivial
    | inf b =>
      simp only [F32.add]
      by_cases h : a = b
      · rw [if_pos h]; trivial
      · rw [if_neg h]; trivial
    | fin nb b => trivial
  | fin na a =>
    cases y with
    | nan => trivial
    | inf b => trivial
    | fin nb b =>
      simp only [F32.add]
      by_cases h1 : na = nb
      · rw [if_pos h1]
        exact F32.round_wellFormed _ _
      · rw [if_neg h1]
        by_cases h2 : a = b
        · rw [if_pos h2]
          show F32.Representable 0
          decide
        · rw [if_neg h2]
          by_cases h3 : b < a
          · rw [if_pos h3]
            exact F32.round_wellFormed _ _
          · rw [if_neg h3]
            exact F32.round_wellFormed _ _

/-! ## Counting the emitted processes and archives -/

theorem countP_isSimulation (fmt : F32 → String) (now : String) (req : SweepRequest)
    (pts : List F32) :
    (pts.flatMap (pointProcesses fmt now req)).countP (fun p => decide (IsSimulation p)) =
      pts.length := by
  induction pts with
  | nil => rfl
  | cons t rest ih =>
    rw [List.flatMap_cons, List.countP_append, ih, List.length_cons, Nat.add_comm]
    congr 1
    unfold pointProcesses
    by_cases hm : req.record_movie = true
    · rw [if_pos hm]
      simp [List.countP_cons, isSimulation_simulationProcess, not_isSimulation_povrayProcess]
    · rw [if_neg hm]
      simp [List.countP_cons, isSimulation_simulationProcess]

theorem countP_isArchive (fmt : F32 → String) (now : String) (req : SweepRequest)
    (pts : List F32) :
    (pts.flatMap (pointOuts fmt now req)).countP (fun s => decide (IsArchive s)) =
      pts.length := by
  induction pts with
  | nil => rfl
  | cons t rest ih =>
    rw [List.flatMap_cons, List.countP_append, ih, List.length_cons, Nat.add_comm]
    congr 1
    unfold pointOuts
    by_cases hm : req.record_movie = true
    · rw [if_pos hm]
      simp [List.countP_cons, isArchive_archiveName, not_isArchive_videoName]
    · rw [if_neg hm]
      simp [List.countP_cons, isArchive_archiveName]

/-- In every built graph the simulation processes and the archive outputs are as many as the
visited temperatures. -/
theorem counts_eq_points (fmt : F32 → String) (now : String) (req : SweepRequest) (fuel : Nat)
    (pts : List F32) (hpts : sweepPoints req fuel req.min_temperature = some pts) :
    ∃ g, buildWorkflow fmt now req fuel = some g ∧
      simulationCount g = pts.length ∧ archiveCount g = pts.length := by
  obtain ⟨g, hg, hprocs, houts, _⟩ := buildWorkflow_eq fmt now req fuel pts hpts
  refine ⟨g, hg, ?_, ?_⟩
  · unfold simulationCount
    rw [hprocs, countP_isSimulation]
  · unfold archiveCount
    rw [houts, countP_isArchive]

/-! ## Sweeps whose partial sums are exact -/

theorem sweepPoints_exact (req : SweepRequest) (nM : Bool) (kM b : Nat)
    (hmax : req.max_temperature = F32.fin nM kM)
    (hstep : req.step_temperature = F32.fin false b) (hb : 0 < b) (d extra : Nat) :
    ∀ (nt : Bool) (a : Nat),
      (F32.fin nM kM).toInt < (F32.fin nt a).toInt + (d : Int) * (b : Int) →
      (d = 0 ∨ (F32.fin nt a).toInt + ((d : Int) - 1) * (b : Int) ≤ (F32.fin nM kM).toInt) →
      (∀ k : Nat, 1 ≤ k → k ≤ d →
        F32.Representable ((F32.fin nt a).toInt + (k : Int) * (b : Int)).natAbs) →
      ∃ pts, sweepPoints req (d + 1 + extra) (F32.fin nt a) = some pts ∧ pts.length = d := by
  induction d with
  | zero =>
    intro nt a hgt _ _
    refine ⟨[], ?_, rfl⟩
    have hnle : ¬ F32.le (F32.fin nt a) req.max_temperature = true := by
      rw [hmax, F32.le_fin_iff]
      simp only [Nat.cast_zero, zero_mul, add_zero] at hgt
      omega
    rw [show 0 + 1 + extra = extra + 1 by omega]
    unfold sweepPoints
    rw [if_neg hnle]
  | succ d ih =>
    intro nt a hgt hle hrep
    have hle1 : (F32.fin nt a).toInt + (d : Int) * (b : Int) ≤ (F32.fin nM kM).toInt := by
      rcases hle with h | h
      · omega
      · simpa using h
    have hbpos : (0 : Int) < (b : Int) := by exact_mod_cast hb
    have hdb : (0 : Int) ≤ (d : Int) * (b : Int) := by positivity
    have hcond : F32.le (F32.fin nt a) req.max_temperature = true := by
      rw [hmax, F32.le_fin_iff]
      omega
    have hadd : F32.add (F32.fin nt a) req.step_temperature =
        F32.ofInt ((F32.fin nt a).toInt + (b : Int)) := by
      rw [hstep]
      apply F32.add_exact nt a b hb
      have := hrep 1 (le_refl 1) (by omega)
      simpa using this
    have hval : (F32.fin (decide ((F32.fin nt a).toInt + (b : Int) < 0))
        ((F32.fin nt a).toInt + (b : Int)).natAbs).toInt = (F32.fin nt a).toInt + (b : Int) :=
      F32.toInt_ofInt _
    obtain ⟨pts, hpts, hlen⟩ := ih (decide ((F32.fin nt a).toInt + (b : Int) < 0))
      ((F32.fin nt a).toInt + (b : Int)).natAbs
      (by rw [hval]; push_cast at hgt; linarith)
      (by
        by_cases hd0 : d = 0
        · exact Or.inl hd0
        · right
          rw [hval]
          linarith)
      (by
        intro k hk1 hkd
        rw [hval]
        have := hrep (k + 1) (by omega) (by omega)
        have e : (F32.fin nt a).toInt + (b : Int) + (k : Int) * (b : Int) =
            (F32.fin nt a).toInt + ((k + 1 : Nat) : Int) * (b : Int) := by
          push_cast; ring
        rw [e]
        exact this)
    refine ⟨F32.fin nt a :: pts, ?_, by simp [hlen]⟩
    rw [show d + 1 + 1 + extra = (d + 1 + extra) + 1 by omega]
    unfold sweepPoints
    rw [if_pos hcond, hadd]
    unfold F32.ofInt
    rw [hpts]
    rfl

/-! ## C1: number of simulation processes -/

/-- C1 (as stated, refuted). For `min = 16777216`, `max = 16777240`, `step = 3` (all three are
`float32` numbers, `min <= max`, `step > 0`) the loop stops after 7 temperatures, because each
`t + 3` is rounded to `t + 4`; the graph has 7 simulation processes and 7 archive outputs,
while `floor((max - min) / step) + 1 = 9`. -/
theorem simulation_count_counterexample :
    F32.WellFormed sweepCoarse.min_temperature ∧ F32.WellFormed sweepCoarse.max_temperature ∧
    F32.WellFormed sweepCoarse.step_temperature ∧
    F32.le sweepCoarse.min_temperature sweepCoarse.max_temperature = true ∧
    0 < sweepCoarse.step_temperature.toInt ∧
    (buildWorkflow FormatFloat "1446654321" sweepCoarse 8).map simulationCount = some 7 ∧
    (buildWorkflow FormatFloat "1446654321" sweepCoarse 8).map archiveCount = some 7 ∧
    expectedCount sweepCoarse = 9 := by
  decide

/-- C1 (amended). For a sweep with finite `min <= max` and `step > 0` in which every partial sum
`min + k * step`, `k = 1 .. floor((max - min) / step) + 1`, is a `float32` number (so that no
addition of the loop rounds), the loop stops and the graph has exactly
`floor((max - min) / step) + 1` simulation processes, as many as archive names in `Outs`. -/
theorem simulation_count_of_exact_sweep (fmt : F32 → String) (now : String)
    (req : SweepRequest) (fuel : Nat)
    (hmin : req.min_temperature.isFinite = true) (hmax : req.max_temperature.isFinite = true)
    (hstep : req.step_temperature.isFinite = true)
    (hle : req.min_temperature.toInt ≤ req.max_temperature.toInt)
    (hpos : 0 < req.step_temperature.toInt)
    (hexact : ∀ k : Nat, 1 ≤ k → k ≤ expectedCount req →
      F32.Representable
        (req.min_temperature.toInt + (k : Int) * req.step_temperature.toInt).natAbs)
    (hfuel : expectedCount req + 1 ≤ fuel) :
    ∃ g, buildWorkflow fmt now req fuel = some g ∧
      simulationCount g = expectedCount req ∧ archiveCount g = expectedCount req := by
  obtain ⟨nm, km, hm⟩ : ∃ nm km, req.min_temperature = F32.fin nm km := by
    cases h : req.min_temperature with
    | nan => rw [h] at hmin; simp [F32.isFinite] at hmin
    | inf _ => rw [h] at hmin; simp [F32.isFinite] at hmin
    | fin n k => exact ⟨n, k, rfl⟩
  obtain ⟨nM, kM, hM⟩ : ∃ nM kM, req.max_temperature = F32.fin nM kM := by
    cases h : req.max_temperature with
    | nan => rw [h] at hmax; simp [F32.isFinite] at hmax
    | inf _ => rw [h] at hmax; simp [F32.isFinite] at hmax
    | fin n k => exact ⟨n, k, rfl⟩
  obtain ⟨b, hs, hb⟩ : ∃ b, req.step_temperature = F32.fin false b ∧ 0 < b := by
    cases h : req.step_temperature with
    | nan => rw [h] at hstep; simp [F32.isFinite] at hstep
    | inf _ => rw [h] at hstep; simp [F32.isFinite] at hstep
    | fin n k =>
      rw [h] at hpos
      cases n
      · simp only [F32.toInt] at hpos
        exact ⟨k, rfl, by omega⟩
      · simp only [F32.toInt] at hpos
        omega
  have hbpos : (0 : Int) < (b : Int) := by exact_mod_cast hb
  have hcount : expectedCount req =
      (((F32.fin nM kM).toInt - (F32.fin nm km).toInt) / (b : Int)).toNat + 1 := by
    unfold expectedCount
    rw [hm, hM, hs]
    rfl
  rw [hm, hM] at hle
  rw [hm, hs] at hexact
  simp only [F32.toInt] at hexact
  set D := (F32.fin nM kM).toInt - (F32.fin nm km).toInt with hD
  have hDnn : 0 ≤ D := by omega
  have hq : 0 ≤ D / (b : Int) := Int.ediv_nonneg hDnn (le_of_lt hbpos)
  have hcast : (((D / (b : Int)).toNat : Nat) : Int) = D / (b : Int) := Int.toNat_of_nonneg hq
  have hlow : D / (b : Int) * (b : Int) ≤ D := Int.ediv_mul_le D (ne_of_gt hbpos)
  have hhigh : D < (D / (b : Int) + 1) * (b : Int) := Int.lt_ediv_add_one_mul_self D hbpos
  obtain ⟨extra, hextra⟩ : ∃ extra, fuel = expectedCount req + 1 + extra :=
    ⟨fuel - (expectedCount req + 1), by omega⟩
  obtain ⟨pts, hpts, hlen⟩ := sweepPoints_exact req nM kM b hM hs hb (expectedCount req) extra
    nm km
    (by
      rw [hcount]
      push_cast
      rw [hcast]
      linarith)
    (by
      right
      rw [hcount]
      push_cast
      rw [hcast]
      linarith)
    (by
      intro k hk1 hk2
      exact hexact k hk1 hk2)
  rw [← hextra, ← hm] at hpts
  obtain ⟨g, hg, hsim, harch⟩ := counts_eq_points fmt now req fuel pts hpts
  exact ⟨g, hg, by rw [hsim, hlen], by rw [harch, hlen]⟩

/-- C1 (amended) at the sweep 85..87 with step 1: three simulation processes. -/
theorem simulation_count_of_exact_sweep_witness :
    ∃ g, buildWorkflow FormatFloat "1446654321" sweep85 4 = some g ∧
      simulationCount g = expectedCount sweep85 ∧ archiveCount g = expectedCount sweep85 :=
  simulation_count_of_exact_sweep FormatFloat "1446654321" sweep85 4 (by decide) (by decide)
    (by decide) (by decide) (by decide)
    (by intro k h1 h2; have h3 : k ≤ 3 := h2; interval_cases k <;> decide) (by decide)

/-! ## Stamps -/

/-- A `time.Stamp` string starts with the capital letter of a month name. -/
theorem formatStamp_head (t : WallTime) :
    ∃ c rest, (formatStamp t).data = c :: rest ∧ c ≠ 'e' := by
  obtain ⟨⟨m, hm⟩, d, h, mi, sec⟩ := t
  unfold formatStamp monthAbbrev
  simp only [String.data_append, List.append_assoc]
  interval_cases m <;>
    exact ⟨_, _, rfl, by decide⟩

/-- No `time.Stamp` string is the key under which the index is stored. -/
theorem formatStamp_ne_index_key (t : WallTime) : formatStamp t ≠ "experiment_ids" := by
  intro h
  obtain ⟨c, rest, hdata, hc⟩ := formatStamp_head t
  rw [h] at hdata
  have : c = 'e' := by
    have := congrArg List.head? hdata
    simpa using this.symm
  exact hc this

/-! ## The cache -/

theorem Cache.lookup_filter_ne (c : Cache) (key k : String) :
    List.lookup k (c.filter (fun kv => kv.1 ≠ key)) = if k = key then none else List.lookup k c := by
  induction c with
  | nil => simp
  | cons kv rest ih =>
    obtain ⟨k1, v1⟩ := kv
    by_cases h1 : k1 = key
    · subst h1
      have hf : ((k1, v1) :: rest).filter (fun kv => kv.1 ≠ k1) =
          rest.filter (fun kv => kv.1 ≠ k1) := by simp
      rw [hf, ih]
      by_cases hk : k = k1
      · simp [hk]
      · have hb : (k == k1) = false := by simpa using hk
        simp [hk, List.lookup_cons, hb]
    · have hf : ((k1, v1) :: rest).filter (fun kv => kv.1 ≠ key) =
          (k1, v1) :: rest.filter (fun kv => kv.1 ≠ key) := by simp [h1]
      rw [hf, List.lookup_cons, List.lookup_cons, ih]
      by_cases hk : k = k1
      · subst hk
        simp [h1]
      · have hb : (k == k1) = false := by simpa using hk
        simp [hb]

theorem Cache.entry_set_self (c : Cache) (clock : Nat) (key : String) (v : CacheValue)
    (expires : Nat) :
    Cache.entry (Cache.set c clock key v expires) key =
      some { value := v, expiration := clock + expires } := by
  simp [Cache.entry, Cache.set, List.lookup_cons]

theorem Cache.entry_set_other (c : Cache) (clock : Nat) (key k : String) (v : CacheValue)
    (expires : Nat) (hk : k ≠ key) :
    Cache.entry (Cache.set c clock key v expires) k = Cache.entry c k := by
  have hb : (k == key) = false := by simpa using hk
  unfold Cache.entry Cache.set
  rw [List.lookup_cons, hb]
  simp only
  rw [Cache.lookup_filter_ne, if_neg hk]

theorem Cache.find_set_self (c : Cache) (clock clock1 : Nat) (key : String) (v : CacheValue)
    (expires : Nat) (h : clock1 ≤ clock + expires) :
    Cache.find (Cache.set c clock key v expires) clock1 key = some v := by
  unfold Cache.find
  rw [Cache.entry_set_self]
  simp [h]

theorem Cache.find_set_other (c : Cache) (clock clock1 : Nat) (key k : String) (v : CacheValue)
    (expires : Nat) (hk : k ≠ key) :
    Cache.find (Cache.set c clock key v expires) clock1 k = Cache.find c clock1 k := by
  unfold Cache.find
  rw [Cache.entry_set_other c clock key k v expires hk]

/-- A value live at a later time was live, and the same, at any earlier time. -/
theorem Cache.find_earlier (c : Cache) (clock1 clock2 : Nat) (key : String) (v : CacheValue)
    (hord : clock1 ≤ clock2) (h : Cache.find c clock2 key = some v) :
    Cache.find c clock1 key = some v := by
  unfold Cache.find at h ⊢
  cases he : Cache.entry c key with
  | none => rw [he] at h; simp at h
  | some item =>
    rw [he] at h
    simp only at h ⊢
    by_cases hl : clock2 ≤ item.expiration
    · rw [if_pos hl] at h
      rw [if_pos (le_trans hord hl)]
      exact h
    · rw [if_neg hl] at h
      simp at h

theorem Cache.add_eq_none_iff (c : Cache) (clock : Nat) (key : String) (v : CacheValue)
    (expires : Nat) :
    Cache.add c clock key v expires = none ↔ Cache.find c clock key ≠ none := by
  unfold Cache.add
  cases Cache.find c clock key <;> simp

theorem recordNew_of_stored (c : Cache) (clock : Nat) (e : Experiment) (ids : List String)
    (h : Cache.find c clock e.Stamp ≠ none) : recordNew c clock e ids = (c, ids, false) := by
  unfold recordNew
  rw [(Cache.add_eq_none_iff c clock e.Stamp _ _).mpr h]

theorem recordNew_of_free (c : Cache) (clock : Nat) (e : Experiment) (ids : List String)
    (h : Cache.find c clock e.Stamp = none) :
    recordNew c clock e ids =
      (Cache.set (Cache.set c clock e.Stamp (CacheValue.experiment e) cacheDefault) clock
          "experiment_ids" (CacheValue.ids (e.Stamp :: ids)) cacheDefault,
        e.Stamp :: ids, true) := by
  unfold recordNew Cache.add
  rw [h]

theorem readIndex_set_index (c : Cache) (clock clock1 : Nat) (ids : List String)
    (h : clock1 ≤ clock + cacheDefault) :
    readIndex (Cache.set c clock "experiment_ids" (CacheValue.ids ids) cacheDefault) clock1 =
      ids := by
  unfold readIndex Cache.getIds
  rw [Cache.find_set_self _ _ _ _ _ _ h]
  rfl

theorem count_readIndex_later (c : Cache) (clock1 clock2 : Nat) (x : String)
    (hord : clock1 ≤ clock2) :
    (readIndex c clock2).count x ≤ (readIndex c clock1).count x := by
  unfold readIndex Cache.getIds
  cases h2 : Cache.find c clock2 "experiment_ids" with
  | none => simp
  | some v =>
    rw [Cache.find_earlier c clock1 clock2 _ v hord h2]

/-! ## C5: recording twice -/

/-- C5. Two record-new steps in a row with the same identifier, the second at a time
`clock2` no later than `cacheDefault` after the first and before a value that was live under the
identifier at the first call expires: the second step stores nothing and leaves the cache, hence
the index, as the first step left it, so the identifier entered the index at most once. -/
theorem recordNew_twice_index_once (c : Cache) (clock1 clock2 : Nat) (e1 e2 : Experiment)
    (hsame : e2.Stamp = e1.Stamp) (hord : clock1 ≤ clock2)
    (hsoon : clock2 ≤ clock1 + cacheDefault)
    (hkeep : Cache.find c clock1 e1.Stamp ≠ none → Cache.find c clock2 e1.Stamp ≠ none) :
    recordNew (recordNew c clock1 e1 (readIndex c clock1)).1 clock2 e2
        (readIndex (recordNew c clock1 e1 (readIndex c clock1)).1 clock2) =
      ((recordNew c clock1 e1 (readIndex c clock1)).1,
        readIndex (recordNew c clock1 e1 (readIndex c clock1)).1 clock2, false) ∧
    (readIndex (recordNew c clock1 e1 (readIndex c clock1)).1 clock2).count e1.Stamp ≤
      (readIndex c clock1).count e1.Stamp + 1 := by
  by_cases hf : Cache.find c clock1 e1.Stamp = none
  · rw [recordNew_of_free c clock1 e1 _ hf]
    simp only
    constructor
    · apply recordNew_of_stored
      rw [hsame]
      by_cases hk : e1.Stamp = "experiment_ids"
      · rw [hk, Cache.find_set_self _ _ _ _ _ _ hsoon]
        simp
      · rw [Cache.find_set_other _ _ _ _ _ _ _ hk, Cache.find_set_self _ _ _ _ _ _ hsoon]
        simp
    · rw [readIndex_set_index _ _ _ _ hsoon, List.count_cons_self]
  · rw [recordNew_of_stored c clock1 e1 _ hf]
    simp only
    constructor
    · apply recordNew_of_stored
      rw [hsame]
      exact hkeep hf
    · exact le_trans (count_readIndex_later c clock1 clock2 _ hord) (Nat.le_succ _)

/-- C5 at an empty cache: recorded at time 100, submitted again at time 160. -/
theorem recordNew_twice_index_once_witness :
    recordNew (recordNew [] 100 experimentA (readIndex [] 100)).1 160 experimentB
        (readIndex (recordNew [] 100 experimentA (readIndex [] 100)).1 160) =
      ((recordNew [] 100 experimentA (readIndex [] 100)).1,
        readIndex (recordNew [] 100 experimentA (readIndex [] 100)).1 160, false) ∧
    (readIndex (recordNew [] 100 experimentA (readIndex [] 100)).1 160).count
        experimentA.Stamp ≤ (readIndex [] 100).count experimentA.Stamp + 1 :=
  recordNew_twice_index_once [] 100 160 experimentA experimentB rfl (by decide) (by decide)
    (by decide)

/-! ## C6: no insert over a stored record -/

/-- C6. When a live value (in particular a record) is stored under the experiment's identifier,
the record-new step reports no insert and returns the cache and the identifier slice as they
were: the stored record, every other entry and the index entry are untouched; so is the cache
after the whole action. -/
theorem recordNew_keeps_stored (c : Cache) (clock : Nat) (e : Experiment) (ids : List String)
    (hstored : Cache.find c clock e.Stamp ≠ none) :
    recordNew c clock e ids = (c, ids, false) ∧
    ∀ (fmt : F32 → String) (args : RenderArgs), newExperimentOf fmt args = e →
      CreateExperimentsTable fmt c clock (some args) =
        (c, listExperiments c clock (readIndex c clock)) := by
  refine ⟨recordNew_of_stored c clock e ids hstored, ?_⟩
  intro fmt args hargs
  unfold CreateExperimentsTable
  simp only
  rw [hargs, recordNew_of_stored c clock e _ hstored]

/-- C6 at the cache holding `experimentA`, with a second experiment of the same stamp. -/
theorem recordNew_keeps_stored_witness :
    recordNew cacheA 160 experimentB ["x"] = (cacheA, ["x"], false) ∧
    ∀ (fmt : F32 → String) (args : RenderArgs), newExperimentOf fmt args = experimentB →
      CreateExperimentsTable fmt cacheA 160 (some args) =
        (cacheA, listExperiments cacheA 160 (readIndex cacheA 160)) :=
  recordNew_keeps_stored cacheA 160 experimentB ["x"] (by decide)

/-! ## C7: insert at the front -/

theorem recordNew_insert_spec (c : Cache) (clock : Nat) (e : Experiment)
    (hkey : e.Stamp ≠ "experiment_ids") :
    ((recordNew c clock e (readIndex c clock)).2.2 = true ↔
      Cache.find c clock e.Stamp = none) ∧
    (Cache.find c clock e.Stamp = none →
      (recordNew c clock e (readIndex c clock)).2.1 = e.Stamp :: readIndex c clock ∧
      ∀ clock1, clock1 ≤ clock + cacheDefault →
        Cache.getExperiment (recordNew c clock e (readIndex c clock)).1 clock1 e.Stamp = some e ∧
        readIndex (recordNew c clock e (readIndex c clock)).1 clock1 =
          e.Stamp :: readIndex c clock) := by
  constructor
  · by_cases hf : Cache.find c clock e.Stamp = none
    · rw [recordNew_of_free c clock e _ hf]
      simp [hf]
    · rw [recordNew_of_stored c clock e _ hf]
      simp [hf]
  · intro hf
    rw [recordNew_of_free c clock e _ hf]
    refine ⟨rfl, ?_⟩
    intro clock1 h1
    constructor
    · unfold Cache.getExperiment
      simp only
      rw [Cache.find_set_other _ _ _ _ _ _ _ hkey, Cache.find_set_self _ _ _ _ _ _ h1]
    · simp only
      exact readIndex_set_index _ _ _ _ h1

/-- C7. For an experiment whose identifier is a `time.Stamp` string (as every identifier the
action records is): the record-new step reports an insert exactly when no live value is stored
under the identifier; in that case the experiment is afterwards stored under its identifier,
and the index (as stored and as returned) is the identifier followed by the identifiers read
before, in their order, both until `cacheDefault` has passed. -/
theorem recordNew_inserts_at_front (c : Cache) (clock : Nat) (e : Experiment) (t : WallTime)
    (hstamp : e.Stamp = formatStamp t) :
    ((recordNew c clock e (readIndex c clock)).2.2 = true ↔
      Cache.find c clock e.Stamp = none) ∧
    (Cache.find c clock e.Stamp = none →
      (recordNew c clock e (readIndex c clock)).2.1 = e.Stamp :: readIndex c clock ∧
      ∀ clock1, clock1 ≤ clock + cacheDefault →
        Cache.getExperiment (recordNew c clock e (readIndex c clock)).1 clock1 e.Stamp = some e ∧
        readIndex (recordNew c clock e (readIndex c clock)).1 clock1 =
          e.Stamp :: readIndex c clock) :=
  recordNew_insert_spec c clock e (by rw [hstamp]; exact formatStamp_ne_index_key t)

/-- C7 at the cache holding `experimentA` after its entries expired (time 4000). -/
theorem recordNew_inserts_at_front_witness :
    Cache.find cacheA 4000 experimentB.Stamp = none ∧
    ((recordNew cacheA 4000 experimentB (readIndex cacheA 4000)).2.2 = true ↔
      Cache.find cacheA 4000 experimentB.Stamp = none) ∧
    (Cache.find cacheA 4000 experimentB.Stamp = none →
      (recordNew cacheA 4000 experimentB (readIndex cacheA 4000)).2.1 =
        experimentB.Stamp :: readIndex cacheA 4000 ∧
      ∀ clock1, clock1 ≤ 4000 + cacheDefault →
        Cache.getExperiment (recordNew cacheA 4000 experimentB (readIndex cacheA 4000)).1 clock1
          experimentB.Stamp = some experimentB ∧
        readIndex (recordNew cacheA 4000 experimentB (readIndex cacheA 4000)).1 clock1 =
          experimentB.Stamp :: readIndex cacheA 4000) :=
  ⟨by decide, recordNew_inserts_at_front cacheA 4000 experimentB sampleTime (by decide)⟩

/-! ## C8: listing recent experiments -/

theorem listExperiments_eq_collect (c : Cache) (clock : Nat) (ids : List String) :
    listExperiments c clock ids = ListRecent.collect (Cache.getExperiment c clock) ids := by
  unfold listExperiments
  induction ids with
  | nil => rfl
  | cons id rest ih =>
    rw [List.filterMap_cons, ListRecent.collect]
    cases Cache.getExperiment c clock id with
    | none => simpa using ih
    | some e => simpa using ih

theorem listRecent_of_readIndex (c : Cache) (clock : Nat) :
    listExperiments c clock (readIndex c clock) =
      ListRecent (Cache.getIds c clock "experiment_ids") (Cache.getExperiment c clock) := by
  rw [listExperiments_eq_collect]
  unfold readIndex ListRecent
  cases Cache.getIds c clock "experiment_ids" <;> rfl

/-- C8. The list the action hands to the template is always defined and is the specified
`ListRecent` of the cache as the action leaves it: empty when the index entry is absent or
expired, otherwise the records of the index identifiers that have a live record, in index order.
Without render arguments the cache is left as it was. Every listed record is live under an
identifier of the index. -/
theorem list_recent_spec (fmt : F32 → String) (c : Cache) (clock : Nat)
    (args : Option RenderArgs) :
    (CreateExperimentsTable fmt c clock args).2 =
      ListRecent (Cache.getIds (CreateExperimentsTable fmt c clock args).1 clock "experiment_ids")
        (Cache.getExperiment (CreateExperimentsTable fmt c clock args).1 clock) ∧
    CreateExperimentsTable fmt c clock none =
      (c, ListRecent (Cache.getIds c clock "experiment_ids") (Cache.getExperiment c clock)) ∧
    (Cache.getIds c clock "experiment_ids" = none →
      (CreateExperimentsTable fmt c clock none).2 = []) ∧
    (∀ e ∈ (CreateExperimentsTable fmt c clock args).2,
      ∃ id ∈ readIndex (CreateExperimentsTable fmt c clock args).1 clock,
        Cache.getExperiment (CreateExperimentsTable fmt c clock args).1 clock id = some e) := by
  have hnone : CreateExperimentsTable fmt c clock none =
      (c, ListRecent (Cache.getIds c clock "experiment_ids")
        (Cache.getExperiment c clock)) := by
    unfold CreateExperimentsTable
    simp only
    rw [listRecent_of_readIndex]
  have hall : (CreateExperimentsTable fmt c clock args).2 =
      listExperiments (CreateExperimentsTable fmt c clock args).1 clock
        (readIndex (CreateExperimentsTable fmt c clock args).1 clock) := by
    cases args with
    | none => rw [hnone, listRecent_of_readIndex]
    | some a =>
      unfold CreateExperimentsTable
      simp only
      by_cases hf : Cache.find c clock (newExperimentOf fmt a).Stamp = none
      · rw [recordNew_of_free c clock _ _ hf]
        simp only
        rw [readIndex_set_index _ _ _ _ (Nat.le_add_right _ _)]
      · rw [recordNew_of_stored c clock _ _ hf]
  refine ⟨?_, hnone, ?_, ?_⟩
  · rw [hall, listRecent_of_readIndex]
  · intro hidx
    rw [hnone, hidx]
    rfl
  · intro e he
    rw [hall] at he
    unfold listExperiments at he
    obtain ⟨id, hid, hrec⟩ := List.mem_filterMap.mp he
    exact ⟨id, hid, hrec⟩

/-! ## C9: submission outcome -/

/-- C9 (as stated, refuted). A response with status code 201 but without a usable `Location`
header does not make the submission succeed: the action panics and sets no render argument. -/
theorem created_without_location_counterexample :
    (postCreatedNoLocation initialWorkflow = PostResult.response
        { StatusCode := 201, Location := none }) ∧
    NewWorkflow FormatFloat false 1446654321 sampleTime postCreatedNoLocation sweep85 4 =
      some (ActionResult.panicked PanicValue.noLocation) ∧
    (NewWorkflow FormatFloat false 1446654321 sampleTime postCreatedNoLocation
      sweep85 4).map renderArgsOf = some none := by
  decide

/-- C9 (amended). Once validation passed and the graph is built and posted, with the execution
service answering by a response `resp`: the action reaches its render arguments (status handle
included) if and only if the status code is 201 and the response has a usable `Location`; for
every other status code (200 in particular) it panics with the response, sets no render
argument, and `CreateExperimentsTable` run on what it left writes nothing into the cache. -/
theorem submission_succeeds_iff_created_with_location (fmt : F32 → String) (unixNow : Int)
    (timestamp : WallTime) (post : WorkflowObject → PostResult) (req : SweepRequest)
    (fuel : Nat) (w : WorkflowObject) (resp : HttpResponse)
    (hbuild : buildWorkflow fmt (FormatInt unixNow) req fuel = some w)
    (hpost : post w = PostResult.response resp) :
    ((∃ args, NewWorkflow fmt false unixNow timestamp post req fuel =
          some (ActionResult.rendered args)) ↔
      (resp.StatusCode = 201 ∧ resp.Location ≠ none)) ∧
    (∀ args, NewWorkflow fmt false unixNow timestamp post req fuel =
        some (ActionResult.rendered args) →
      some args.statusURL = resp.Location ∧ args.workflow = w ∧
        args.timestamp = formatStamp timestamp) ∧
    (resp.StatusCode ≠ 201 →
      NewWorkflow fmt false unixNow timestamp post req fuel =
        some (ActionResult.panicked (PanicValue.rejected resp)) ∧
      ∀ (c : Cache) (clock : Nat) (r : ActionResult),
        NewWorkflow fmt false unixNow timestamp post req fuel = some r →
        renderArgsOf r = none ∧
        (CreateExperimentsTable fmt c clock (renderArgsOf r)).1 = c) := by
  have hrun : NewWorkflow fmt false unixNow timestamp post req fuel =
      if resp.StatusCode ≠ StatusCreated then
        some (ActionResult.panicked (PanicValue.rejected resp))
      else
        match resp.Location with
        | none => some (ActionResult.panicked PanicValue.noLocation)
        | some statusURL =>
          some (ActionResult.rendered
            { filenames :=
                { FilenameOutArchived := "md-simulation-" ++ FormatInt unixNow ++ ".tgz"
                  FilenameOutVideo := "md-simulation-" ++ FormatInt unixNow ++ ".avi" }
              simulation_end_time := req.simulation_end_time
              molecules := req.number_of_molecules
              timestamp := formatStamp timestamp
              min_temperature := req.min_temperature
              max_temperature := req.max_temperature
              step_temperature := req.step_temperature
              statusURL := statusURL
              workflow := w }) := by
    unfold NewWorkflow
    simp only [Bool.false_eq_true, if_false, hbuild, hpost]
  rw [hrun]
  by_cases hcode : resp.StatusCode = 201
  · have hc : ¬ resp.StatusCode ≠ StatusCreated := by simpa [StatusCreated] using hcode
    rw [if_neg hc]
    cases hloc : resp.Location with
    | none => simp [hcode]
    | some url => simp [hcode]
  · have hc : resp.StatusCode ≠ StatusCreated := by simpa [StatusCreated] using hcode
    rw [if_pos hc]
    refine ⟨by simp [hcode], by simp, ?_⟩
    intro _
    refine ⟨rfl, ?_⟩
    intro c clock r hr
    have : r = ActionResult.panicked (PanicValue.rejected resp) := (Option.some.inj hr).symm
    subst this
    refine ⟨rfl, ?_⟩
    simp only [renderArgsOf]
    unfold CreateExperimentsTable
    rfl

/-- C9 (amended) at an execution service answering 200 to the sweep 85..87. -/
theorem submission_succeeds_iff_created_with_location_witness :
    ((∃ args, NewWorkflow FormatFloat false 1446654321 sampleTime postOk sweep85 4 =
          some (ActionResult.rendered args)) ↔
      ((200 : Nat) = 201 ∧ some "http://localhost/apps/1" ≠ none)) ∧
    (∀ args, NewWorkflow FormatFloat false 1446654321 sampleTime postOk sweep85 4 =
        some (ActionResult.rendered args) →
      some args.statusURL = some "http://localhost/apps/1" ∧
        args.workflow = (buildWorkflow FormatFloat "1446654321" sweep85 4).getD initialWorkflow ∧
        args.timestamp = formatStamp sampleTime) ∧
    ((200 : Nat) ≠ 201 →
      NewWorkflow FormatFloat false 1446654321 sampleTime postOk sweep85 4 =
        some (ActionResult.panicked (PanicValue.rejected
          { StatusCode := 200, Location := some "http://localhost/apps/1" })) ∧
      ∀ (c : Cache) (clock : Nat) (r : ActionResult),
        NewWorkflow FormatFloat false 1446654321 sampleTime postOk sweep85 4 = some r →
        renderArgsOf r = none ∧
        (CreateExperimentsTable FormatFloat c clock (renderArgsOf r)).1 = c) :=
  submission_succeeds_iff_created_with_location FormatFloat 1446654321 sampleTime postOk
    sweep85 4 ((buildWorkflow FormatFloat "1446654321" sweep85 4).getD initialWorkflow)
    { StatusCode := 200, Location := some "http://localhost/apps/1" } (by decide) rfl

/-! ## C10: completion probe -/

/-- C10. `UpdateExperiment` is a total function of the locator and of the outcome of the fetch,
and it answers as the specified probe does, a fetch counting as successful when `http.Get`
returns no error and status code 200: the error `n/a` for the empty locator, otherwise
`Finished` after a successful fetch and `Running` after a fetch error or any other status. -/
theorem updateExperiment_eq_probe (httpGet : String → GetResult) (s3Resource : String) :
    UpdateExperiment httpGet s3Resource =
      (Probe (fun l => (httpGet l).succeeds) s3Resource).toJson ∧
    UpdateExperiment httpGet "" = { Status := "", Error := "n/a" } ∧
    (s3Resource ≠ "" → httpGet s3Resource = GetResult.response 200 →
      UpdateExperiment httpGet s3Resource = { Status := "Finished", Error := "" }) ∧
    (s3Resource ≠ "" → httpGet s3Resource ≠ GetResult.response 200 →
      UpdateExperiment httpGet s3Resource = { Status := "Running", Error := "" }) := by
  refine ⟨?_, ?_, ?_, ?_⟩
  · unfold UpdateExperiment Probe
    by_cases hs : s3Resource = ""
    · rw [if_pos hs, if_pos hs]; rfl
    · rw [if_neg hs, if_neg hs]
      cases hg : httpGet s3Resource with
      | err => simp [GetResult.succeeds, ProbeStatus.toJson, hg]
      | response code =>
        by_cases hc : code = 200
        · simp [GetResult.succeeds, ProbeStatus.toJson, hg, hc]
        · simp [GetResult.succeeds, ProbeStatus.toJson, hg, hc]
  · unfold UpdateExperiment
    rw [if_pos rfl]
  · intro hs hg
    unfold UpdateExperiment
    rw [if_neg hs, hg]
    simp
  · intro hs hg
    unfold UpdateExperiment
    rw [if_neg hs]
    cases hr : httpGet s3Resource with
    | err => rfl
    | response code =>
      have hc : code ≠ 200 := by
        intro h
        rw [hr, h] at hg
        exact hg rfl
      simp [hc]

/-! ## C11: the simulation process of a temperature point -/

theorem mem_pointProcesses_simulation (fmt : F32 → String) (now : String) (req : SweepRequest)
    (t : F32) : simulationProcess fmt now req t ∈ pointProcesses fmt now req t := by
  unfold pointProcesses
  by_cases hm : req.record_movie = true
  · rw [if_pos hm]; simp
  · rw [if_neg hm]; simp

theorem simulation_of_mem_processes (fmt : F32 → String) (now : String) (req : SweepRequest)
    (pts : List F32) (p : ProcessesType)
    (hp : p ∈ pts.flatMap (pointProcesses fmt now req)) (hsim : IsSimulation p) :
    ∃ t ∈ pts, p = simulationProcess fmt now req t := by
  obtain ⟨t, ht, hpt⟩ := List.mem_flatMap.mp hp
  refine ⟨t, ht, ?_⟩
  unfold pointProcesses at hpt
  by_cases hm : req.record_movie = true
  · rw [if_pos hm] at hpt
    simp only [List.mem_cons, List.mem_singleton, List.not_mem_nil, or_false] at hpt
    rcases hpt with h | h
    · exact h
    · subst h
      exact absurd hsim (not_isSimulation_povrayProcess fmt now t)
  · rw [if_neg hm] at hpt
    simpa using hpt

/-- C11. For every temperature `t` visited by the loop the graph contains the simulation process
emitted for `t`: its name is `"run-simulation-" + fmt t`, its function `"amqpCommand"`, its type
`"dataflow"`, its `Ins` are `["start"]`, its `Outs` are the archive name
`"md-simulation-" + now + "-" + fmt t + ".tgz"` alone, and its executor arguments are the decimal
molecule count, the formatted end time, `fmt t` and the archive name, in this order, the same
string `fmt t` being used in all three places. Every simulation process of the graph is the one
of some visited temperature. -/
theorem simulation_process_fields (fmt : F32 → String) (now : String) (req : SweepRequest)
    (fuel : Nat) (g : WorkflowObject) (pts : List F32) (t : F32)
    (hbuild : buildWorkflow fmt now req fuel = some g)
    (hpts : sweepPoints req fuel req.min_temperature = some pts) (ht : t ∈ pts) :
    (∃ p ∈ g.Processes,
      p.Name = "run-simulation-" ++ fmt t ∧ p.Function = "amqpCommand" ∧ p.Typ = "dataflow" ∧
      p.Ins = ["start"] ∧
      p.Outs = ["md-simulation-" ++ now ++ "-" ++ fmt t ++ ".tgz"] ∧
      p.Config.Executor.Executable = "/MD_v4_MPI/run-cmd.sh" ∧
      p.Config.Executor.Args =
        [FormatUint req.number_of_molecules, fmt req.simulation_end_time, fmt t,
          "md-simulation-" ++ now ++ "-" ++ fmt t ++ ".tgz"]) ∧
    (∀ p ∈ g.Processes, IsSimulation p → ∃ u ∈ pts, p = simulationProcess fmt now req u) := by
  obtain ⟨pts1, hpts1, hprocs, _⟩ := buildWorkflow_fields fmt now req fuel g hbuild
  rw [hpts] at hpts1
  have hp1 : pts = pts1 := Option.some.inj hpts1
  subst hp1
  constructor
  · refine ⟨simulationProcess fmt now req t, ?_, rfl, rfl, rfl, rfl, rfl, rfl, rfl⟩
    rw [hprocs]
    exact List.mem_flatMap.mpr ⟨t, ht, mem_pointProcesses_simulation fmt now req t⟩
  · intro p hp hsim
    rw [hprocs] at hp
    exact simulation_of_mem_processes fmt now req pts p hp hsim

/-- C11 at the temperature 86 of the sweep 85..87. -/
theorem simulation_process_fields_witness :
    (∃ p ∈ graph85Movie.Processes,
      p.Name = "run-simulation-" ++ FormatFloat (F32.ofNat 86) ∧ p.Function = "amqpCommand" ∧
      p.Typ = "dataflow" ∧ p.Ins = ["start"] ∧
      p.Outs = ["md-simulation-" ++ "1446654321" ++ "-" ++ FormatFloat (F32.ofNat 86) ++ ".tgz"] ∧
      p.Config.Executor.Executable = "/MD_v4_MPI/run-cmd.sh" ∧
      p.Config.Executor.Args =
        [FormatUint sweep85Movie.number_of_molecules,
          FormatFloat sweep85Movie.simulation_end_time, FormatFloat (F32.ofNat 86),
          "md-simulation-" ++ "1446654321" ++ "-" ++ FormatFloat (F32.ofNat 86) ++ ".tgz"]) ∧
    (∀ p ∈ graph85Movie.Processes, IsSimulation p →
      ∃ u ∈ [F32.ofNat 85, F32.ofNat 86, F32.ofNat 87],
        p = simulationProcess FormatFloat "1446654321" sweep85Movie u) :=
  simulation_process_fields FormatFloat "1446654321" sweep85Movie 4 graph85Movie
    [F32.ofNat 85, F32.ofNat 86, F32.ofNat 87] (F32.ofNat 86) (by decide) (by decide)
    (by decide)

/-! ## C12: the sweep 85..87 without movie -/

/-- C12. For `min=85, max=87, step=1, molecules=1000, simTime=5.5, movie=false`, whatever the
stamp, the loop stops after three temperatures and the graph has exactly the three processes
named `run-simulation-85`, `run-simulation-86`, `run-simulation-87`, in this order, three
declared outputs (the three archive names) and the declared inputs `["start"]`. -/
theorem sweep85_graph (now : String) (extra : Nat) :
    ∃ g, buildWorkflow FormatFloat now sweep85 (4 + extra) = some g ∧
      g.Processes.map (fun p => p.Name) =
        ["run-simulation-85", "run-simulation-86", "run-simulation-87"] ∧
      g.Processes.length = 3 ∧
      g.Outs = ["md-simulation-" ++ now ++ "-85.tgz", "md-simulation-" ++ now ++ "-86.tgz",
        "md-simulation-" ++ now ++ "-87.tgz"] ∧
      g.Outs.length = 3 ∧ g.Ins = ["start"] := by
  have hpts : sweepPoints sweep85 (4 + extra) sweep85.min_temperature =
      some [F32.ofNat 85, F32.ofNat 86, F32.ofNat 87] :=
    sweepPoints_mono sweep85 4 extra _ _ (by decide)
  obtain ⟨g, hg, hprocs, houts, _, hins⟩ :=
    buildWorkflow_eq FormatFloat now sweep85 (4 + extra) _ hpts
  have h85 : FormatFloat (F32.ofNat 85) = "85" := by decide
  have h86 : FormatFloat (F32.ofNat 86) = "86" := by decide
  have h87 : FormatFloat (F32.ofNat 87) = "87" := by decide
  have hmovie : sweep85.record_movie = false := rfl
  have hP : g.Processes = [simulationProcess FormatFloat now sweep85 (F32.ofNat 85),
      simulationProcess FormatFloat now sweep85 (F32.ofNat 86),
      simulationProcess FormatFloat now sweep85 (F32.ofNat 87)] := by
    rw [hprocs]
    simp [pointProcesses, hmovie]
  have hO : g.Outs = [archiveName now "85", archiveName now "86", archiveName now "87"] := by
    rw [houts]
    simp [pointOuts, hmovie, h85, h86, h87]
  refine ⟨g, hg, ?_, ?_, ?_, ?_, hins⟩
  · rw [hP]
    simp only [List.map_cons, List.map_nil, simulationProcess, h85, h86, h87]
    decide
  · rw [hP]; rfl
  · rw [hO]
    simp only [archiveName]
    have e : ∀ s : String, "md-simulation-" ++ now ++ "-" ++ s ++ ".tgz" =
        "md-simulation-" ++ now ++ ("-" ++ s ++ ".tgz") := by
      intro s
      simp [String.append_assoc]
    rw [e, e, e]
    rfl
  · rw [hO]; rfl

/-! ## C13: an empty range -/

theorem F32.le_eq_false_of_lt (a b : F32) (h : F32.lt b a = true) : F32.le a b = false := by
  cases a with
  | nan => cases b <;> simp [F32.lt] at h
  | inf na =>
    cases b with
    | nan => simp [F32.lt] at h
    | inf nb => cases na <;> cases nb <;> simp [F32.lt, F32.le] at h ⊢
    | fin nb kb => cases na <;> simp [F32.lt, F32.le] at h ⊢
  | fin na ka =>
    cases b with
    | nan => simp [F32.lt] at h
    | inf nb => cases nb <;> simp [F32.lt, F32.le] at h ⊢
    | fin nb kb =>
      cases na <;> cases nb <;> simp only [F32.lt, F32.le, decide_eq_true_eq,
        decide_eq_false_iff_not, Bool.false_eq_true] at h ⊢ <;> omega

/-- C13. When `min > max` in `float32` (any step, movie on or off) the loop body never runs:
graph synthesis returns, without error, the graph with no processes, no declared outputs, the
single signal `start` carrying the data `["start"]`, and the declared inputs `["start"]`. -/
theorem empty_range_graph (fmt : F32 → String) (now : String) (req : SweepRequest)
    (extra : Nat) (hgt : F32.lt req.max_temperature req.min_temperature = true) :
    ∃ g, buildWorkflow fmt now req (1 + extra) = some g ∧
      g.Processes = [] ∧ g.Outs = [] ∧
      g.Signals = [{ Name := "start", Data := ["start"] }] ∧ g.Ins = ["start"] := by
  have hle : ¬ F32.le req.min_temperature req.max_temperature = true := by
    rw [F32.le_eq_false_of_lt _ _ hgt]
    decide
  refine ⟨initialWorkflow, ?_, rfl, rfl, rfl, rfl⟩
  rw [show 1 + extra = extra + 1 by omega]
  unfold buildWorkflow tempLoop
  rw [if_neg hle]

/-- C13 at `min=87, max=85` with movie rendering on. -/
theorem empty_range_graph_witness :
    ∃ g, buildWorkflow FormatFloat "1446654321" sweepReversed (1 + 0) = some g ∧
      g.Processes = [] ∧ g.Outs = [] ∧
      g.Signals = [{ Name := "start", Data := ["start"] }] ∧ g.Ins = ["start"] :=
  empty_range_graph FormatFloat "1446654321" sweepReversed 0 (by decide)

/-! ## C14: movie rendering doubles the graph -/

theorem not_isRendering_simulationProcess (fmt : F32 → String) (now : String)
    (req : SweepRequest) (t : F32) : ¬ IsRendering (simulationProcess fmt now req t) := by
  unfold IsRendering simulationProcess
  simp only [String.data_append]
  intro h
  have h2 := List.prefix_of_prefix_length_le h (List.prefix_append _ _) (by decide)
  exact absurd h2 (by decide)

theorem countP_isRendering (fmt : F32 → String) (now : String) (req : SweepRequest)
    (hmovie : req.record_movie = true) (pts : List F32) :
    (pts.flatMap (pointProcesses fmt now req)).countP (fun p => decide (IsRendering p)) =
      pts.length := by
  induction pts with
  | nil => rfl
  | cons t rest ih =>
    rw [List.flatMap_cons, List.countP_append, ih, List.length_cons, Nat.add_comm]
    congr 1
    unfold pointProcesses
    rw [if_pos hmovie]
    simp [List.countP_cons, isRendering_povrayProcess, not_isRendering_simulationProcess]

theorem length_flatMap_two {α β : Type} (f : α → List β) (l : List α)
    (h : ∀ a, (f a).length = 2) : (l.flatMap f).length = 2 * l.length := by
  induction l with
  | nil => rfl
  | cons a rest ih =>
    rw [List.flatMap_cons, List.length_append, ih, h a, List.length_cons]
    omega

/-- C14. With movie rendering on, a graph built from `n` visited temperatures has exactly `2n`
processes, `n` of them simulation and `n` rendering processes, and exactly `2n` declared
outputs: for every visited temperature both its archive name and its video name are in `Outs`,
the archive name also being the input of the rendering process of that temperature. -/
theorem movie_graph_size (fmt : F32 → String) (now : String) (req : SweepRequest) (fuel : Nat)
    (g : WorkflowObject) (pts : List F32) (hmovie : req.record_movie = true)
    (hbuild : buildWorkflow fmt now req fuel = some g)
    (hpts : sweepPoints req fuel req.min_temperature = some pts) :
    g.Processes.length = 2 * pts.length ∧ simulationCount g = pts.length ∧
    renderingCount g = pts.length ∧ g.Outs.length = 2 * pts.length ∧
    ∀ t ∈ pts, archiveName now (fmt t) ∈ g.Outs ∧ videoName now (fmt t) ∈ g.Outs ∧
      ∃ q ∈ g.Processes, q = povrayProcess fmt now t ∧ q.Ins = [archiveName now (fmt t)] := by
  obtain ⟨pts1, hpts1, hprocs, houts, _, _⟩ := buildWorkflow_fields fmt now req fuel g hbuild
  rw [hpts] at hpts1
  have hp1 : pts = pts1 := Option.some.inj hpts1
  subst hp1
  refine ⟨?_, ?_, ?_, ?_, ?_⟩
  · rw [hprocs]
    apply length_flatMap_two
    intro t
    simp [pointProcesses, hmovie]
  · unfold simulationCount
    rw [hprocs, countP_isSimulation]
  · unfold renderingCount
    rw [hprocs, countP_isRendering fmt now req hmovie]
  · rw [houts]
    apply length_flatMap_two
    intro t
    simp [pointOuts, hmovie]
  · intro t ht
    refine ⟨?_, ?_, povrayProcess fmt now t, ?_, rfl, rfl⟩
    · rw [houts]
      exact List.mem_flatMap.mpr ⟨t, ht, by simp [pointOuts, hmovie]⟩
    · rw [houts]
      exact List.mem_flatMap.mpr ⟨t, ht, by simp [pointOuts, hmovie]⟩
    · rw [hprocs]
      exact List.mem_flatMap.mpr ⟨t, ht, by simp [pointProcesses, hmovie]⟩

/-- C14 at the movie sweep 85..87: six processes and six declared outputs. -/
theorem movie_graph_size_witness :
    graph85Movie.Processes.length = 2 * [F32.ofNat 85, F32.ofNat 86, F32.ofNat 87].length ∧
    simulationCount graph85Movie = [F32.ofNat 85, F32.ofNat 86, F32.ofNat 87].length ∧
    renderingCount graph85Movie = [F32.ofNat 85, F32.ofNat 86, F32.ofNat 87].length ∧
    graph85Movie.Outs.length = 2 * [F32.ofNat 85, F32.ofNat 86, F32.ofNat 87].length ∧
    ∀ t ∈ [F32.ofNat 85, F32.ofNat 86, F32.ofNat 87],
      archiveName "1446654321" (FormatFloat t) ∈ graph85Movie.Outs ∧
      videoName "1446654321" (FormatFloat t) ∈ graph85Movie.Outs ∧
      ∃ q ∈ graph85Movie.Processes, q = povrayProcess FormatFloat "1446654321" t ∧
        q.Ins = [archiveName "1446654321" (FormatFloat t)] :=
  movie_graph_size FormatFloat "1446654321" sweep85Movie 4 graph85Movie
    [F32.ofNat 85, F32.ofNat 86, F32.ofNat 87] (by decide) (by decide) (by decide)

/-! ## C15: declared outputs and consumption -/

/-- C15 (as stated, refuted). In the graph of the movie sweep 85..87 the declared output
`md-simulation-1446654321-85.tgz` is in the `Ins` of a process of the graph (the rendering
process of 85). -/
theorem declared_output_consumed_counterexample :
    buildWorkflow FormatFloat "1446654321" sweep85Movie 4 = some graph85Movie ∧
    "md-simulation-1446654321-85.tgz" ∈ graph85Movie.Outs ∧
    ∃ p ∈ graph85Movie.Processes, "md-simulation-1446654321-85.tgz" ∈ p.Ins := by
  decide

theorem mem_pointOuts_cases (fmt : F32 → String) (now : String) (req : SweepRequest) (t : F32)
    (o : String) (ho : o ∈ pointOuts fmt now req t) :
    o = archiveName now (fmt t) ∨ (req.record_movie = true ∧ o = videoName now (fmt t)) := by
  unfold pointOuts at ho
  by_cases hm : req.record_movie = true
  · rw [if_pos hm] at ho
    simp only [List.mem_cons, List.mem_singleton, List.not_mem_nil, or_false] at ho
    rcases ho with h | h
    · exact Or.inl h
    · exact Or.inr ⟨hm, h⟩
  · rw [if_neg hm] at ho
    simp only [List.mem_singleton] at ho
    exact Or.inl ho

theorem mem_pointProcesses_cases (fmt : F32 → String) (now : String) (req : SweepRequest)
    (t : F32) (p : ProcessesType) (hp : p ∈ pointProcesses fmt now req t) :
    p = simulationProcess fmt now req t ∨
      (req.record_movie = true ∧ p = povrayProcess fmt now t) := by
  unfold pointProcesses at hp
  by_cases hm : req.record_movie = true
  · rw [if_pos hm] at hp
    simp only [List.mem_cons, List.mem_singleton, List.not_mem_nil, or_false] at hp
    rcases hp with h | h
    · exact Or.inl h
    · exact Or.inr ⟨hm, h⟩
  · rw [if_neg hm] at hp
    simp only [List.mem_singleton] at hp
    exact Or.inl hp

/-- C15 (amended). In every built graph each declared output is in the `Outs` of some process of
the graph, and it is in the `Ins` of a process of the graph exactly when movie rendering is on
and it is an archive name (the rendering process of the same temperature consumes it). -/
theorem declared_outputs_produced (fmt : F32 → String) (now : String) (req : SweepRequest)
    (fuel : Nat) (g : WorkflowObject) (o : String)
    (hbuild : buildWorkflow fmt now req fuel = some g) (ho : o ∈ g.Outs) :
    (∃ p ∈ g.Processes, o ∈ p.Outs) ∧
    ((∃ p ∈ g.Processes, o ∈ p.Ins) ↔ (req.record_movie = true ∧ IsArchive o)) := by
  obtain ⟨pts, _, hprocs, houts, _, _⟩ := buildWorkflow_fields fmt now req fuel g hbuild
  rw [houts] at ho
  rw [hprocs]
  obtain ⟨t, ht, hot⟩ := List.mem_flatMap.mp ho
  have hsimt : simulationProcess fmt now req t ∈ pts.flatMap (pointProcesses fmt now req) :=
    List.mem_flatMap.mpr ⟨t, ht, mem_pointProcesses_simulation fmt now req t⟩
  have hpovt : req.record_movie = true →
      povrayProcess fmt now t ∈ pts.flatMap (pointProcesses fmt now req) := by
    intro hm
    exact List.mem_flatMap.mpr ⟨t, ht, by simp [pointProcesses, hm]⟩
  have hcases := mem_pointOuts_cases fmt now req t o hot
  constructor
  · rcases hcases with h | ⟨hm, h⟩
    · exact ⟨_, hsimt, by simp [simulationProcess, h]⟩
    · exact ⟨_, hpovt hm, by simp [povrayProcess, h]⟩
  · constructor
    · rintro ⟨p, hp, hin⟩
      obtain ⟨u, _, hpu⟩ := List.mem_flatMap.mp hp
      rcases mem_pointProcesses_cases fmt now req u p hpu with hsim | ⟨hm, hpov⟩
      · subst hsim
        simp only [simulationProcess, List.mem_singleton] at hin
        rcases hcases with h | ⟨_, h⟩
        · exact absurd (h.symm.trans hin) (archiveName_ne_start now _)
        · exact absurd (h.symm.trans hin) (videoName_ne_start now _)
      · subst hpov
        simp only [povrayProcess, List.mem_singleton] at hin
        rw [hin]
        exact ⟨hm, isArchive_archiveName now _⟩
    · rintro ⟨hm, harch⟩
      rcases hcases with h | ⟨_, h⟩
      · exact ⟨_, hpovt hm, by simp [povrayProcess, h]⟩
      · rw [h] at harch
        exact absurd harch (not_isArchive_videoName now _)

/-- C15 (amended) at the video of 86 degrees in the movie sweep 85..87. -/
theorem declared_outputs_produced_witness :
    (∃ p ∈ graph85Movie.Processes, "md-simulation-1446654321-86.avi" ∈ p.Outs) ∧
    ((∃ p ∈ graph85Movie.Processes, "md-simulation-1446654321-86.avi" ∈ p.Ins) ↔
      (sweep85Movie.record_movie = true ∧ IsArchive "md-simulation-1446654321-86.avi")) :=
  declared_outputs_produced FormatFloat "1446654321" sweep85Movie 4 graph85Movie
    "md-simulation-1446654321-86.avi" (by decide) (by decide)

/-! ## C16: the two stamps -/

theorem digitChar_isDigit (d : Nat) (hd : d < 10) : (Nat.digitChar d).isDigit = true := by
  interval_cases d <;> decide

theorem toDigitsCore_isDigit (fuel n : Nat) (ds : List Char)
    (hds : ∀ c ∈ ds, c.isDigit = true) :
    ∀ c ∈ Nat.toDigitsCore 10 fuel n ds, c.isDigit = true := by
  induction fuel generalizing n ds with
  | zero => simpa [Nat.toDigitsCore] using hds
  | succ k ih =>
    have hcons : ∀ c ∈ Nat.digitChar (n % 10) :: ds, c.isDigit = true := by
      intro c hc
      rcases List.mem_cons.mp hc with rfl | hmem
      · exact digitChar_isDigit _ (Nat.mod_lt _ (by decide))
      · exact hds c hmem
    unfold Nat.toDigitsCore
    simp only
    by_cases h0 : n / 10 = 0
    · rw [if_pos h0]
      exact hcons
    · rw [if_neg h0]
      exact ih (n / 10) _ hcons

theorem repr_isDigit (n : Nat) : ∀ c ∈ (Nat.repr n).data, c.isDigit = true := by
  unfold Nat.repr Nat.toDigits
  simp only [List.asString]
  exact toDigitsCore_isDigit _ _ [] (by simp)

/-- The decimal stamp consists of digits, after a minus sign for a negative number. -/
theorem formatInt_chars (z : Int) :
    ∀ c ∈ (FormatInt z).data, c.isDigit = true ∨ c = '-' := by
  intro c hc
  unfold FormatInt at hc
  cases z with
  | ofNat m =>
    exact Or.inl (repr_isDigit m c hc)
  | negSucc m =>
    have hs : toString (Int.negSucc m) = "-" ++ Nat.repr (m + 1) := rfl
    rw [hs, String.data_append] at hc
    rcases List.mem_append.mp hc with h | h
    · right
      simpa using h
    · exact Or.inl (repr_isDigit _ c h)

/-- A `time.Stamp` string starts with a letter, neither a digit nor a minus sign. -/
theorem formatStamp_head_letter (t : WallTime) :
    ∃ c rest, (formatStamp t).data = c :: rest ∧ c.isDigit = false ∧ c ≠ '-' := by
  obtain ⟨⟨m, hm⟩, d, h, mi, sec⟩ := t
  unfold formatStamp monthAbbrev
  simp only [String.data_append, List.append_assoc]
  interval_cases m <;>
    exact ⟨_, _, rfl, by decide, by decide⟩

/-- The stamp of the record is never the stamp of the artifact names. -/
theorem formatStamp_ne_formatInt (t : WallTime) (z : Int) : formatStamp t ≠ FormatInt z := by
  intro h
  obtain ⟨c, rest, hdata, hnd, hnm⟩ := formatStamp_head_letter t
  have hc : c ∈ (FormatInt z).data := by
    rw [← h, hdata]
    exact List.mem_cons_self _ _
  rcases formatInt_chars z c hc with hd | hm
  · rw [hd] at hnd
    exact absurd hnd (by decide)
  · exact hnm hm

theorem NewWorkflow_rendered (fmt : F32 → String) (hasErrors : Bool) (unixNow : Int)
    (timestamp : WallTime) (post : WorkflowObject → PostResult) (req : SweepRequest)
    (fuel : Nat) (args : RenderArgs)
    (hrun : NewWorkflow fmt hasErrors unixNow timestamp post req fuel =
      some (ActionResult.rendered args)) :
    ∃ w statusURL, buildWorkflow fmt (FormatInt unixNow) req fuel = some w ∧
      post w = PostResult.response { StatusCode := 201, Location := some statusURL } ∧
      args =
        { filenames :=
            { FilenameOutArchived := "md-simulation-" ++ FormatInt unixNow ++ ".tgz"
              FilenameOutVideo := "md-simulation-" ++ FormatInt unixNow ++ ".avi" }
          simulation_end_time := req.simulation_end_time
          molecules := req.number_of_molecules
          timestamp := formatStamp timestamp
          min_temperature := req.min_temperature
          max_temperature := req.max_temperature
          step_temperature := req.step_temperature
          statusURL := statusURL
          workflow := w } := by
  unfold NewWorkflow at hrun
  by_cases he : hasErrors = true
  · rw [if_pos he] at hrun
    simp at hrun
  · rw [if_neg he] at hrun
    simp only at hrun
    cases hb : buildWorkflow fmt (FormatInt unixNow) req fuel with
    | none => rw [hb] at hrun; simp at hrun
    | some w =>
      rw [hb] at hrun
      simp only at hrun
      cases hp : post w with
      | err => rw [hp] at hrun; simp at hrun
      | response resp =>
        rw [hp] at hrun
        simp only at hrun
        by_cases hc : resp.StatusCode ≠ StatusCreated
        · rw [if_pos hc] at hrun
          simp at hrun
        · rw [if_neg hc] at hrun
          obtain ⟨code, loc⟩ := resp
          have hcode : code = 201 := by
            simpa [StatusCreated] using hc
          cases loc with
          | none => simp at hrun
          | some url =>
            simp only [Option.some.injEq, ActionResult.rendered.injEq] at hrun
            exact ⟨w, url, rfl, by rw [hp, hcode], hrun.symm⟩

/-- C16 (as stated, refuted). The sweep 85..87 submitted at Unix time `1446654321` and wall-clock
time `Nov  4 17:25:21` is accepted; the action records the experiment under the identifier
`Nov  4 17:25:21`, while the names in the recorded workflow's `Outs` carry `1446654321`: the
name `"md-simulation-" + Stamp + "-85.tgz"` is not among them. -/
theorem record_stamp_counterexample :
    NewWorkflow FormatFloat false 1446654321 sampleTime postCreated sweep85 4 =
      some (ActionResult.rendered args85) ∧
    (CreateExperimentsTable FormatFloat [] 0 (some args85)).2.map (fun e => e.Stamp) =
      ["Nov  4 17:25:21"] ∧
    (CreateExperimentsTable FormatFloat [] 0 (some args85)).2.map (fun e => e.Workflow.Outs) =
      [["md-simulation-1446654321-85.tgz", "md-simulation-1446654321-86.tgz",
        "md-simulation-1446654321-87.tgz"]] ∧
    "md-simulation-" ++ (newExperimentOf FormatFloat args85).Stamp ++ "-" ++
        FormatFloat (F32.ofNat 85) ++ ".tgz" ∉
      (newExperimentOf FormatFloat args85).Workflow.Outs := by
  decide

/-- C16 (amended). For every successful submission the experiment is recorded under the
`time.Stamp` text of the clock reading of line 196, which is never the decimal Unix-seconds
stamp of line 107; the decimal stamp is the one in every artifact name of the recorded workflow
(each name in its `Outs` is `"md-simulation-" + decimal stamp + "-" + fmt t` followed by `.tgz`
or `.avi`, for a visited temperature `t`) and in the record's `Tgz` and `Avi` file names. -/
theorem record_stamp_is_time_stamp (fmt : F32 → String) (hasErrors : Bool) (unixNow : Int)
    (timestamp : WallTime) (post : WorkflowObject → PostResult) (req : SweepRequest)
    (fuel : Nat) (args : RenderArgs)
    (hrun : NewWorkflow fmt hasErrors unixNow timestamp post req fuel =
      some (ActionResult.rendered args)) :
    (newExperimentOf fmt args).Stamp = formatStamp timestamp ∧
    (newExperimentOf fmt args).Stamp ≠ FormatInt unixNow ∧
    (∀ o ∈ (newExperimentOf fmt args).Workflow.Outs, ∃ t,
      o = "md-simulation-" ++ FormatInt unixNow ++ "-" ++ fmt t ++ ".tgz" ∨
      o = "md-simulation-" ++ FormatInt unixNow ++ "-" ++ fmt t ++ ".avi") ∧
    (newExperimentOf fmt args).Tgz = "md-simulation-" ++ FormatInt unixNow ++ ".tgz" ∧
    (newExperimentOf fmt args).Avi = "md-simulation-" ++ FormatInt unixNow ++ ".avi" ∧
    (∀ (c : Cache) (clock : Nat), Cache.find c clock (formatStamp timestamp) = none →
      Cache.getExperiment (CreateExperimentsTable fmt c clock (some args)).1 clock
        (formatStamp timestamp) = some (newExperimentOf fmt args)) := by
  obtain ⟨w, url, hb, _, hargs⟩ :=
    NewWorkflow_rendered fmt hasErrors unixNow timestamp post req fuel args hrun
  have hstamp : (newExperimentOf fmt args).Stamp = formatStamp timestamp := by
    rw [hargs]; rfl
  refine ⟨hstamp, ?_, ?_, by rw [hargs]; rfl, by rw [hargs]; rfl, ?_⟩
  · rw [hstamp]
    exact formatStamp_ne_formatInt timestamp unixNow
  · intro o ho
    have hw : (newExperimentOf fmt args).Workflow = w := by rw [hargs]; rfl
    rw [hw] at ho
    obtain ⟨pts, _, _, houts, _, _⟩ := buildWorkflow_fields fmt _ req fuel w hb
    rw [houts] at ho
    obtain ⟨t, _, hot⟩ := List.mem_flatMap.mp ho
    refine ⟨t, ?_⟩
    rcases mem_pointOuts_cases fmt _ req t o hot with h | ⟨_, h⟩
    · exact Or.inl h
    · exact Or.inr h
  · intro c clock hfree
    have hfree1 : Cache.find c clock (newExperimentOf fmt args).Stamp = none := by
      rw [hstamp]; exact hfree
    have hkey : (newExperimentOf fmt args).Stamp ≠ "experiment_ids" := by
      rw [hstamp]; exact formatStamp_ne_index_key timestamp
    unfold CreateExperimentsTable
    simp only
    rw [recordNew_of_free c clock _ _ hfree1]
    unfold Cache.getExperiment
    simp only
    rw [← hstamp, Cache.find_set_other _ _ _ _ _ _ _ hkey,
      Cache.find_set_self _ _ _ _ _ _ (Nat.le_add_right _ _)]

/-- C16 (amended) at the accepted submission of the sweep 85..87. -/
theorem record_stamp_is_time_stamp_witness :
    (newExperimentOf FormatFloat args85).Stamp = formatStamp sampleTime ∧
    (newExperimentOf FormatFloat args85).Stamp ≠ FormatInt 1446654321 ∧
    (∀ o ∈ (newExperimentOf FormatFloat args85).Workflow.Outs, ∃ t,
      o = "md-simulation-" ++ FormatInt 1446654321 ++ "-" ++ FormatFloat t ++ ".tgz" ∨
      o = "md-simulation-" ++ FormatInt 1446654321 ++ "-" ++ FormatFloat t ++ ".avi") ∧
    (newExperimentOf FormatFloat args85).Tgz =
      "md-simulation-" ++ FormatInt 1446654321 ++ ".tgz" ∧
    (newExperimentOf FormatFloat args85).Avi =
      "md-simulation-" ++ FormatInt 1446654321 ++ ".avi" ∧
    (∀ (c : Cache) (clock : Nat), Cache.find c clock (formatStamp sampleTime) = none →
      Cache.getExperiment (CreateExperimentsTable FormatFloat c clock (some args85)).1 clock
        (formatStamp sampleTime) = some (newExperimentOf FormatFloat args85)) :=
  record_stamp_is_time_stamp FormatFloat false 1446654321 sampleTime postCreated sweep85 4
    args85 (by decide)

/-! ## C17: termination of the temperature loop -/

theorem sweepPoints_none_of_fixed (req : SweepRequest) (t : F32)
    (hle : F32.le t req.max_temperature = true) (hfix : F32.add t req.step_temperature = t)
    (fuel : Nat) : sweepPoints req fuel t = none := by
  induction fuel with
  | zero => rfl
  | succ n ih =>
    unfold sweepPoints
    rw [if_pos hle, hfix, ih]
    rfl

theorem buildWorkflow_none_of_fixed (fmt : F32 → String) (now : String) (req : SweepRequest)
    (hle : F32.le req.min_temperature req.max_temperature = true)
    (hfix : F32.add req.min_temperature req.step_temperature = req.min_temperature) :
    ¬ ∃ fuel g, buildWorkflow fmt now req fuel = some g := by
  rintro ⟨fuel, g, hg⟩
  unfold buildWorkflow at hg
  rw [tempLoop_eq_foldl, sweepPoints_none_of_fixed req _ hle hfix] at hg
  simp at hg

/-- C17 (as stated, refuted). For `min=16777216, max=16777220, step=1` (finite `float32`
numbers, `step > 0`) the loop variable does not increase: `16777216 + 1` rounds to `16777216`,
the condition `temperature <= max` stays true, and no amount of fuel makes graph synthesis
return. -/
theorem loop_stuck_counterexample :
    F32.WellFormed sweepStuck.min_temperature ∧ F32.WellFormed sweepStuck.max_temperature ∧
    F32.WellFormed sweepStuck.step_temperature ∧
    sweepStuck.min_temperature.isFinite = true ∧ sweepStuck.max_temperature.isFinite = true ∧
    0 < sweepStuck.step_temperature.toInt ∧
    F32.le sweepStuck.min_temperature sweepStuck.max_temperature = true ∧
    F32.add sweepStuck.min_temperature sweepStuck.step_temperature =
      sweepStuck.min_temperature ∧
    ¬ ∃ fuel g, buildWorkflow FormatFloat "1446654321" sweepStuck fuel = some g :=
  ⟨by decide, by decide, by decide, by decide, by decide, by decide, by decide, by decide,
    buildWorkflow_none_of_fixed FormatFloat "1446654321" sweepStuck (by decide) (by decide)⟩

theorem F32.lt_fin_iff (na nb : Bool) (a b : Nat) :
    F32.lt (F32.fin na a) (F32.fin nb b) = true ↔
      (F32.fin na a).toInt < (F32.fin nb b).toInt := by
  cases na <;> cases nb
  · simp only [F32.lt, F32.toInt, decide_eq_true_eq]; omega
  · simp only [F32.lt, F32.toInt]; constructor
    · intro h; exact absurd h (by decide)
    · intro _; omega
  · simp only [F32.lt, F32.toInt, decide_eq_true_eq]; omega
  · simp only [F32.lt, F32.toInt, decide_eq_true_eq]; omega

theorem sweepPoints_of_strict_increase (req : SweepRequest) (nm nM : Bool) (km kM : Nat)
    (hmin : req.min_temperature = F32.fin nm km) (hmax : req.max_temperature = F32.fin nM kM)
    (hinc : ∀ t : F32, t.isFinite = true → F32.WellFormed t →
      F32.le req.min_temperature t = true → F32.le t req.max_temperature = true →
      F32.lt t (F32.add t req.step_temperature) = true) (m : Nat) :
    ∀ (nt : Bool) (a : Nat), F32.WellFormed (F32.fin nt a) →
      (F32.fin nm km).toInt ≤ (F32.fin nt a).toInt →
      (F32.fin nM kM).toInt - (F32.fin nt a).toInt + 1 ≤ (m : Int) →
      ∃ fuel pts, fuel ≤ m + 1 ∧ sweepPoints req fuel (F32.fin nt a) = some pts ∧
        List.Chain (fun x y => F32.lt x y = true) (F32.fin nt a) pts.tail ∧
        (∀ x ∈ pts.head?, x = F32.fin nt a) := by
  induction m with
  | zero =>
    intro nt a _ _ hmeas
    refine ⟨1, [], le_refl _, ?_, List.Chain.nil, by simp⟩
    have hnle : ¬ F32.le (F32.fin nt a) req.max_temperature = true := by
      rw [hmax, F32.le_fin_iff]
      simp only [Nat.cast_zero] at hmeas
      omega
    unfold sweepPoints
    rw [if_neg hnle]
  | succ m ih =>
    intro nt a hwf hge hmeas
    by_cases hle : F32.le (F32.fin nt a) req.max_temperature = true
    · have hlt := hinc (F32.fin nt a) rfl hwf
        (by rw [hmin, F32.le_fin_iff]; exact hge) hle
      have hwf1 := F32.add_wellFormed (F32.fin nt a) req.step_temperature
      cases hnext : F32.add (F32.fin nt a) req.step_temperature with
      | nan => rw [hnext] at hlt; simp [F32.lt] at hlt
      | inf neg =>
        cases neg with
        | true => rw [hnext] at hlt; simp [F32.lt] at hlt
        | false =>
          refine ⟨2, [F32.fin nt a], by omega, ?_, List.Chain.nil, by simp⟩
          have hstop : ¬ F32.le (F32.inf false) req.max_temperature = true := by
            rw [hmax]; simp [F32.le]
          unfold sweepPoints
          rw [if_pos hle, hnext]
          unfold sweepPoints
          rw [if_neg hstop]
          rfl
      | fin n1 a1 =>
        rw [hnext] at hlt hwf1
        have hlt1 := (F32.lt_fin_iff nt n1 a a1).mp hlt
        obtain ⟨fuel, pts, hfuel, hpts, hchain, hhead⟩ := ih n1 a1 hwf1 (by omega)
          (by push_cast at hmeas; omega)
        refine ⟨fuel + 1, F32.fin nt a :: pts, by omega, ?_, ?_, by simp⟩
        · unfold sweepPoints
          rw [if_pos hle, hnext, hpts]
          rfl
        · simp only [List.tail_cons]
          cases pts with
          | nil => exact List.Chain.nil
          | cons p rest =>
            have hp : p = F32.fin n1 a1 := hhead p (by simp)
            subst hp
            simp only [List.tail_cons] at hchain
            exact List.Chain.cons hlt hchain
    · refine ⟨1, [], by omega, ?_, List.Chain.nil, by simp⟩
      unfold sweepPoints
      rw [if_neg hle]

/-- C17 (amended). For a sweep with finite `min` and `max` and `step > 0` in which adding the
step strictly increases every `float32` number between `min` and `max` (`t + step > t` after
rounding), the temperature loop stops: graph synthesis returns a graph, within
`max - min + 2` evaluations of the condition counted in units of `2^-149`, and the loop variable
strictly increases from each visited temperature to the next. -/
theorem loop_terminates_of_strict_increase (fmt : F32 → String) (now : String)
    (req : SweepRequest) (hmin : req.min_temperature.isFinite = true)
    (hmax : req.max_temperature.isFinite = true)
    (hwf : F32.WellFormed req.min_temperature)
    (_hpos : 0 < req.step_temperature.toInt)
    (hinc : ∀ t : F32, t.isFinite = true → F32.WellFormed t →
      F32.le req.min_temperature t = true → F32.le t req.max_temperature = true →
      F32.lt t (F32.add t req.step_temperature) = true) :
    ∃ fuel g pts, buildWorkflow fmt now req fuel = some g ∧
      sweepPoints req fuel req.min_temperature = some pts ∧
      List.Chain' (fun x y => F32.lt x y = true) pts ∧
      (fuel : Int) ≤
        max (req.max_temperature.toInt - req.min_temperature.toInt) (-1) + 2 := by
  obtain ⟨nm, km, hm⟩ : ∃ nm km, req.min_temperature = F32.fin nm km := by
    cases h : req.min_temperature with
    | nan => rw [h] at hmin; simp [F32.isFinite] at hmin
    | inf _ => rw [h] at hmin; simp [F32.isFinite] at hmin
    | fin n k => exact ⟨n, k, rfl⟩
  obtain ⟨nM, kM, hM⟩ : ∃ nM kM, req.max_temperature = F32.fin nM kM := by
    cases h : req.max_temperature with
    | nan => rw [h] at hmax; simp [F32.isFinite] at hmax
    | inf _ => rw [h] at hmax; simp [F32.isFinite] at hmax
    | fin n k => exact ⟨n, k, rfl⟩
  rw [hm] at hwf
  obtain ⟨fuel, pts, hfuel, hpts, hchain, hhead⟩ :=
    sweepPoints_of_strict_increase req nm nM km kM hm hM hinc
      (((F32.fin nM kM).toInt - (F32.fin nm km).toInt + 1).toNat) nm km hwf (le_refl _)
      (Int.self_le_toNat _)
  rw [← hm] at hpts
  obtain ⟨g, hg, _⟩ := buildWorkflow_eq fmt now req fuel pts hpts
  refine ⟨fuel, g, pts, hg, hpts, ?_, ?_⟩
  · cases pts with
    | nil => exact List.chain'_nil
    | cons p rest =>
      have hp : p = F32.fin nm km := hhead p (by simp)
      subst hp
      simpa [List.Chain'] using hchain
  · rw [hm, hM]
    have h1 : (fuel : Int) ≤
        (((F32.fin nM kM).toInt - (F32.fin nm km).toInt + 1).toNat : Int) + 1 := by
      exact_mod_cast hfuel
    rcases le_total 0 ((F32.fin nM kM).toInt - (F32.fin nm km).toInt + 1) with h | h
    · rw [Int.toNat_of_nonneg h] at h1
      have := le_max_left ((F32.fin nM kM).toInt - (F32.fin nm km).toInt) (-1)
      omega
    · rw [Int.toNat_eq_zero.mpr h] at h1
      have := le_max_right ((F32.fin nM kM).toInt - (F32.fin nm km).toInt) (-1)
      simp only [Nat.cast_zero] at h1
      omega

theorem F32.le_roundMag (n : Nat) : n - n % 2 ^ F32.shiftOf n ≤ F32.roundMag n := by
  unfold F32.roundMag
  simp only
  have hdm := Nat.div_add_mod n (2 ^ F32.shiftOf n)
  have hq : n / 2 ^ F32.shiftOf n * 2 ^ F32.shiftOf n = n - n % 2 ^ F32.shiftOf n := by
    rw [Nat.mul_comm]
    omega
  split
  · rw [← hq]
    exact Nat.mul_le_mul_right _ (Nat.le_succ _)
  · rw [hq]

/-- Adding a positive step that is at least one unit in the last place of the exact sum gives a
strictly larger value. -/
theorem F32.lt_add_of_ulp_le (a b : Nat) (hs : 2 ^ F32.shiftOf (a + b) ≤ b) :
    F32.lt (F32.fin false a) (F32.add (F32.fin false a) (F32.fin false b)) = true := by
  simp only [F32.add, if_true]
  unfold F32.round
  by_cases hc : 254 ≤ F32.shiftOf (a + b) ∨ F32.maxMag < F32.roundMag (a + b)
  · rw [if_pos hc]
    rfl
  · rw [if_neg hc]
    simp only [F32.lt, decide_eq_true_eq]
    have h1 := F32.le_roundMag (a + b)
    have h2 : (a + b) % 2 ^ F32.shiftOf (a + b) < 2 ^ F32.shiftOf (a + b) :=
      Nat.mod_lt _ (Nat.two_pow_pos _)
    omega

theorem sweep85_strictly_increasing (t : F32) (hfin : t.isFinite = true)
    (hge : F32.le sweep85.min_temperature t = true)
    (hle : F32.le t sweep85.max_temperature = true) :
    F32.lt t (F32.add t sweep85.step_temperature) = true := by
  cases t with
  | nan => simp [F32.isFinite] at hfin
  | inf _ => simp [F32.isFinite] at hfin
  | fin nt a =>
    have hge1 := (F32.le_fin_iff false nt (85 * 2 ^ 149) a).mp hge
    have hle1 := (F32.le_fin_iff nt false a (87 * 2 ^ 149)).mp hle
    cases nt with
    | true =>
      simp only [F32.toInt] at hge1
      have : (0 : Int) < ((85 * 2 ^ 149 : Nat) : Int) := by positivity
      omega
    | false =>
      simp only [F32.toInt, Nat.cast_le] at hge1 hle1
      have hstep : sweep85.step_temperature = F32.fin false (2 ^ 149) := by
        simp [sweep85, F32.ofNat]
      rw [hstep]
      have hsum : a + 2 ^ 149 < 2 ^ 24 * 2 ^ 132 := by
        have e : (2 : Nat) ^ 24 * 2 ^ 132 = 128 * 2 ^ 149 := by norm_num
        rw [e]
        omega
      have hshift : F32.shiftOf (a + 2 ^ 149) ≤ 132 :=
        F32.shiftOf_le _ 132 (by decide)
          ((Nat.div_lt_iff_lt_mul (Nat.two_pow_pos _)).mpr hsum)
      apply F32.lt_add_of_ulp_le a (2 ^ 149)
      exact le_trans (Nat.pow_le_pow_right (by decide) hshift)
        (Nat.pow_le_pow_right (by decide) (by decide))

/-- C17 (amended) at the sweep 85..87 with step 1. -/
theorem loop_terminates_of_strict_increase_witness :
    ∃ fuel g pts, buildWorkflow FormatFloat "1446654321" sweep85 fuel = some g ∧
      sweepPoints sweep85 fuel sweep85.min_temperature = some pts ∧
      List.Chain' (fun x y => F32.lt x y = true) pts ∧
      (fuel : Int) ≤
        max (sweep85.max_temperature.toInt - sweep85.min_temperature.toInt) (-1) + 2 :=
  loop_terminates_of_strict_increase FormatFloat "1446654321" sweep85 (by decide) (by decide)
    (by decide) (by decide)
    (fun t hfin _ hge hle => sweep85_strictly_increasing t hfin hge hle)

/-! ## Decimal digits -/

theorem foldl_digits_init (l : List Char) (a : Nat) :
    l.foldl (fun acc c => acc * 10 + (c.toNat - 48)) a =
      a * 10 ^ l.length + digitsValue l := by
  unfold digitsValue
  induction l generalizing a with
  | nil => simp
  | cons c rest ih =>
    rw [List.foldl_cons, ih, List.foldl_cons, ih (0 * 10 + (c.toNat - 48)), List.length_cons,
      pow_succ]
    ring

theorem digitsValue_append (l1 l2 : List Char) :
    digitsValue (l1 ++ l2) = digitsValue l1 * 10 ^ l2.length + digitsValue l2 := by
  have h := foldl_digits_init l2 (digitsValue l1)
  unfold digitsValue at h ⊢
  rw [List.foldl_append]
  exact h

theorem digitsValue_cons (c : Char) (l : List Char) :
    digitsValue (c :: l) = (c.toNat - 48) * 10 ^ l.length + digitsValue l := by
  have h := digitsValue_append [c] l
  simpa [digitsValue] using h

theorem digitChar_value (d : Nat) (hd : d < 10) : (Nat.digitChar d).toNat - 48 = d := by
  interval_cases d <;> decide

theorem isDigit_value_lt (c : Char) (h : c.isDigit = true) : c.toNat - 48 < 10 := by
  unfold Char.isDigit at h
  simp only [Bool.and_eq_true, decide_eq_true_eq] at h
  have h2 : c.val.toNat ≤ 57 := by
    have := h.2
    exact UInt32.le_def.mp (by simpa using this)
  unfold Char.toNat
  omega

theorem digitsValue_lt (l : List Char) (h : ∀ c ∈ l, c.isDigit = true) :
    digitsValue l < 10 ^ l.length := by
  induction l with
  | nil => simp [digitsValue]
  | cons c rest ih =>
    rw [digitsValue_cons, List.length_cons, pow_succ]
    have h1 := isDigit_value_lt c (h c (List.mem_cons_self _ _))
    have h2 := ih (fun x hx => h x (List.mem_cons_of_mem _ hx))
    have h3 : (c.toNat - 48) * 10 ^ rest.length ≤ 9 * 10 ^ rest.length :=
      Nat.mul_le_mul_right _ (by omega)
    omega

/-- The digits `Nat.toDigitsCore` puts in front of its accumulator: they spell `n`, without a
leading zero. -/
theorem toDigitsCore_spec (fuel n : Nat) (ds : List Char) (hn : n < fuel) :
    ∃ l, Nat.toDigitsCore 10 fuel n ds = l ++ ds ∧ digitsValue l = n ∧ 1 ≤ l.length ∧
      (∀ c ∈ l, c.isDigit = true) ∧ n < 10 ^ l.length ∧ (n ≠ 0 → 10 ^ (l.length - 1) ≤ n) := by
  induction fuel generalizing n ds with
  | zero => omega
  | succ k ih =>
    unfold Nat.toDigitsCore
    simp only
    have hd : n % 10 < 10 := Nat.mod_lt _ (by decide)
    by_cases h0 : n / 10 = 0
    · rw [if_pos h0]
      have hlt : n < 10 := by omega
      refine ⟨[Nat.digitChar (n % 10)], rfl, ?_, by simp, ?_, by simpa using hlt, ?_⟩
      · rw [digitsValue_cons, digitChar_value _ hd]
        simp [digitsValue, Nat.mod_eq_of_lt hlt]
      · intro c hc
        simp only [List.mem_singleton] at hc
        rw [hc]
        exact digitChar_isDigit _ hd
      · intro hne
        simp
        omega
    · rw [if_neg h0]
      obtain ⟨l, hl, hv, hlen, hdig, hub, hlb⟩ :=
        ih (n / 10) (Nat.digitChar (n % 10) :: ds) (by omega)
      refine ⟨l ++ [Nat.digitChar (n % 10)], ?_, ?_, ?_, ?_, ?_, ?_⟩
      · rw [hl]; simp
      · rw [digitsValue_append, hv, digitsValue_cons, digitChar_value _ hd]
        simp [digitsValue]
        omega
      · simp
      · intro c hc
        rcases List.mem_append.mp hc with h | h
        · exact hdig c h
        · simp only [List.mem_singleton] at h
          rw [h]
          exact digitChar_isDigit _ hd
      · rw [List.length_append, List.length_singleton, pow_succ]
        omega
      · intro _
        have := hlb h0
        rw [List.length_append, List.length_singleton, Nat.add_sub_cancel]
        have e : 10 ^ l.length = 10 ^ (l.length - 1) * 10 := by
          rw [← pow_succ]
          congr 1
          omega
        rw [e]
        omega

theorem repr_spec (n : Nat) :
    digitsValue (Nat.repr n).data = n ∧ 1 ≤ (Nat.repr n).data.length ∧
      (∀ c ∈ (Nat.repr n).data, c.isDigit = true) ∧ n < 10 ^ (Nat.repr n).data.length ∧
      (n ≠ 0 → 10 ^ ((Nat.repr n).data.length - 1) ≤ n) := by
  obtain ⟨l, hl, hrest⟩ := toDigitsCore_spec (n + 1) n [] (Nat.lt_succ_self n)
  have : (Nat.repr n).data = l := by
    unfold Nat.repr Nat.toDigits
    simp only [List.asString]
    rw [hl, List.append_nil]
  rw [this]
  exact hrest

theorem isDigit_ne_point (c : Char) (h : c.isDigit = true) : (c != '.') = true := by
  by_cases hc : c = '.'
  · subst hc
    exact absurd h (by decide)
  · simpa using hc

theorem takeWhile_digits_point (l1 l2 : List Char) (h : ∀ c ∈ l1, c.isDigit = true) :
    (l1 ++ '.' :: l2).takeWhile (fun c => c != '.') = l1 := by
  induction l1 with
  | nil => simp
  | cons c rest ih =>
    have hc := isDigit_ne_point c (h c (List.mem_cons_self _ _))
    rw [List.cons_append, List.takeWhile_cons, if_pos hc,
      ih (fun x hx => h x (List.mem_cons_of_mem _ hx))]

theorem dropWhile_digits_point (l1 l2 : List Char) (h : ∀ c ∈ l1, c.isDigit = true) :
    (l1 ++ '.' :: l2).dropWhile (fun c => c != '.') = '.' :: l2 := by
  induction l1 with
  | nil => simp
  | cons c rest ih =>
    have hc := isDigit_ne_point c (h c (List.mem_cons_self _ _))
    rw [List.cons_append, List.dropWhile_cons, if_pos hc,
      ih (fun x hx => h x (List.mem_cons_of_mem _ hx))]

theorem takeWhile_digits (l : List Char) (h : ∀ c ∈ l, c.isDigit = true) :
    l.takeWhile (fun c => c != '.') = l := by
  induction l with
  | nil => rfl
  | cons c rest ih =>
    have hc := isDigit_ne_point c (h c (List.mem_cons_self _ _))
    rw [List.takeWhile_cons, if_pos hc, ih (fun x hx => h x (List.mem_cons_of_mem _ hx))]

theorem dropWhile_digits (l : List Char) (h : ∀ c ∈ l, c.isDigit = true) :
    l.dropWhile (fun c => c != '.') = [] := by
  induction l with
  | nil => rfl
  | cons c rest ih =>
    have hc := isDigit_ne_point c (h c (List.mem_cons_self _ _))
    rw [List.dropWhile_cons, if_pos hc, ih (fun x hx => h x (List.mem_cons_of_mem _ hx))]

theorem decodeFixed_digits (s : String) (h : ∀ c ∈ s.data, c.isDigit = true) :
    decodeFixed s = digitsValue s.data * 10 ^ 149 := by
  unfold decodeFixed
  rw [takeWhile_digits _ h, dropWhile_digits _ h]
  simp [digitsValue]

theorem decodeFixed_point (i f : String) (hi : ∀ c ∈ i.data, c.isDigit = true) :
    decodeFixed (i ++ "." ++ f) =
      digitsValue i.data * 10 ^ 149 + digitsValue f.data * 10 ^ (149 - f.data.length) := by
  have hdata : (i ++ "." ++ f).data = i.data ++ '.' :: f.data := by
    simp [String.data_append]
  unfold decodeFixed
  rw [hdata, takeWhile_digits_point _ _ hi, dropWhile_digits_point _ _ hi]
  rfl

theorem stripZeros_spec (c f : Nat) :
    c = (stripZeros c f).1 * 10 ^ (f - (stripZeros c f).2) ∧ (stripZeros c f).2 ≤ f := by
  induction f generalizing c with
  | zero => simp [stripZeros]
  | succ k ih =>
    unfold stripZeros
    by_cases h0 : c % 10 = 0
    · rw [if_pos h0]
      obtain ⟨h1, h2⟩ := ih (c / 10)
      refine ⟨?_, Nat.le_succ_of_le h2⟩
      have e : k + 1 - (stripZeros (c / 10) k).2 = (k - (stripZeros (c / 10) k).2) + 1 := by
        omega
      rw [e, pow_succ, ← Nat.mul_assoc, ← h1]
      omega
    · rw [if_neg h0]
      simp

theorem fracDigits_spec (r f : Nat) (hr : r < 10 ^ f) :
    (fracDigits r f).data.length = f ∧ digitsValue (fracDigits r f).data = r := by
  obtain ⟨hv, hlen, hdig, hub, hlb⟩ := repr_spec (10 ^ f + r)
  have hdata : (fracDigits r f).data = (Nat.repr (10 ^ f + r)).data.tail := rfl
  rw [hdata]
  have hpos : 0 < 10 ^ f := Nat.pow_pos (by decide : 0 < 10)
  have hlb1 := hlb (by omega)
  cases hl : (Nat.repr (10 ^ f + r)).data with
  | nil => rw [hl] at hlen; simp at hlen
  | cons c rest =>
    rw [hl] at hv hub hlb1 hdig
    simp only [List.length_cons, Nat.add_sub_cancel] at hub hlb1
    simp only [List.tail_cons]
    have hlenf : rest.length = f := by
      have h1 : 10 ^ rest.length < 10 ^ (f + 1) := by
        have : 10 ^ f + r < 10 ^ (f + 1) := by rw [pow_succ]; omega
        omega
      have h2 : 10 ^ f < 10 ^ (rest.length + 1) := by omega
      have h3 := (Nat.pow_lt_pow_iff_right (by decide : 1 < 10)).mp h1
      have h4 := (Nat.pow_lt_pow_iff_right (by decide : 1 < 10)).mp h2
      omega
    refine ⟨hlenf, ?_⟩
    rw [digitsValue_cons, hlenf] at hv
    have hrest := digitsValue_lt rest (fun x hx => hdig x (List.mem_cons_of_mem _ hx))
    rw [hlenf] at hrest
    have hd : c.toNat - 48 = 1 := by
      rcases Nat.lt_or_ge (c.toNat - 48) 1 with h | h
      · have : c.toNat - 48 = 0 := by omega
        rw [this] at hv
        omega
      · rcases Nat.lt_or_ge 1 (c.toNat - 48) with h2 | h2
        · have : 2 * 10 ^ f ≤ (c.toNat - 48) * 10 ^ f := Nat.mul_le_mul_right _ h2
          omega
        · omega
    rw [hd] at hv
    omega

/-- Reading back a positional rendering gives the rendered value. -/
theorem decodeFixed_fmtFixed (c p : Nat) : decodeFixed (fmtFixed c p) = c * 10 ^ p := by
  unfold fmtFixed
  by_cases hp : 149 ≤ p
  · rw [if_pos hp, decodeFixed_digits _ (repr_spec _).2.2.1, (repr_spec _).1, Nat.mul_assoc,
      ← pow_add]
    congr 2
    omega
  · rw [if_neg hp]
    simp only
    obtain ⟨h1, h2⟩ := stripZeros_spec c (149 - p)
    generalize stripZeros c (149 - p) = cf at h1 h2
    obtain ⟨c1, f1⟩ := cf
    simp only at h1 h2 ⊢
    by_cases hf : f1 = 0
    · rw [if_pos hf, decodeFixed_digits _ (repr_spec _).2.2.1, (repr_spec _).1]
      subst hf
      rw [h1, Nat.mul_assoc, ← pow_add]
      congr 2
      omega
    · rw [if_neg hf, decodeFixed_point _ _ (repr_spec _).2.2.1, (repr_spec _).1]
      have hpos : 0 < 10 ^ f1 := Nat.pow_pos (by decide : 0 < 10)
      obtain ⟨hl, hv⟩ := fracDigits_spec (c1 % 10 ^ f1) f1 (Nat.mod_lt _ hpos)
      rw [hl, hv]
      have e149 : 10 ^ 149 = 10 ^ f1 * 10 ^ (149 - f1) := by
        rw [← pow_add]
        congr 1
        omega
      have hc : c * 10 ^ p = c1 * 10 ^ (149 - f1) := by
        rw [h1, Nat.mul_assoc, ← pow_add]
        congr 2
        omega
      rw [hc, e149]
      have hdm := Nat.div_add_mod c1 (10 ^ f1)
      calc c1 / 10 ^ f1 * (10 ^ f1 * 10 ^ (149 - f1)) + c1 % 10 ^ f1 * 10 ^ (149 - f1)
          = (10 ^ f1 * (c1 / 10 ^ f1) + c1 % 10 ^ f1) * 10 ^ (149 - f1) := by ring
        _ = c1 * 10 ^ (149 - f1) := by rw [hdm]

/-! ## The shortest decimal stays in the rounding interval -/

theorem shortestAt_spec (X lo hi D n c : Nat) (hlo : lo ≤ X) (hhi : X ≤ hi)
    (h : shortestAt X lo hi D n = some c) :
    lo ≤ c * (2 ^ 54 * 10 ^ (D - n)) ∧ c * (2 ^ 54 * 10 ^ (D - n)) ≤ hi := by
  unfold shortestAt at h
  simp only at h
  have hG : 0 < 2 ^ 54 * 10 ^ (D - n) :=
    Nat.mul_pos (Nat.two_pow_pos _) (Nat.pow_pos (by decide : 0 < 10))
  generalize 2 ^ 54 * 10 ^ (D - n) = G at h hG ⊢
  have hdown : X / G * G ≤ X := Nat.div_mul_le_self X G
  have hup : X < (X / G + 1) * G := by
    have := Nat.div_add_mod X G
    have hm := Nat.mod_lt X hG
    rw [Nat.add_mul, Nat.one_mul, Nat.mul_comm]
    omega
  by_cases h1 : lo ≤ X / G * G ∧ (X / G + 1) * G ≤ hi
  · rw [if_pos h1] at h
    by_cases h2 : X - X / G * G < (X / G + 1) * G - X
    · rw [if_pos h2] at h
      have := Option.some.inj h
      subst this
      exact ⟨h1.1, le_trans hdown hhi⟩
    · rw [if_neg h2] at h
      by_cases h3 : (X / G + 1) * G - X < X - X / G * G
      · rw [if_pos h3] at h
        have := Option.some.inj h
        subst this
        exact ⟨le_trans hlo (le_of_lt hup), h1.2⟩
      · rw [if_neg h3] at h
        have := Option.some.inj h
        subst this
        by_cases h4 : X / G % 2 = 0
        · rw [if_pos h4]
          exact ⟨h1.1, le_trans hdown hhi⟩
        · rw [if_neg h4]
          exact ⟨le_trans hlo (le_of_lt hup), h1.2⟩
  · rw [if_neg h1] at h
    by_cases h2 : lo ≤ X / G * G
    · rw [if_pos h2] at h
      have := Option.some.inj h
      subst this
      exact ⟨h2, le_trans hdown hhi⟩
    · rw [if_neg h2] at h
      by_cases h3 : (X / G + 1) * G ≤ hi
      · rw [if_pos h3] at h
        have := Option.some.inj h
        subst this
        exact ⟨le_trans hlo (le_of_lt hup), h3⟩
      · rw [if_neg h3] at h
        simp at h

/-- The decimal chosen for `k` lies within half a float64 unit in the last place of `k`. -/
theorem shortestDecimal_near (k : Nat) :
    k * 5 ^ 149 * 2 ^ 54 - 2 ^ bitLen k * 5 ^ 149 ≤
        (shortestDecimal k).1 * 10 ^ (shortestDecimal k).2 * 2 ^ 54 ∧
      (shortestDecimal k).1 * 10 ^ (shortestDecimal k).2 * 2 ^ 54 ≤
        k * 5 ^ 149 * 2 ^ 54 + 2 ^ bitLen k * 5 ^ 149 := by
  unfold shortestDecimal
  simp only
  generalize hlo : k * 5 ^ 149 * 2 ^ 54 -
    (if k = 2 ^ (bitLen k - 1) then 2 ^ (bitLen k - 1) * 5 ^ 149
      else 2 ^ bitLen k * 5 ^ 149) = lo
  have hlo1 : k * 5 ^ 149 * 2 ^ 54 - 2 ^ bitLen k * 5 ^ 149 ≤ lo := by
    rw [← hlo]
    have hw : (if k = 2 ^ (bitLen k - 1) then 2 ^ (bitLen k - 1) * 5 ^ 149
        else 2 ^ bitLen k * 5 ^ 149) ≤ 2 ^ bitLen k * 5 ^ 149 := by
      split
      · exact Nat.mul_le_mul_right _ (Nat.pow_le_pow_right (by decide) (Nat.sub_le _ _))
      · exact le_refl _
    omega
  have hlo2 : lo ≤ k * 5 ^ 149 * 2 ^ 54 := by rw [← hlo]; exact Nat.sub_le _ _
  cases hf : (List.range 17).findSome? (fun i =>
      (shortestAt (k * 5 ^ 149 * 2 ^ 54) lo (k * 5 ^ 149 * 2 ^ 54 + 2 ^ bitLen k * 5 ^ 149)
        (decLen (k * 5 ^ 149)) (i + 1)).map
        (fun c => (c, decLen (k * 5 ^ 149) - (i + 1)))) with
  | none =>
    simp only [Option.getD_none, pow_zero, Nat.mul_one]
    omega
  | some cp =>
    simp only [Option.getD_some]
    obtain ⟨i, _, hi⟩ := List.exists_of_findSome?_eq_some hf
    cases hs : shortestAt (k * 5 ^ 149 * 2 ^ 54) lo
        (k * 5 ^ 149 * 2 ^ 54 + 2 ^ bitLen k * 5 ^ 149) (decLen (k * 5 ^ 149)) (i + 1) with
    | none => rw [hs] at hi; simp at hi
    | some c =>
      rw [hs] at hi
      simp only [Option.map_some', Option.some.injEq] at hi
      obtain ⟨h1, h2⟩ := shortestAt_spec _ _ _ _ _ _ hlo2 (Nat.le_add_right _ _) hs
      rw [← hi]
      simp only
      have e : c * 10 ^ (decLen (k * 5 ^ 149) - (i + 1)) * 2 ^ 54 =
          c * (2 ^ 54 * 10 ^ (decLen (k * 5 ^ 149) - (i + 1))) := by ring
      rw [e]
      exact ⟨le_trans hlo1 h1, h2⟩

/-! ## Distinct binary32 numbers have disjoint rounding intervals -/

theorem F32.shiftOf_min (n j : Nat) (hj : j < F32.shiftOf n) : 2 ^ 24 ≤ n / 2 ^ j := by
  unfold F32.shiftOf at hj
  cases hf : (List.range 254).find? (fun s => decide (n / 2 ^ s < 2 ^ 24)) with
  | none =>
    rw [hf] at hj
    simp only [Option.getD_none] at hj
    have := List.find?_range_eq_none.mp hf j hj
    simp only [Bool.not_eq_true', decide_eq_false_iff_not] at this
    omega
  | some i =>
    rw [hf] at hj
    simp only [Option.getD_some] at hj
    have := (List.find?_range_eq_some.mp hf).2.2 j hj
    simp only [Bool.not_eq_true', decide_eq_false_iff_not] at this
    omega

theorem F32.shiftOf_mono (n m : Nat) (hnm : n ≤ m) (hm : F32.shiftOf m < 254) :
    F32.shiftOf n ≤ F32.shiftOf m :=
  F32.shiftOf_le n _ hm
    (lt_of_le_of_lt (Nat.div_le_div_right hnm) (F32.shiftOf_spec m hm))

theorem F32.representable_shift (k : Nat) (h : F32.Representable k) :
    F32.shiftOf k < 254 ∧ 2 ^ F32.shiftOf k ∣ k := by
  unfold F32.Representable F32.round at h
  by_cases hc : 254 ≤ F32.shiftOf k ∨ F32.maxMag < F32.roundMag k
  · rw [if_pos hc] at h
    exact absurd h (by simp)
  · rw [if_neg hc] at h
    have hr : F32.roundMag k = k := (F32.fin.inj h).2
    refine ⟨by omega, ?_⟩
    unfold F32.roundMag at hr
    simp only at hr
    exact Dvd.intro_left _ hr

theorem bitLen_le (k : Nat) (hk : 1 ≤ k) : 2 ^ bitLen k ≤ 2 * k := by
  unfold bitLen
  by_cases hs : k < 2 ^ 24
  · rw [if_pos hs]
    cases hf : (List.range 25).find? (fun b => decide (k < 2 ^ b)) with
    | none =>
      have := List.find?_range_eq_none.mp hf 24 (by decide)
      simp only [Bool.not_eq_true', decide_eq_false_iff_not] at this
      exact absurd hs this
    | some b =>
      simp only [Option.getD_some]
      obtain ⟨hb, _, hmin⟩ := List.find?_range_eq_some.mp hf
      cases b with
      | zero =>
        simp only [pow_zero, decide_eq_true_eq] at hb
        omega
      | succ j =>
        have := hmin j (Nat.lt_succ_self j)
        simp only [Bool.not_eq_true', decide_eq_false_iff_not] at this
        rw [pow_succ]
        omega
  · rw [if_neg hs]
    cases hsh : F32.shiftOf k with
    | zero =>
      have := F32.shiftOf_spec k (by rw [hsh]; decide)
      rw [hsh] at this
      simp only [pow_zero, Nat.div_one] at this
      exact absurd this hs
    | succ j =>
      have h1 := F32.shiftOf_min k j (by rw [hsh]; exact Nat.lt_succ_self j)
      have h2 := (Nat.le_div_iff_mul_le (Nat.two_pow_pos j)).mp h1
      have e : 2 ^ (j + 1 + 24) = 2 * (2 ^ 24 * 2 ^ j) := by
        rw [pow_add, pow_succ]
        ring
      rw [e]
      omega

/-- Two different binary32 magnitudes are at least one unit in the last place of the larger
apart (half a unit when the larger is a power of two). -/
theorem F32.spacing (k m : Nat) (hlt : k < m) (hk : F32.Representable k)
    (hm : F32.Representable m) : 2 ^ F32.shiftOf m ≤ 2 * (m - k) := by
  obtain ⟨hsk, hdk⟩ := F32.representable_shift k hk
  obtain ⟨hsm, hdm⟩ := F32.representable_shift m hm
  have hmono := F32.shiftOf_mono k m (le_of_lt hlt) hsm
  have hdk2 : 2 ^ F32.shiftOf k ∣ m := dvd_trans (pow_dvd_pow 2 hmono) hdm
  have hdiff : 2 ^ F32.shiftOf k ∣ m - k := Nat.dvd_sub' hdk2 hdk
  have hge : 2 ^ F32.shiftOf k ≤ m - k := Nat.le_of_dvd (by omega) hdiff
  by_cases hclose : F32.shiftOf m ≤ F32.shiftOf k + 1
  · have : 2 ^ F32.shiftOf m ≤ 2 ^ (F32.shiftOf k + 1) :=
      Nat.pow_le_pow_right (by decide) hclose
    rw [pow_succ] at this
    omega
  · obtain ⟨u, hu⟩ : ∃ u, F32.shiftOf m = u + 2 := ⟨F32.shiftOf m - 2, by omega⟩
    have h1 := F32.shiftOf_min m (u + 1) (by omega)
    have h2 := (Nat.le_div_iff_mul_le (Nat.two_pow_pos _)).mp h1
    have h3 := (Nat.div_lt_iff_lt_mul (Nat.two_pow_pos _)).mp (F32.shiftOf_spec k hsk)
    have h4 : 2 ^ F32.shiftOf k ≤ 2 ^ u := Nat.pow_le_pow_right (by decide) (by omega)
    have h5 : 2 ^ 24 * 2 ^ F32.shiftOf k ≤ 2 ^ 24 * 2 ^ u := Nat.mul_le_mul_left _ h4
    rw [hu]
    have e1 : 2 ^ (u + 2) = 4 * 2 ^ u := by rw [pow_add]; ring
    have e2 : 2 ^ (u + 1) = 2 * 2 ^ u := by rw [pow_succ]; ring
    rw [e2] at h2
    rw [e1]
    have hupos : 0 < 2 ^ u := Nat.two_pow_pos u
    generalize 2 ^ u = U at *
    generalize 2 ^ F32.shiftOf k = S at *
    norm_num at h2 h3 h5
    omega

/-- The rounding intervals of two different positive binary32 magnitudes do not meet. -/
theorem intervals_disjoint (k m : Nat) (hk1 : 1 ≤ k) (hlt : k < m)
    (hk : F32.Representable k) (hm : F32.Representable m) :
    k * 5 ^ 149 * 2 ^ 54 + 2 ^ bitLen k * 5 ^ 149 <
      m * 5 ^ 149 * 2 ^ 54 - 2 ^ bitLen m * 5 ^ 149 := by
  have hbk := bitLen_le k hk1
  have hbm := bitLen_le m (by omega)
  have hsp := F32.spacing k m hlt hk hm
  obtain ⟨hsm, _⟩ := F32.representable_shift m hm
  have hm24 := (Nat.div_lt_iff_lt_mul (Nat.two_pow_pos _)).mp (F32.shiftOf_spec m hsm)
  have key : k * 2 ^ 54 + 2 ^ bitLen k + 2 ^ bitLen m < m * 2 ^ 54 := by
    generalize 2 ^ bitLen k = A at *
    generalize 2 ^ bitLen m = B at *
    generalize 2 ^ F32.shiftOf m = S at *
    norm_num at hm24 ⊢
    omega
  have hF : 0 < 5 ^ 149 := Nat.pow_pos (by decide : 0 < 5)
  have hmul := Nat.mul_lt_mul_of_pos_right key hF
  apply Nat.lt_sub_of_add_lt
  calc k * 5 ^ 149 * 2 ^ 54 + 2 ^ bitLen k * 5 ^ 149 + 2 ^ bitLen m * 5 ^ 149
      = (k * 2 ^ 54 + 2 ^ bitLen k + 2 ^ bitLen m) * 5 ^ 149 := by ring
    _ < m * 2 ^ 54 * 5 ^ 149 := hmul
    _ = m * 5 ^ 149 * 2 ^ 54 := by ring

/-! ## The formatter separates binary32 numbers -/

theorem shortestDecimal_pos (k : Nat) (hk : 1 ≤ k) :
    0 < (shortestDecimal k).1 * 10 ^ (shortestDecimal k).2 := by
  have h := (shortestDecimal_near k).1
  have hb := bitLen_le k hk
  have hF : 0 < 5 ^ 149 := Nat.pow_pos (by decide : 0 < 5)
  have hlt : 2 ^ bitLen k * 5 ^ 149 < k * 5 ^ 149 * 2 ^ 54 := by
    have h1 : 2 ^ bitLen k < k * 2 ^ 54 := by
      generalize 2 ^ bitLen k = A at *
      norm_num
      omega
    calc 2 ^ bitLen k * 5 ^ 149 < k * 2 ^ 54 * 5 ^ 149 := Nat.mul_lt_mul_of_pos_right h1 hF
      _ = k * 5 ^ 149 * 2 ^ 54 := by ring
  by_contra hzero
  have hz : (shortestDecimal k).1 * 10 ^ (shortestDecimal k).2 = 0 := by omega
  rw [hz] at h
  omega

theorem shortestDecimal_inj (k m : Nat) (hk1 : 1 ≤ k) (hm1 : 1 ≤ m)
    (hk : F32.Representable k) (hm : F32.Representable m)
    (h : (shortestDecimal k).1 * 10 ^ (shortestDecimal k).2 =
      (shortestDecimal m).1 * 10 ^ (shortestDecimal m).2) : k = m := by
  obtain ⟨hk_lo, hk_hi⟩ := shortestDecimal_near k
  obtain ⟨hm_lo, hm_hi⟩ := shortestDecimal_near m
  rw [h] at hk_lo hk_hi
  rcases Nat.lt_trichotomy k m with hlt | heq | hgt
  · have := intervals_disjoint k m hk1 hlt hk hm
    omega
  · exact heq
  · have := intervals_disjoint m k hm1 hgt hm hk
    omega

theorem decodeFixed_zero : decodeFixed "0" = 0 := by
  rw [decodeFixed_digits "0" (by decide)]
  simp [digitsValue]

/-- The unsigned part of the rendering of a finite number separates binary32 magnitudes. -/
theorem magnitude_string_inj (k m : Nat) (hk : F32.Representable k) (hm : F32.Representable m)
    (h : (if k = 0 then "0" else fmtFixed (shortestDecimal k).1 (shortestDecimal k).2) =
      (if m = 0 then "0" else fmtFixed (shortestDecimal m).1 (shortestDecimal m).2)) :
    k = m := by
  have hd := congrArg decodeFixed h
  by_cases hk0 : k = 0
  · by_cases hm0 : m = 0
    · rw [hk0, hm0]
    · rw [if_pos hk0, if_neg hm0, decodeFixed_zero, decodeFixed_fmtFixed] at hd
      have := shortestDecimal_pos m (by omega)
      omega
  · by_cases hm0 : m = 0
    · rw [if_neg hk0, if_pos hm0, decodeFixed_zero, decodeFixed_fmtFixed] at hd
      have := shortestDecimal_pos k (by omega)
      omega
    · rw [if_neg hk0, if_neg hm0, decodeFixed_fmtFixed, decodeFixed_fmtFixed] at hd
      exact shortestDecimal_inj k m (by omega) (by omega) hk hm hd

theorem repr_head (n : Nat) : ∃ c rest, (Nat.repr n).data = c :: rest ∧ c.isDigit = true := by
  obtain ⟨_, hlen, hdig, _, _⟩ := repr_spec n
  cases hl : (Nat.repr n).data with
  | nil => rw [hl] at hlen; simp at hlen
  | cons c rest =>
    exact ⟨c, rest, rfl, hdig c (by rw [hl]; exact List.mem_cons_self _ _)⟩

theorem fmtFixed_head (c p : Nat) :
    ∃ d rest, (fmtFixed c p).data = d :: rest ∧ d.isDigit = true := by
  unfold fmtFixed
  by_cases hp : 149 ≤ p
  · rw [if_pos hp]
    exact repr_head _
  · rw [if_neg hp]
    simp only
    by_cases hf : (stripZeros c (149 - p)).2 = 0
    · rw [if_pos hf]
      exact repr_head _
    · rw [if_neg hf]
      obtain ⟨d, rest, hd, hdig⟩ := repr_head ((stripZeros c (149 - p)).1 /
        10 ^ (stripZeros c (149 - p)).2)
      refine ⟨d, rest ++ ("." ++ fracDigits ((stripZeros c (149 - p)).1 %
        10 ^ (stripZeros c (149 - p)).2) (stripZeros c (149 - p)).2).data, ?_, hdig⟩
      simp only [String.data_append, hd, List.cons_append, List.append_assoc]

theorem magnitude_string_head (k : Nat) :
    ∃ d rest,
      (if k = 0 then "0" else fmtFixed (shortestDecimal k).1 (shortestDecimal k).2).data =
        d :: rest ∧ d.isDigit = true := by
  by_cases hk : k = 0
  · rw [if_pos hk]
    exact ⟨'0', [], rfl, by decide⟩
  · rw [if_neg hk]
    exact fmtFixed_head _ _

theorem FormatFloat_fin_data (neg : Bool) (k : Nat) :
    (FormatFloat (F32.fin neg k)).data =
      (if neg = true then ['-'] else []) ++
        (if k = 0 then "0" else fmtFixed (shortestDecimal k).1 (shortestDecimal k).2).data := by
  unfold FormatFloat
  cases neg <;> simp [String.data_append]

/-- On the values a `float32` variable can hold the formatter model is injective. -/
theorem FormatFloat_inj (a b : F32) (ha : F32.WellFormed a) (hb : F32.WellFormed b)
    (h : FormatFloat a = FormatFloat b) : a = b := by
  have hdata := congrArg String.data h
  cases a with
  | nan =>
    cases b with
    | nan => rfl
    | inf nb => cases nb <;> exact absurd h (by decide)
    | fin nb kb =>
      rw [FormatFloat_fin_data] at hdata
      obtain ⟨d, rest, hd, hdig⟩ := magnitude_string_head kb
      rw [hd] at hdata
      cases nb
      · simp only [Bool.false_eq_true, if_false, List.nil_append] at hdata
        have : d = 'N' := (List.cons.inj hdata).1.symm
        rw [this] at hdig
        exact absurd hdig (by decide)
      · simp only [if_true, List.singleton_append] at hdata
        exact absurd (List.cons.inj hdata).1 (by decide)
  | inf na =>
    cases b with
    | nan => cases na <;> exact absurd h (by decide)
    | inf nb => cases na <;> cases nb <;> first | rfl | exact absurd h (by decide)
    | fin nb kb =>
      rw [FormatFloat_fin_data] at hdata
      obtain ⟨d, rest, hd, hdig⟩ := magnitude_string_head kb
      rw [hd] at hdata
      cases nb
      · simp only [Bool.false_eq_true, if_false, List.nil_append] at hdata
        cases na
        · have : d = '+' := (List.cons.inj hdata).1.symm
          rw [this] at hdig
          exact absurd hdig (by decide)
        · have : d = '-' := (List.cons.inj hdata).1.symm
          rw [this] at hdig
          exact absurd hdig (by decide)
      · simp only [if_true, List.singleton_append] at hdata
        cases na
        · exact absurd (List.cons.inj hdata).1 (by decide)
        · have h2 := (List.cons.inj hdata).2
          have : d = 'I' := (List.cons.inj h2).1.symm
          rw [this] at hdig
          exact absurd hdig (by decide)
  | fin na ka =>
    cases b with
    | nan =>
      rw [FormatFloat_fin_data] at hdata
      obtain ⟨d, rest, hd, hdig⟩ := magnitude_string_head ka
      rw [hd] at hdata
      cases na
      · simp only [Bool.false_eq_true, if_false, List.nil_append] at hdata
        have : d = 'N' := (List.cons.inj hdata).1
        rw [this] at hdig
        exact absurd hdig (by decide)
      · simp only [if_true, List.singleton_append] at hdata
        exact absurd (List.cons.inj hdata).1 (by decide)
    | inf nb =>
      rw [FormatFloat_fin_data] at hdata
      obtain ⟨d, rest, hd, hdig⟩ := magnitude_string_head ka
      rw [hd] at hdata
      cases na
      · simp only [Bool.false_eq_true, if_false, List.nil_append] at hdata
        cases nb
        · have : d = '+' := (List.cons.inj hdata).1
          rw [this] at hdig
          exact absurd hdig (by decide)
        · have : d = '-' := (List.cons.inj hdata).1
          rw [this] at hdig
          exact absurd hdig (by decide)
      · simp only [if_true, List.singleton_append] at hdata
        cases nb
        · exact absurd (List.cons.inj hdata).1 (by decide)
        · have h2 := (List.cons.inj hdata).2
          have : d = 'I' := (List.cons.inj h2).1
          rw [this] at hdig
          exact absurd hdig (by decide)
    | fin nb kb =>
      rw [FormatFloat_fin_data, FormatFloat_fin_data] at hdata
      have hbody : ∀ (h2 : (if ka = 0 then "0"
            else fmtFixed (shortestDecimal ka).1 (shortestDecimal ka).2).data =
          (if kb = 0 then "0"
            else fmtFixed (shortestDecimal kb).1 (shortestDecimal kb).2).data), ka = kb :=
        fun h2 => magnitude_string_inj ka kb ha hb (String.ext h2)
      obtain ⟨d1, r1, hd1, hdig1⟩ := magnitude_string_head ka
      obtain ⟨d2, r2, hd2, hdig2⟩ := magnitude_string_head kb
      cases na <;> cases nb
      · simp only [Bool.false_eq_true, if_false, List.nil_append] at hdata
        rw [hbody hdata]
      · simp only [Bool.false_eq_true, if_false, List.nil_append, if_true,
          List.singleton_append] at hdata
        rw [hd1] at hdata
        have : d1 = '-' := (List.cons.inj hdata).1
        rw [this] at hdig1
        exact absurd hdig1 (by decide)
      · simp only [Bool.false_eq_true, if_false, List.nil_append, if_true,
          List.singleton_append] at hdata
        rw [hd2] at hdata
        have : d2 = '-' := (List.cons.inj hdata).1.symm
        rw [this] at hdig2
        exact absurd hdig2 (by decide)
      · simp only [if_true, List.singleton_append] at hdata
        rw [hbody (List.cons.inj hdata).2]

theorem sweepPoints_wellFormed (req : SweepRequest) (fuel : Nat) (t : F32) (pts : List F32)
    (hwf : F32.WellFormed t) (h : sweepPoints req fuel t = some pts) :
    ∀ x ∈ pts, F32.WellFormed x := by
  induction fuel generalizing t pts with
  | zero => simp [sweepPoints] at h
  | succ n ih =>
    unfold sweepPoints at h
    by_cases hle : F32.le t req.max_temperature = true
    · rw [if_pos hle] at h
      cases hs : sweepPoints req n (F32.add t req.step_temperature) with
      | none => rw [hs] at h; simp at h
      | some rest =>
        rw [hs] at h
        have hp : pts = t :: rest := (Option.some.inj h).symm
        subst hp
        intro x hx
        rcases List.mem_cons.mp hx with rfl | hmem
        · exact hwf
        · exact ih _ _ (F32.add_wellFormed _ _) hs x hmem
    · rw [if_neg hle] at h
      have hp : pts = [] := (Option.some.inj h).symm
      subst hp
      simp

/-! ## The values of a float32 variable -/

/-- Decoding a bit pattern from its three fields. -/
theorem F32.ofBits_fields (w e f : Nat) (sign : Bool) (h1 : w / 2 ^ 23 % 256 = e)
    (h2 : w % 2 ^ 23 = f) (h3 : decide (w / 2 ^ 31 % 2 = 1) = sign) :
    F32.ofBits w =
      if e = 255 then (if f = 0 then F32.inf sign else F32.nan)
      else if e = 0 then F32.fin sign f
      else F32.fin sign ((2 ^ 23 + f) * 2 ^ (e - 1)) := by
  subst h1 h2 h3
  rfl

/-- Every bit pattern denotes a well-formed value. -/
theorem F32.ofBits_wellFormed (w : Nat) : F32.WellFormed (F32.ofBits w) := by
  rw [F32.ofBits_fields w _ _ _ rfl rfl rfl]
  by_cases he : w / 2 ^ 23 % 256 = 255
  · rw [if_pos he]
    by_cases hf : w % 2 ^ 23 = 0
    · rw [if_pos hf]; trivial
    · rw [if_neg hf]; trivial
  · rw [if_neg he]
    have hfl : w % 2 ^ 23 < 2 ^ 23 := Nat.mod_lt _ (Nat.two_pow_pos _)
    by_cases h0 : w / 2 ^ 23 % 256 = 0
    · rw [if_pos h0]
      show F32.Representable (w % 2 ^ 23)
      rw [F32.representable_iff]
      refine ⟨?_, w % 2 ^ 23, 0, by omega, by simp⟩
      have : (2 : Nat) ^ 23 ≤ F32.maxMag := by decide
      omega
    · rw [if_neg h0]
      show F32.Representable ((2 ^ 23 + w % 2 ^ 23) * 2 ^ (w / 2 ^ 23 % 256 - 1))
      rw [F32.representable_iff]
      have hel : w / 2 ^ 23 % 256 < 256 := Nat.mod_lt _ (by decide)
      refine ⟨?_, 2 ^ 23 + w % 2 ^ 23, w / 2 ^ 23 % 256 - 1, by omega, rfl⟩
      have h1 : 2 ^ 23 + w % 2 ^ 23 ≤ 2 ^ 24 - 1 := by omega
      have h2 : 2 ^ (w / 2 ^ 23 % 256 - 1) ≤ 2 ^ 253 :=
        Nat.pow_le_pow_right (by decide) (by omega)
      unfold F32.maxMag
      exact Nat.mul_le_mul h1 h2

/-- The well-formed values are exactly the values of the 32-bit patterns. -/
theorem F32.wellFormed_iff_ofBits (x : F32) :
    F32.WellFormed x ↔ ∃ w, w < 2 ^ 32 ∧ F32.ofBits w = x := by
  constructor
  · intro hx
    cases x with
    | nan => exact ⟨255 * 2 ^ 23 + 1, by decide, by decide⟩
    | inf neg =>
      cases neg
      · exact ⟨255 * 2 ^ 23, by decide, by decide⟩
      · exact ⟨2 ^ 31 + 255 * 2 ^ 23, by decide, by decide⟩
    | fin neg k =>
      have hk : F32.Representable k := hx
      obtain ⟨hs, hdvd⟩ := F32.representable_shift k hk
      have hq := F32.shiftOf_spec k hs
      by_cases hsmall : k < 2 ^ 23
      · refine ⟨(if neg = true then 2 ^ 31 else 0) + k, ?_, ?_⟩
        · cases neg <;> simp <;> omega
        · rw [F32.ofBits_fields _ 0 k neg (by cases neg <;> simp <;> omega)
            (by cases neg <;> simp <;> omega) (by cases neg <;> simp <;> omega)]
          simp
      · have hqlow : 2 ^ 23 ≤ k / 2 ^ F32.shiftOf k := by
          cases hsh : F32.shiftOf k with
          | zero => simp; omega
          | succ j =>
            have h1 := F32.shiftOf_min k j (by rw [hsh]; exact Nat.lt_succ_self j)
            have h2 : k / 2 ^ (j + 1) = k / 2 ^ j / 2 := by
              rw [pow_succ, Nat.div_div_eq_div_mul]
            rw [h2]
            omega
        have hkq : k / 2 ^ F32.shiftOf k * 2 ^ F32.shiftOf k = k := Nat.div_mul_cancel hdvd
        generalize hqd : k / 2 ^ F32.shiftOf k = q at hq hqlow hkq
        generalize hsd : F32.shiftOf k = s at hs hkq
        refine ⟨(if neg = true then 2 ^ 31 else 0) + (s + 1) * 2 ^ 23 + (q - 2 ^ 23), ?_, ?_⟩
        · cases neg <;> simp <;> omega
        · rw [F32.ofBits_fields _ (s + 1) (q - 2 ^ 23) neg (by cases neg <;> simp <;> omega)
            (by cases neg <;> simp <;> omega) (by cases neg <;> simp <;> omega)]
          have e4 : 2 ^ 23 + (q - 2 ^ 23) = q := by omega
          have e5 : ¬ s + 1 = 255 := by omega
          rw [if_neg e5, if_neg (Nat.succ_ne_zero s), e4, Nat.add_sub_cancel, hkq]
  · rintro ⟨w, _, rfl⟩
    exact F32.ofBits_wellFormed w

/-! ## C3: declared signals and producers -/

/-- C3. In every built graph, for any request, movie on or off: every name in a process's `Outs`
is the name of exactly one entry of `Signals`, and every name in the `Ins` of the process at
position `i` is `"start"` or is in the `Outs` of a process at an earlier position. The formatter
is the model of `strconv.FormatFloat`; that it gives different strings to the visited
temperatures is proved (`FormatFloat_inj`, `sweepPoints_nodup`), not assumed. The hypothesis
`hwf` says that `min_temperature` is a value of the Go type `float32`: it holds of the value of
every 32-bit pattern and of nothing else (`F32.wellFormed_iff_ofBits`), and only keeps out the
magnitudes of the model's carrier that no `float32` variable can hold. -/
theorem signals_declared_once_and_produced_earlier (now : String) (req : SweepRequest)
    (fuel : Nat) (g : WorkflowObject) (hwf : F32.WellFormed req.min_temperature)
    (hbuild : buildWorkflow FormatFloat now req fuel = some g) :
    (∀ p ∈ g.Processes, ∀ o ∈ p.Outs, (g.Signals.map (fun s => s.Name)).count o = 1) ∧
    (∀ (i : Nat) (p : ProcessesType), g.Processes[i]? = some p → ∀ x ∈ p.Ins,
      x = "start" ∨ ∃ (j : Nat) (q : ProcessesType),
        j < i ∧ g.Processes[j]? = some q ∧ x ∈ q.Outs) := by
  obtain ⟨pts, hpts⟩ := sweepPoints_of_buildWorkflow FormatFloat now req fuel g hbuild
  have hw := sweepPoints_wellFormed req fuel _ pts hwf hpts
  exact signals_declared_of_distinct_formats FormatFloat now req fuel g pts hbuild hpts
    (fun a ha b hb h => FormatFloat_inj a b (hw a ha) (hw b hb) h)

/-- C3 at the graph of the movie sweep 85..87. -/
theorem signals_declared_once_and_produced_earlier_witness :
    (∀ p ∈ graph85Movie.Processes, ∀ o ∈ p.Outs,
      (graph85Movie.Signals.map (fun s => s.Name)).count o = 1) ∧
    (∀ (i : Nat) (p : ProcessesType), graph85Movie.Processes[i]? = some p → ∀ x ∈ p.Ins,
      x = "start" ∨ ∃ (j : Nat) (q : ProcessesType),
        j < i ∧ graph85Movie.Processes[j]? = some q ∧ x ∈ q.Outs) :=
  signals_declared_once_and_produced_earlier "1446654321" sweep85Movie 4 graph85Movie
    (by decide) (by decide)

end HyperflowUI
